import Mathlib

/-!
# gonvm: naming, path resolution, activation pipeline and inventory

A shallow embedding of `gonvm/gonvm.go` and `utils/download.go`, and the
properties of the version manager proved over it.

## Embedding

* Go strings are Lean `String`s; `fmt.Sprintf` with `%s` verbs is string
  concatenation.  The host constants `runtime.GOOS` and `runtime.GOARCH` are
  the two fields of `Platform`.
* A Go result `(string, error)` is an `Except String String`: `(p, nil)` is
  `Except.ok p` and `("", err)` is `Except.error err.Error()` (every error
  return of the source carries `""`).  A Go `error` result is an
  `Except String Unit`.
* The functions that touch the disk or the network take the state `World`
  and return their result together with the new state, also when they fail:
  what a failed step has already done stays done.
* The library calls are modelled in the namespaces `os`, `http`, `filepath`
  and `strings`.  What a call returns beyond what the filesystem determines
  (a refusal by the operating system, the answer of the server, the content
  of an archive) is read from the environment `Env`.
* `filepath.Join` and `filepath.Clean` are the lexical normalisation of Go
  for the separator "/".
* The filesystem is a finite map from path strings to nodes: an entry is
  kept under the path at which it physically stands, and `FS.find` reads what
  stands at such a path.  The library calls resolve the path they are given
  (`FS.real`): a symbolic link at an ancestor of the path is followed, a link
  at the path itself is followed by `os.Stat` and `os.Create`, not by
  `os.RemoveAll`, `os.Symlink` and the directory creation of `os.MkdirAll`.
  The target of a link is taken as a clean path.  The root directory and the
  working directory are not entries of the map.
* `utils.Unarchive` is not among the sources at hand and is modelled from its
  contract in the specification.
-/

namespace GoNVM

/-! ## Host platform and environment -/

/-- The values of `runtime.GOOS` and `runtime.GOARCH` of the running host. -/
structure Platform where
  GOOS : String
  GOARCH : String
deriving DecidableEq, Repr

/-- What `http.Get` hands back: a transport error, or a response with its
status code and body. -/
inductive HttpResult where
  | transportError (msg : String)
  | response (StatusCode : Nat) (Body : String)
deriving DecidableEq, Repr

/-- Everything outside the program that its library calls consult.  The
environment is fixed during a run and between two consecutive runs ("no
external tampering"): whether a library call is refused, and with which
message, depends only on the call and its arguments.

* `home` is the result of `os.UserHomeDir()`;
* `statErr p` says that `os.Stat p` fails with an error that the filesystem
  does not account for and that is not "does not exist" (for instance a
  permission error);
* `mkdirErr`, `createErr`, `removeAllErr`, `symlinkErr` give the error with
  which the corresponding system call is refused, if it is;
* `copyErr out` gives, when the copy to the file `out` breaks off, the number
  of characters written before the failure and the error;
* `httpGet url` is the outcome of `http.Get(url)`;
* `unarchiveErr src dst` and `archiveTop src` describe the archive collaborator:
  whether extraction is refused, and the name of the top-level directory
  stored in the archive at `src`;
* `globDirs dir` is what `filepath.Glob` finds for a directory pattern `dir`
  that holds metacharacters: the directories it matches, or a pattern error. -/
structure Env where
  platform : Platform
  home : Except String String
  statErr : String → Bool
  mkdirErr : String → Option String
  httpGet : String → HttpResult
  createErr : String → Option String
  copyErr : String → Option (Nat × String)
  unarchiveErr : String → String → Option String
  archiveTop : String → String
  removeAllErr : String → Option String
  symlinkErr : String → String → Option String
  globDirs : String → Except String (List String)

/-! ## Library models: `filepath.Clean`, `filepath.Join`, `filepath.Dir` -/

namespace filepath

/-- The pieces of a path between its separators; `acc` is the piece being
read. -/
def components (acc : List Char) : List Char → List (List Char)
  | [] => [acc]
  | c :: cs => if c = '/' then acc :: components [] cs else components (acc ++ [c]) cs

/-- One step of `Clean`: what the element `c` does to the elements kept so
far (`stack`, last one first).  An empty element and "." are dropped; ".."
removes the element before it, is dropped at the root, and is kept at the
start of a relative path; any other element is kept. -/
def cleanStep (rooted : Bool) (stack : List (List Char)) (c : List Char) : List (List Char) :=
  if c = [] ∨ c = ['.'] then stack
  else if c = ['.', '.'] then
    match stack with
    | [] => if rooted then [] else [c]
    | top :: rest => if top = ['.', '.'] then c :: top :: rest else rest
  else c :: stack

/-- The elements joined by single separators. -/
def joinComps : List (List Char) → List Char
  | [] => []
  | [c] => c
  | c :: d :: rest => c ++ '/' :: joinComps (d :: rest)

/-- Models `filepath.Clean(path)` for the separator "/": the shortest path
name equivalent to `path` by purely lexical processing; "." for an empty
result. -/
def Clean (path : String) : String :=
  let rooted := path.data.head? == some '/'
  let stack := (components [] path.data).foldl (cleanStep rooted) []
  let out := (if rooted then ['/'] else []) ++ joinComps stack.reverse
  if out = [] then "." else String.mk out

/-- Models `filepath.Join(a, b)`: empty elements are ignored, the rest is joined
by "/" and cleaned; the empty string when both are empty. -/
def Join (a b : String) : String :=
  if a ≠ "" then Clean (a ++ "/" ++ b)
  else if b ≠ "" then Clean b
  else ""

/-- A path element that `Clean` keeps as it is: not empty, without separator,
neither "." nor "..". -/
def Plain (c : List Char) : Prop :=
  c ≠ [] ∧ '/' ∉ c ∧ c ≠ ['.'] ∧ c ≠ ['.', '.']

/-- The elements of a clean path, last one first: plain elements, below them
any number of ".." when the path is relative. -/
def GoodStack (rooted : Bool) (stack : List (List Char)) : Prop :=
  ∃ plains k, stack = plains ++ List.replicate k ['.', '.']
    ∧ (∀ c ∈ plains, Plain c) ∧ (rooted = true → k = 0)

/-- A clean path with at least one element: what `Join` returns for a
directory of the managed tree. -/
def CleanDir (r : String) : Prop :=
  ∃ rooted stack, GoodStack rooted stack ∧ stack ≠ []
    ∧ r.data = (if rooted then ['/'] else []) ++ joinComps stack.reverse

/-- Models `filepath.Dir(path)`: the path up to its last separator, cleaned. -/
def Dir (path : String) : String :=
  Clean (String.mk (path.data.reverse.dropWhile (fun c => c != '/')).reverse)

/-- The path a symbolic link at `path` with content `target` stands for: the
target itself when it is absolute, else the target taken from the directory of
the link. -/
def linkTarget (path target : String) : String :=
  if target.data.head? == some '/' then Clean target else Join (Dir path) target

end filepath

/-! ## The filesystem and the trace of library calls -/

/-- What a path holds: a regular file, a directory, or a symbolic link. -/
inductive Node where
  | file (content : String)
  | dir
  | symlink (target : String)
deriving DecidableEq, Repr

/-- Whether a path holds a symbolic link. -/
def Node.isLink : Option Node → Bool
  | some (Node.symlink _) => true
  | _ => false

/-- The filesystem: the paths that hold something, each with what it holds.
Paths are compared as strings. -/
abbrev FS := List (String × Node)

namespace FS

/-- What `path` holds, if anything. -/
def find : FS → String → Option Node
  | [], _ => none
  | (q, n) :: rest, path => if q = path then some n else find rest path

/-- Whether `path` is `dir` itself or lies below it. -/
def isAtOrBelow (dir path : String) : Bool :=
  decide (path = dir) || (dir ++ "/").data.isPrefixOf path.data

/-- The filesystem without `dir` and everything below it. -/
def remove (fs : FS) (dir : String) : FS :=
  fs.filter (fun e => !isAtOrBelow dir e.1)

/-- The filesystem in which `path` holds `n`. -/
def write (fs : FS) (path : String) (n : Node) : FS :=
  (path, n) :: fs.filter (fun e => decide (e.1 ≠ path))

/-- The proper ancestors of a path: its prefixes that end right before a
"/", the empty prefix apart. -/
def parentsAux (acc : List Char) : List Char → List String
  | [] => []
  | c :: cs =>
    if c = '/' ∧ acc ≠ [] then String.mk acc :: parentsAux (acc ++ [c]) cs
    else parentsAux (acc ++ [c]) cs

/-- The proper ancestors of `path`, outermost first. -/
def parents (path : String) : List String := parentsAux [] path.data

/-- The first of the paths `sites` that holds a symbolic link, with the target
of that link. -/
def firstLink (fs : FS) : List String → Option (String × String)
  | [] => none
  | q :: sites =>
    match fs.find q with
    | some (Node.symlink target) => some (q, target)
    | _ => firstLink fs sites

/-- The paths at which a symbolic link is followed when `path` is resolved:
its proper ancestors, outermost first, and with `last` the path itself. -/
def linkSites (last : Bool) (path : String) : List String :=
  parents path ++ (if last then [path] else [])

/-- The path `path` with `site`, which is `path` or one of its ancestors,
replaced by `dest`. -/
def rebase (site dest path : String) : String :=
  if path = site then dest
  else filepath.Join dest (String.mk (path.data.drop (site.data.length + 1)))

/-- Where `path` leads: the outermost symbolic link on the way is replaced by
what it stands for, and so on, for at most `fuel` links; `none` when there are
more.  With `last` a link at the end of the path is followed too. -/
def real (fs : FS) : Nat → Bool → String → Option String
  | 0, last, path =>
    match firstLink fs (linkSites last path) with
    | none => some path
    | some _ => none
  | fuel + 1, last, path =>
    match firstLink fs (linkSites last path) with
    | none => some path
    | some (site, target) =>
      real fs fuel last (rebase site (filepath.linkTarget site target) path)

/-- Whether a regular file stands at a proper ancestor of `path`. -/
def fileOnWay (fs : FS) (path : String) : Bool :=
  (parents path).any (fun a =>
    match fs.find a with
    | some (Node.file _) => true
    | _ => false)

/-- The filesystem `fs2` arises from `fs` by additions that touch no symbolic
link: every path holds what it held, or held nothing and now holds something
that is no link, or held a regular file and holds one still. -/
def Adds (fs fs2 : FS) : Prop :=
  ∀ q, fs2.find q = fs.find q
    ∨ (fs.find q = none ∧ ∃ n, fs2.find q = some n ∧ Node.isLink (some n) = false)
    ∨ (∃ c c2, fs.find q = some (Node.file c) ∧ fs2.find q = some (Node.file c2))

/-- No symbolic link stands at `path` or at one of its ancestors. -/
def noLinkOnPath (fs : FS) (path : String) : Bool :=
  (parents path ++ [path]).all (fun q => !Node.isLink (fs.find q))

end FS

/-- A library call with an effect outside the program. -/
inductive Event where
  | mkdirAll (path : String)
  | httpGet (url : String)
  | create (path : String)
  | unarchive (src dst : String)
  | removeAll (path : String)
  | symlink (target path : String)
deriving DecidableEq, Repr

/-- The state a run works on: the filesystem, and the library calls made so
far, oldest first (the trace is bookkeeping of the model: the program never
reads it). -/
structure World where
  fs : FS
  trace : List Event
deriving DecidableEq, Repr

/-- Records a library call. -/
def World.log (w : World) (e : Event) : World :=
  { w with trace := w.trace ++ [e] }

/-! ## Library models: `os`, `net/http`, `io` -/

/-- Outcome of `os.Stat`: what the path leads to, that nothing is there, or
another error. -/
inductive StatResult where
  | ok (node : Node)
  | notExist
  | otherError
deriving DecidableEq, Repr

namespace os

/-- Models `os.Stat(path)`: the symbolic links on the way and at the path
are followed, up to 40 of them; below a regular file the call fails with
"not a directory", which is not "does not exist". -/
def Stat (env : Env) (fs : FS) (path : String) : StatResult :=
  if env.statErr path then StatResult.otherError
  else match fs.real 40 true path with
    | none => StatResult.otherError
    | some p =>
      if fs.fileOnWay p then StatResult.otherError
      else match fs.find p with
        | none => StatResult.notExist
        | some n => StatResult.ok n

/-- The recursion of `os.MkdirAll` over a path and its ancestors, innermost
first: a path that leads to a directory ends it, one that leads to something
else is an error; otherwise the ancestors come first and then the directory is
made where the path leads, which fails when something that is no directory
stands there or when the call is refused. -/
def mkdirChain (env : Env) : List String → FS → Except String Unit × FS
  | [], fs => (.ok (), fs)
  | q :: ancestors, fs =>
    match Stat env fs q with
    | StatResult.ok Node.dir => (.ok (), fs)
    | StatResult.ok _ => (.error ("mkdir " ++ q ++ ": not a directory"), fs)
    | _ =>
      match mkdirChain env ancestors fs with
      | (.error err, fs1) => (.error err, fs1)
      | (.ok (), fs1) =>
        match fs1.real 40 false q with
        | none => (.error ("mkdir " ++ q ++ ": too many levels of symbolic links"), fs1)
        | some p =>
          if fs1.fileOnWay p then (.error ("mkdir " ++ q ++ ": not a directory"), fs1)
          else
            match fs1.find p with
            | some Node.dir => (.ok (), fs1)
            | some _ => (.error ("mkdir " ++ q ++ ": file exists"), fs1)
            | none =>
              match env.mkdirErr q with
              | some err => (.error err, fs1)
              | none => (.ok (), (p, Node.dir) :: fs1)

/-- Models `os.MkdirAll(path, os.ModePerm)`. -/
def MkdirAll (env : Env) (path : String) (w : World) : Except String Unit × World :=
  let w1 := w.log (Event.mkdirAll path)
  match mkdirChain env (path :: (FS.parents path).reverse) w1.fs with
  | (r, fs1) => (r, { w1 with fs := fs1 })

/-- Models `os.Create(dest)`: unless refused, the file that `dest` leads to
exists and is empty; the result is that file. -/
def Create (env : Env) (dest : String) (w : World) : Except String String × World :=
  let w1 := w.log (Event.create dest)
  match env.createErr dest with
  | some err => (.error err, w1)
  | none =>
    match w1.fs.real 40 true dest with
    | none => (.error ("open " ++ dest ++ ": too many levels of symbolic links"), w1)
    | some out =>
      if w1.fs.fileOnWay out then (.error ("open " ++ dest ++ ": not a directory"), w1)
      else
        match w1.fs.find out with
        | some Node.dir => (.error ("open " ++ dest ++ ": is a directory"), w1)
        | _ => (.ok out, { w1 with fs := w1.fs.write out (Node.file "") })

/-- Models `os.RemoveAll(path)`: unless refused, what stands where `path` leads
and everything below it are gone; a path that holds nothing, and the empty
path, are no error; a path below a regular file is one. -/
def RemoveAll (env : Env) (path : String) (w : World) : Except String Unit × World :=
  let w1 := w.log (Event.removeAll path)
  if path = "" then (.ok (), w1)
  else
    match env.removeAllErr path with
    | some err => (.error err, w1)
    | none =>
      match w1.fs.real 40 false path with
      | none => (.error ("unlinkat " ++ path ++ ": too many levels of symbolic links"), w1)
      | some p =>
        if w1.fs.fileOnWay p then (.error ("unlinkat " ++ path ++ ": not a directory"), w1)
        else (.ok (), { w1 with fs := w1.fs.remove p })

/-- Models `os.Symlink(target, path)`: fails for the empty path, when something
stands where `path` leads, or when the call is refused; otherwise a symbolic
link to `target` stands there. -/
def Symlink (env : Env) (target path : String) (w : World) : Except String Unit × World :=
  let w1 := w.log (Event.symlink target path)
  if path = "" then
    (.error ("symlink " ++ target ++ " " ++ path ++ ": no such file or directory"), w1)
  else
    match w1.fs.real 40 false path with
    | none =>
      (.error ("symlink " ++ target ++ " " ++ path ++ ": too many levels of symbolic links"), w1)
    | some p =>
      if w1.fs.fileOnWay p then
        (.error ("symlink " ++ target ++ " " ++ path ++ ": not a directory"), w1)
      else
        match w1.fs.find p with
        | some _ => (.error ("symlink " ++ target ++ " " ++ path ++ ": file exists"), w1)
        | none =>
          match env.symlinkErr target path with
          | some err => (.error err, w1)
          | none => (.ok (), { w1 with fs := (p, Node.symlink target) :: w1.fs })

end os

namespace http

/-- Models `http.Get(url)`. -/
def Get (env : Env) (url : String) (w : World) : HttpResult × World :=
  (env.httpGet url, w.log (Event.httpGet url))

end http

/-- Models `io.Copy(out, resp.Body)` into the open file `out`: the whole body
is written, or a prefix of it when the copy breaks off. -/
def ioCopy (env : Env) (out body : String) (w : World) : Except String Unit × World :=
  match env.copyErr out with
  | some (n, err) =>
    (.error err, { w with fs := w.fs.write out (Node.file (String.mk (body.data.take n))) })
  | none => (.ok (), { w with fs := w.fs.write out (Node.file body) })

/-! ## Library models: `strings.ReplaceAll`, `strings.Split`, `filepath.Glob` -/

namespace strings

/-- Scanner behind `ReplaceAll` for a non-empty `old`: `skip` counts the
characters of a matched occurrence that are still to be passed over. -/
def replaceAux (old new : List Char) : Nat → List Char → List Char
  | _, [] => []
  | skip + 1, _ :: cs => replaceAux old new skip cs
  | 0, c :: cs =>
    if old.isPrefixOf (c :: cs) then new ++ replaceAux old new (old.length - 1) cs
    else c :: replaceAux old new 0 cs

/-- Models `strings.ReplaceAll(s, old, new)`: every non-overlapping occurrence
of `old`, found left to right, is replaced by `new`; for an empty `old`, `new`
is inserted before every character and at the end. -/
def ReplaceAll (s old new : String) : String :=
  if old.data = [] then
    String.mk (new.data ++ (s.data.map (fun c => c :: new.data)).flatten)
  else
    String.mk (replaceAux old.data new.data 0 s.data)

/-- Scanner behind `Split` for a non-empty `sep`: `acc` is the piece being
read, `skip` as in `replaceAux`. -/
def splitAux (sep : List Char) : Nat → List Char → List Char → List (List Char)
  | _, acc, [] => [acc]
  | skip + 1, acc, _ :: cs => splitAux sep skip acc cs
  | 0, acc, c :: cs =>
    if sep.isPrefixOf (c :: cs) then acc :: splitAux sep (sep.length - 1) [] cs
    else splitAux sep 0 (acc ++ [c]) cs

/-- Models `strings.Split(s, sep)`: the pieces of `s` between the
non-overlapping occurrences of `sep`; for an empty `sep`, the characters of
`s` one by one. -/
def Split (s sep : String) : List String :=
  if sep.data = [] then s.data.map (fun c => String.mk [c])
  else (splitAux sep.data 0 [] s.data).map String.mk

end strings

namespace filepath

/-- Matching of one path element against a `*` of a glob pattern followed by
the rest of the pattern, whose matcher is `k`: the `*` takes any run of
characters other than the separator. -/
def starMatch (k : List Char → Bool) : List Char → Bool
  | [] => k []
  | c :: cs => k (c :: cs) || (c != '/' && starMatch k cs)

/-- Matching of one path element against a glob pattern made of literal
characters and `*`. -/
def globMatch : List Char → List Char → Bool
  | [] => fun name => name.isEmpty
  | p :: ps =>
    if p = '*' then starMatch (globMatch ps)
    else fun name =>
      match name with
      | [] => false
      | c :: cs => c == p && globMatch ps cs

/-- Order of strings by character code, as `sort.Strings` orders them. -/
def lexLe : List Char → List Char → Bool
  | [], _ => true
  | _ :: _, [] => false
  | a :: as, b :: bs =>
    if a.toNat < b.toNat then true
    else if b.toNat < a.toNat then false
    else lexLe as bs

/-- Whether a path holds one of the metacharacters of glob patterns. -/
def hasMeta (s : List Char) : Bool :=
  s.any (fun c => c == '*' || c == '?' || c == '[' || c == '\\')

/-- The directory part of a glob pattern, as `Glob` takes it: without its
closing separator, "." when empty. -/
def cleanGlobPath : List Char → String
  | [] => "."
  | ['/'] => "/"
  | cs => String.mk cs.dropLast

/-- The name of the entry `q` in the directory `d`, when `q` is one. -/
def childName (d q : String) : Option String :=
  let pre := if d = "/" then d else d ++ "/"
  if pre.data.isPrefixOf q.data then
    let n := q.data.drop pre.data.length
    if n ≠ [] ∧ '/' ∉ n then some (String.mk n) else none
  else none

/-- The inner `glob(dir, pattern, matches)` of `filepath.Glob`: when `dir`
leads to a directory, its entries whose name matches, in sorted order, each
joined to `dir`; nothing otherwise. -/
def globIn (env : Env) (fs : FS) (dir : String) (file : List Char) : List String :=
  match os.Stat env fs dir with
  | StatResult.ok Node.dir =>
    match fs.real 40 true dir with
    | none => []
    | some d =>
      let names := (fs.map Prod.fst).filterMap (childName d)
      let sorted := names.insertionSort (fun a b => lexLe a.data b.data = true)
      (sorted.filter (fun n => globMatch file n.data)).map (Join dir)
  | _ => []

/-- Models `filepath.Glob(pattern)` for a pattern whose last element is made of
literal characters and `*`: the entries matching the last element in the
directory named by the rest of the pattern, or, when that rest holds
metacharacters itself, in each of the directories it matches. -/
def Glob (env : Env) (fs : FS) (pattern : String) : Except String (List String) :=
  let r := pattern.data.reverse
  let file := (r.takeWhile (fun c => c != '/')).reverse
  let dir := cleanGlobPath (r.dropWhile (fun c => c != '/')).reverse
  if hasMeta dir.data then
    match env.globDirs dir with
    | .error err => .error err
    | .ok dirs => .ok (dirs.map (fun d => globIn env fs d file)).flatten
  else .ok (globIn env fs dir file)

end filepath

namespace utils

/-- Embeds `utils.Download` (utils/download.go). -/
def Download (env : Env) (url dest : String) (w : World) : Except String Unit × World :=
  match http.Get env url w with
  | (HttpResult.transportError err, w1) => (.error err, w1)
  | (HttpResult.response StatusCode Body, w1) =>
    if StatusCode ≠ 200 then (.error "Node version not found", w1)
    else
      match os.Create env dest w1 with
      | (.error err, w2) => (.error err, w2)
      | (.ok out, w2) => ioCopy env out Body w2

/-- Modelled from the spec: `utils.Unarchive`, whose source file is not part of
the sources at hand.  Contract (spec 4.4): `Unarchive(archivePath,
destinationDir) → ok | error`; it extracts the archive's internal structure,
"including its own top-level installation-named directory", under the
destination directory and reports a failure as an error.  The model keeps
track of the top-level directory only: unless extraction is refused, a
directory stands where `dst/<top-level directory of the archive at src>`
leads; it is made when nothing stands there, and something else standing
there is an error. -/
def Unarchive (env : Env) (src dst : String) (w : World) : Except String Unit × World :=
  let w1 := w.log (Event.unarchive src dst)
  match env.unarchiveErr src dst with
  | some err => (.error err, w1)
  | none =>
    let top := filepath.Join dst (env.archiveTop src)
    match w1.fs.real 40 true top with
    | none => (.error ("mkdir " ++ top ++ ": too many levels of symbolic links"), w1)
    | some p =>
      if w1.fs.fileOnWay p then (.error ("mkdir " ++ top ++ ": not a directory"), w1)
      else
        match w1.fs.find p with
        | none => (.ok (), { w1 with fs := (p, Node.dir) :: w1.fs })
        | some Node.dir => (.ok (), w1)
        | some _ => (.error ("mkdir " ++ top ++ ": file exists"), w1)

end utils

namespace gonvm

/-! ## PathResolver: names and URL (gonvm.go, lines 57-79) -/

/-- The `switch goArch` of `getDirName`. -/
def nodeArch (goArch : String) : String :=
  if goArch = "amd64" then "x64"
  else if goArch = "386" then "x86"
  else goArch

/-- Embeds `getDirName`: `fmt.Sprintf("node-v%s-%s-%s", version, nodeOS, nodeArch)`. -/
def getDirName (p : Platform) (version : String) : String :=
  let nodeOS := p.GOOS
  let goArch := p.GOARCH
  "node-v" ++ version ++ "-" ++ nodeOS ++ "-" ++ nodeArch goArch

/-- Embeds `getFileName`: `fmt.Sprintf("%s.tar.gz", dirName)`. -/
def getFileName (p : Platform) (version : String) : String :=
  let dirName := getDirName p version
  dirName ++ ".tar.gz"

/-- Embeds `getURL`: `fmt.Sprintf("https://nodejs.org/dist/v%s/%s", version, getFileName(version))`. -/
def getURL (p : Platform) (version : String) : String :=
  "https://nodejs.org/dist/v" ++ version ++ "/" ++ getFileName p version

/-! ## PathResolver: paths (gonvm.go, lines 81-137) -/

/-- Embeds `getGoNVMPath`. -/
def getGoNVMPath (env : Env) : Except String String :=
  match env.home with
  | .error err => .error err
  | .ok home => .ok (filepath.Join home ".gonvm")

/-- Embeds `getGoNVMBinPath`; on an error of `getGoNVMPath` the source
returns `"", nil`. -/
def getGoNVMBinPath (env : Env) : Except String String :=
  match getGoNVMPath env with
  | .error _ => .ok ""
  | .ok goNVMPath => .ok (filepath.Join goNVMPath "bin")

/-- Embeds `getGoNVMSourcesPath`; on an error of `getGoNVMPath` the source
returns `"", nil`. -/
def getGoNVMSourcesPath (env : Env) : Except String String :=
  match getGoNVMPath env with
  | .error _ => .ok ""
  | .ok goNVMPath => .ok (filepath.Join goNVMPath "sources")

/-- Embeds `getGoNVMVersionsPath`. -/
def getGoNVMVersionsPath (env : Env) : Except String String :=
  match getGoNVMPath env with
  | .error err => .error err
  | .ok goNVMPath => .ok (filepath.Join goNVMPath "versions")

/-- Embeds `getNodeSourcePath`; on an error of `getGoNVMSourcesPath` the
source returns `"", nil`. -/
def getNodeSourcePath (env : Env) (version : String) : Except String String :=
  match getGoNVMSourcesPath env with
  | .error _ => .ok ""
  | .ok srcPath =>
    let fileName := getFileName env.platform version
    .ok (filepath.Join srcPath fileName)

/-- Embeds `getNodeVersionPath`. -/
def getNodeVersionPath (env : Env) (version : String) : Except String String :=
  match getGoNVMVersionsPath env with
  | .error err => .error err
  | .ok goNVMVersionPath =>
    let nodeDirName := getDirName env.platform version
    .ok (filepath.Join goNVMVersionPath nodeDirName)

/-- Embeds `getNodeVersionBinPath`; on an error of `getNodeVersionPath` the
source returns `"", nil`. -/
def getNodeVersionBinPath (env : Env) (version : String) : Except String String :=
  match getNodeVersionPath env version with
  | .error _ => .ok ""
  | .ok nodeVersionPath => .ok (filepath.Join nodeVersionPath "bin")

/-! ## VersionManager (gonvm.go, lines 13-55 and 139-243) -/

/-- Embeds `exist`: false exactly when `os.Stat` fails with "does not exist". -/
def exist (env : Env) (fs : FS) (path : String) : Bool :=
  match os.Stat env fs path with
  | StatResult.notExist => false
  | _ => true

/-- Embeds `Init`. -/
def Init (env : Env) (w : World) : Except String Unit × World :=
  match getGoNVMPath env with
  | .error err => (.error err, w)
  | .ok gonvmPath =>
    match (if !exist env w.fs gonvmPath then os.MkdirAll env gonvmPath w else (.ok (), w)) with
    | (.error err, w1) => (.error err, w1)
    | (.ok (), w1) =>
      match getGoNVMSourcesPath env with
      | .error err => (.error err, w1)
      | .ok gonvmSourcesPath =>
        match (if !exist env w1.fs gonvmSourcesPath then os.MkdirAll env gonvmSourcesPath w1
               else (.ok (), w1)) with
        | (.error err, w2) => (.error err, w2)
        | (.ok (), w2) =>
          match getGoNVMVersionsPath env with
          | .error err => (.error err, w2)
          | .ok gonvmVersionsPath =>
            match (if !exist env w2.fs gonvmVersionsPath then os.MkdirAll env gonvmVersionsPath w2
                   else (.ok (), w2)) with
            | (.error err, w3) => (.error err, w3)
            | (.ok (), w3) => (.ok (), w3)

/-- Embeds `Download`. -/
def Download (env : Env) (version : String) (w : World) : Except String Unit × World :=
  match getNodeSourcePath env version with
  | .error err =>
    (.error ("Failed to download node version " ++ version ++ " with error: " ++ err), w)
  | .ok dst =>
    let url := getURL env.platform version
    match utils.Download env url dst w with
    | (.error err, w1) =>
      (.error ("Failed to download node version " ++ version ++ " with error: " ++ err), w1)
    | (.ok (), w1) => (.ok (), w1)

/-- Embeds `Unarchive`. -/
def Unarchive (env : Env) (version : String) (w : World) : Except String Unit × World :=
  match getNodeSourcePath env version with
  | .error err =>
    (.error ("Failed to unarchive node version " ++ version ++ " with error: " ++ err), w)
  | .ok src =>
    match getGoNVMVersionsPath env with
    | .error err =>
      (.error ("Failed to unarchive node version " ++ version ++ " with error: " ++ err), w)
    | .ok dst =>
      match utils.Unarchive env src dst w with
      | (.error err, w1) =>
        (.error ("Failed to unarchive node version " ++ version ++ " with error: " ++ err), w1)
      | (.ok (), w1) => (.ok (), w1)

/-- Embeds `Link`. -/
def Link (env : Env) (version : String) (w : World) : Except String Unit × World :=
  match getGoNVMBinPath env with
  | .error err =>
    (.error ("Failed to link node version " ++ version ++ " with error: " ++ err), w)
  | .ok goNVMBinPath =>
    match os.RemoveAll env goNVMBinPath w with
    | (.error err, w1) =>
      (.error ("Failed to link node version " ++ version ++ " with error: " ++ err), w1)
    | (.ok (), w1) =>
      match getNodeVersionBinPath env version with
      | .error err =>
        (.error ("Failed to link node version " ++ version ++ " with error: " ++ err), w1)
      | .ok nodeVersionBinPath =>
        match os.Symlink env nodeVersionBinPath goNVMBinPath w1 with
        | (.error err, w2) =>
          (.error ("Failed to link node version " ++ version ++ " with error: " ++ err), w2)
        | (.ok (), w2) => (.ok (), w2)

/-- Embeds `Use`. -/
def Use (env : Env) (version : String) (w : World) : Except String Unit × World :=
  match Init env w with
  | (.error err, w1) => (.error err, w1)
  | (.ok (), w1) =>
    match getNodeSourcePath env version with
    | .error _ => (.error ("Failed to check downloaded node version " ++ version), w1)
    | .ok downloadDst =>
      match (if !exist env w1.fs downloadDst then Download env version w1 else (.ok (), w1)) with
      | (.error err, w2) => (.error err, w2)
      | (.ok (), w2) =>
        match getNodeVersionPath env version with
        | .error _ => (.error ("Failed to check extracted node version " ++ version), w2)
        | .ok nodeVersionPath =>
          match (if !exist env w2.fs nodeVersionPath then Unarchive env version w2
                 else (.ok (), w2)) with
          | (.error err, w3) => (.error err, w3)
          | (.ok (), w3) =>
            match Link env version w3 with
            | (.error err, w4) => (.error err, w4)
            | (.ok (), w4) => (.ok (), w4)

/-- The `for _, node := range nodes` loop of `List`; `none` is the run-time
panic of an index out of range in `strings.Split(...)[1]`. -/
def ListLoop (versionsPath : String) : List String → List String → Option (List String)
  | [], versions => some versions
  | node :: rest, versions =>
    let nodeWithoutVersionsPath := strings.ReplaceAll node (versionsPath ++ "/") ""
    match (strings.Split nodeWithoutVersionsPath "-").get? 1 with
    | none => none
    | some versionWithVPrefix =>
      let versionWithoutVPrefix := strings.ReplaceAll versionWithVPrefix "v" ""
      ListLoop versionsPath rest (versions ++ [versionWithoutVPrefix])

end gonvm

/-- A slice of strings, `[]string`. -/
abbrev Strings := List String

/-- Embeds `List`.  The Go result `(versions, err)` is the pair of the slice
and the error, if any; `none` is a run-time panic. -/
def gonvm.List (env : Env) (fs : FS) : Option (Strings × Option String) :=
  let versions : Strings := []
  match gonvm.getGoNVMVersionsPath env with
  | .error err => some (versions, some err)
  | .ok versionsPath =>
    let versionsPathWithNodePrefix := versionsPath ++ "/node-*"
    match filepath.Glob env fs versionsPathWithNodePrefix with
    | .error err => some (versions, some err)
    | .ok nodes =>
      match gonvm.ListLoop versionsPath nodes versions with
      | none => none
      | some versions => some (versions, none)

/-! ## Concrete hosts and states -/

/-- A Linux host on a 64-bit x86 processor. -/
def linuxAmd64 : Platform := ⟨"linux", "amd64"⟩

/-- The top-level directory of a well-formed archive stored at `src`: the file
name of `src` without its ".tar.gz". -/
def archiveNameOf (src : String) : String :=
  let base := (src.data.reverse.takeWhile (fun c => c != '/')).reverse
  String.mk (base.take (base.length - 7))

/-- A host on which nothing goes wrong: the home directory is "/home/u", no
library call is refused, the server answers every request with status 200,
and every archive unpacks to the directory it is named after. -/
def hostOk : Env where
  platform := linuxAmd64
  home := .ok "/home/u"
  statErr := fun _ => false
  mkdirErr := fun _ => none
  httpGet := fun _ => HttpResult.response 200 "tarball"
  createErr := fun _ => none
  copyErr := fun _ => none
  unarchiveErr := fun _ _ => none
  archiveTop := archiveNameOf
  removeAllErr := fun _ => none
  symlinkErr := fun _ _ => none
  globDirs := fun _ => .ok []

/-- As `hostOk`, with a server that answers every request with status 404. -/
def hostNotFound : Env := { hostOk with httpGet := fun _ => HttpResult.response 404 "" }

/-- As `hostNotFound`, with the home directory "/srv/x-linux-x64". -/
def hostNotFoundOddHome : Env := { hostNotFound with home := .ok "/srv/x-linux-x64" }

/-- As `hostOk`, with no home directory to resolve. -/
def hostNoHome : Env := { hostOk with home := .error "$HOME is not defined" }

/-- As `hostOk`, with every directory creation refused. -/
def hostReadOnly : Env :=
  { hostOk with mkdirErr := fun p => some ("mkdir " ++ p ++ ": permission denied") }

/-- As `hostOk`, with every extraction refused. -/
def hostBadArchive : Env :=
  { hostOk with unarchiveErr := fun _ _ => some "unexpected EOF" }

/-- Nothing on disk, no library call made. -/
def emptyWorld : World := ⟨[], []⟩

/-- A disk that holds the home directory and nothing of the managed root. -/
def bareHome : World := ⟨[("/home/u", Node.dir), ("/home", Node.dir)], []⟩

/-- A managed root in which version 18.16.0 is installed and its cached
archive has been deleted. -/
def installedWithoutCache : World :=
  ⟨[("/home/u/.gonvm/bin", Node.symlink "/home/u/.gonvm/versions/node-v18.16.0-linux-x64/bin"),
    ("/home/u/.gonvm/versions/node-v18.16.0-linux-x64", Node.dir),
    ("/home/u/.gonvm/versions", Node.dir),
    ("/home/u/.gonvm/sources", Node.dir),
    ("/home/u/.gonvm", Node.dir),
    ("/home/u", Node.dir),
    ("/home", Node.dir)], []⟩

/-- A managed root whose pointer path is a directory and whose cache path for
version 18.16.0 is a symbolic link to a file, not yet there, in that
directory. -/
def cacheLinkedIntoBin : World :=
  ⟨[("/home/u/.gonvm/sources/node-v18.16.0-linux-x64.tar.gz",
      Node.symlink "/home/u/.gonvm/bin/node.tar.gz"),
    ("/home/u/.gonvm/bin", Node.dir),
    ("/home/u/.gonvm/versions", Node.dir),
    ("/home/u/.gonvm/sources", Node.dir),
    ("/home/u/.gonvm", Node.dir),
    ("/home/u", Node.dir),
    ("/home", Node.dir)], []⟩

/-- A managed root that is a symbolic link to a directory elsewhere, which
holds the cached archive and the installation of version 18.16.0. -/
def linkedRoot : World :=
  ⟨[("/home/u/.gonvm", Node.symlink "/data/gonvm"),
    ("/data/gonvm/sources/node-v18.16.0-linux-x64.tar.gz", Node.file "tarball"),
    ("/data/gonvm/versions/node-v18.16.0-linux-x64", Node.dir),
    ("/data/gonvm/versions", Node.dir),
    ("/data/gonvm/sources", Node.dir),
    ("/data/gonvm", Node.dir),
    ("/data", Node.dir),
    ("/home/u", Node.dir),
    ("/home", Node.dir)], []⟩

/-- A home directory in which ".gonvm" is a regular file. -/
def rootIsFile : World :=
  ⟨[("/home/u/.gonvm", Node.file ""), ("/home/u", Node.dir), ("/home", Node.dir)], []⟩
/-! ## Auxiliary facts: `filepath.Clean` and `filepath.Join` -/

theorem cleanStep_plain (c : List Char) (h : filepath.Plain c) (rooted : Bool)
    (stack : List (List Char)) : filepath.cleanStep rooted stack c = c :: stack := by
  obtain ⟨h0, _, h1, h2⟩ := h
  simp [filepath.cleanStep, h0, h1, h2]

theorem components_plain (g acc : List Char) (hg : '/' ∉ g) :
    filepath.components acc g = [acc ++ g] := by
  induction g generalizing acc with
  | nil => simp [filepath.components]
  | cons c cs ih =>
    have hc : c ≠ '/' := fun h => hg (by rw [h]; exact List.mem_cons_self _ _)
    have hcs : '/' ∉ cs := fun h => hg (List.mem_cons_of_mem _ h)
    rw [filepath.components, if_neg hc, ih _ hcs]
    simp

theorem components_piece (a acc rest : List Char) (ha : '/' ∉ a) :
    filepath.components acc (a ++ '/' :: rest) = (acc ++ a) :: filepath.components [] rest := by
  induction a generalizing acc with
  | nil => simp [filepath.components]
  | cons c cs ih =>
    have hc : c ≠ '/' := fun h => ha (by rw [h]; exact List.mem_cons_self _ _)
    have hcs : '/' ∉ cs := fun h => ha (List.mem_cons_of_mem _ h)
    have : (c :: cs) ++ '/' :: rest = c :: (cs ++ '/' :: rest) := rfl
    rw [this, filepath.components, if_neg hc, ih _ hcs]
    simp

theorem components_snoc (s g acc : List Char) (hg : '/' ∉ g) :
    filepath.components acc (s ++ '/' :: g) = filepath.components acc s ++ [g] := by
  induction s generalizing acc with
  | nil =>
    simp only [List.nil_append, filepath.components, if_true]
    rw [components_plain g [] hg]
    simp
  | cons c cs ih =>
    have : (c :: cs) ++ '/' :: g = c :: (cs ++ '/' :: g) := rfl
    rw [this, filepath.components, filepath.components]
    split
    · rw [ih]
      simp
    · rw [ih]

theorem joinComps_snoc (cs : List (List Char)) (x : List Char) (h : cs ≠ []) :
    filepath.joinComps (cs ++ [x]) = filepath.joinComps cs ++ '/' :: x := by
  induction cs with
  | nil => exact absurd rfl h
  | cons c rest ih =>
    cases rest with
    | nil => simp [filepath.joinComps]
    | cons d rest2 =>
      have : (c :: d :: rest2) ++ [x] = c :: d :: (rest2 ++ [x]) := rfl
      rw [this, filepath.joinComps, filepath.joinComps]
      have ih2 := ih (by simp)
      have : (d :: rest2) ++ [x] = d :: (rest2 ++ [x]) := rfl
      rw [this] at ih2
      rw [ih2]
      simp

theorem joinComps_snoc_tail (cs : List (List Char)) (x : List Char) :
    ∃ X, filepath.joinComps (cs ++ [x]) = X ++ x := by
  by_cases h : cs = []
  · subst h
    exact ⟨[], by simp [filepath.joinComps]⟩
  · exact ⟨filepath.joinComps cs ++ ['/'], by rw [joinComps_snoc cs x h]; simp⟩

theorem components_joinComps (cs : List (List Char)) (acc : List Char)
    (hcs : ∀ c ∈ cs, '/' ∉ c) (hne : cs ≠ []) :
    filepath.components acc (filepath.joinComps cs)
      = (acc ++ cs.head hne) :: cs.tail := by
  induction cs generalizing acc with
  | nil => exact absurd rfl hne
  | cons c rest ih =>
    cases rest with
    | nil =>
      simp only [filepath.joinComps, List.head_cons, List.tail_cons]
      exact components_plain c acc (hcs c (List.mem_cons_self _ _))
    | cons d rest2 =>
      rw [filepath.joinComps, components_piece c acc _ (hcs c (List.mem_cons_self _ _))]
      rw [ih [] (fun x hx => hcs x (List.mem_cons_of_mem _ hx)) (by simp)]
      simp

theorem foldl_cleanStep_plains (b : Bool) (xs : List (List Char)) (st : List (List Char))
    (h : ∀ c ∈ xs, filepath.Plain c) :
    xs.foldl (filepath.cleanStep b) st = xs.reverse ++ st := by
  induction xs generalizing st with
  | nil => rfl
  | cons c rest ih =>
    rw [List.foldl_cons, cleanStep_plain c (h c (List.mem_cons_self _ _)),
      ih _ (fun x hx => h x (List.mem_cons_of_mem _ hx))]
    simp

theorem foldl_cleanStep_dotdots (j k : Nat) :
    (List.replicate k ['.', '.']).foldl (filepath.cleanStep false) (List.replicate j ['.', '.'])
      = List.replicate (j + k) ['.', '.'] := by
  induction k generalizing j with
  | zero => rfl
  | succ k ih =>
    rw [List.replicate_succ, List.foldl_cons]
    have hstep : filepath.cleanStep false (List.replicate j ['.', '.']) ['.', '.']
        = List.replicate (j + 1) ['.', '.'] := by
      cases j with
      | zero => simp [filepath.cleanStep]
      | succ j => simp [filepath.cleanStep, List.replicate_succ]
    rw [hstep, ih]
    congr 1
    omega

/-- Cleaning the elements of a clean path gives them back. -/
theorem foldl_cleanStep_good (b : Bool) (st : List (List Char)) (h : filepath.GoodStack b st) :
    st.reverse.foldl (filepath.cleanStep b) [] = st := by
  obtain ⟨plains, k, hst, hp, hk⟩ := h
  subst hst
  rw [List.reverse_append, List.foldl_append, List.reverse_replicate]
  have hdd : (List.replicate k ['.', '.']).foldl (filepath.cleanStep b) []
      = List.replicate k ['.', '.'] := by
    cases b with
    | true =>
      have : k = 0 := hk rfl
      subst this
      rfl
    | false =>
      have := foldl_cleanStep_dotdots 0 k
      simpa using this
  rw [hdd, foldl_cleanStep_plains b _ _ (fun c hc => hp c (List.mem_reverse.mp hc))]
  simp

theorem goodStack_nil (b : Bool) : filepath.GoodStack b [] :=
  ⟨[], 0, rfl, by simp, fun _ => rfl⟩

theorem goodStack_push (b : Bool) (st : List (List Char)) (c : List Char)
    (h : filepath.GoodStack b st) (hc : filepath.Plain c) : filepath.GoodStack b (c :: st) := by
  obtain ⟨plains, k, hst, hp, hk⟩ := h
  refine ⟨c :: plains, k, by rw [hst]; rfl, ?_, hk⟩
  intro x hx
  rcases List.mem_cons.mp hx with h1 | h1
  · rw [h1]; exact hc
  · exact hp x h1

theorem cleanStep_good (b : Bool) (st : List (List Char)) (c : List Char) (hc : '/' ∉ c)
    (h : filepath.GoodStack b st) : filepath.GoodStack b (filepath.cleanStep b st c) := by
  unfold filepath.cleanStep
  by_cases h0 : c = [] ∨ c = ['.']
  · rw [if_pos h0]; exact h
  · rw [if_neg h0]
    by_cases hdd : c = ['.', '.']
    · rw [if_pos hdd]
      obtain ⟨plains, k, hst, hp, hk⟩ := h
      cases plains with
      | nil =>
        cases k with
        | zero =>
          subst hst
          cases b with
          | true => exact goodStack_nil true
          | false =>
            exact ⟨[], 1, by rw [hdd]; rfl, by simp, by simp⟩
        | succ k =>
          have hb : b = false := by
            cases b with
            | false => rfl
            | true => exact absurd (hk rfl) (by simp)
          subst hst
          simp only [List.nil_append, List.replicate_succ, if_true]
          exact ⟨[], k + 2, by rw [hdd]; simp [List.replicate_succ], by simp, by simp [hb]⟩
      | cons p rest =>
        subst hst
        have hpp : filepath.Plain p := hp p (List.mem_cons_self _ _)
        have hne : p ≠ ['.', '.'] := hpp.2.2.2
        simp only [List.cons_append, hne, if_false]
        exact ⟨rest, k, rfl, fun x hx => hp x (List.mem_cons_of_mem _ hx), hk⟩
    · rw [if_neg hdd]
      have hpl : filepath.Plain c := by
        refine ⟨fun h => h0 (Or.inl h), hc, fun h => h0 (Or.inr h), hdd⟩
      exact goodStack_push b st c h hpl

theorem components_no_slash (s acc : List Char) (hacc : '/' ∉ acc) :
    ∀ c ∈ filepath.components acc s, '/' ∉ c := by
  induction s generalizing acc with
  | nil =>
    intro c hc
    simp only [filepath.components, List.mem_singleton] at hc
    rw [hc]; exact hacc
  | cons x xs ih =>
    intro c hc
    rw [filepath.components] at hc
    split at hc
    · rcases List.mem_cons.mp hc with h1 | h1
      · rw [h1]; exact hacc
      · exact ih [] (by simp) c h1
    · rename_i hx
      refine ih (acc ++ [x]) ?_ c hc
      simp only [List.mem_append, List.mem_singleton, not_or]
      exact ⟨hacc, fun h => hx h.symm⟩

theorem foldl_cleanStep_goodStack (b : Bool) (xs st : List (List Char))
    (hxs : ∀ c ∈ xs, '/' ∉ c) (h : filepath.GoodStack b st) :
    filepath.GoodStack b (xs.foldl (filepath.cleanStep b) st) := by
  induction xs generalizing st with
  | nil => exact h
  | cons c rest ih =>
    rw [List.foldl_cons]
    exact ih _ (fun x hx => hxs x (List.mem_cons_of_mem _ hx))
      (cleanStep_good b st c (hxs c (List.mem_cons_self _ _)) h)

theorem goodStack_elems (b : Bool) (st : List (List Char)) (h : filepath.GoodStack b st) :
    ∀ c ∈ st, c ≠ [] ∧ '/' ∉ c := by
  obtain ⟨plains, k, hst, hp, _⟩ := h
  intro c hc
  rw [hst] at hc
  rcases List.mem_append.mp hc with h1 | h1
  · exact ⟨(hp c h1).1, (hp c h1).2.1⟩
  · have := List.eq_of_mem_replicate h1
    rw [this]
    exact ⟨by decide, by decide⟩

theorem joinComps_cons (c : List Char) (rest : List (List Char)) :
    ∃ X, filepath.joinComps (c :: rest) = c ++ X := by
  cases rest with
  | nil => exact ⟨[], by simp [filepath.joinComps]⟩
  | cons d rest2 => exact ⟨'/' :: filepath.joinComps (d :: rest2), rfl⟩

/-- A clean path starts with a separator exactly when it is rooted. -/
theorem render_head (b : Bool) (st : List (List Char)) (rest : List Char)
    (h : filepath.GoodStack b st) (hne : st ≠ []) :
    ((((if b then ['/'] else []) ++ filepath.joinComps st.reverse) ++ rest).head? == some '/')
      = b := by
  cases b with
  | true => simp
  | false =>
    have hrev : st.reverse ≠ [] := by simpa using hne
    obtain ⟨c, cs, hcs⟩ := List.exists_cons_of_ne_nil hrev
    obtain ⟨X, hX⟩ := joinComps_cons c cs
    have hc := goodStack_elems false st h c (by
      have : c ∈ st.reverse := by rw [hcs]; exact List.mem_cons_self _ _
      exact List.mem_reverse.mp this)
    rw [hcs, hX]
    obtain ⟨d, ds, hd⟩ := List.exists_cons_of_ne_nil hc.1
    have hd2 : d ≠ '/' := by
      intro hh
      apply hc.2
      rw [hd, hh]
      exact List.mem_cons_self _ _
    rw [hd]
    simp [hd2]

theorem render_ne_nil (b : Bool) (st : List (List Char))
    (h : filepath.GoodStack b st) (hne : st ≠ []) :
    (if b then ['/'] else []) ++ filepath.joinComps st.reverse ≠ [] := by
  intro hnil
  have := render_head b st [] h hne
  rw [List.append_nil, hnil] at this
  cases b with
  | true => simp at hnil
  | false =>
    have hrev : st.reverse ≠ [] := by simpa using hne
    obtain ⟨c, cs, hcs⟩ := List.exists_cons_of_ne_nil hrev
    obtain ⟨X, hX⟩ := joinComps_cons c cs
    have hc := goodStack_elems false st h c (by
      have : c ∈ st.reverse := by rw [hcs]; exact List.mem_cons_self _ _
      exact List.mem_reverse.mp this)
    rw [hcs, hX] at hnil
    simp at hnil
    exact hc.1 hnil.1

theorem Clean_eq (s : String) (b : Bool) (st : List (List Char))
    (hb : (s.data.head? == some '/') = b)
    (hfold : (filepath.components [] s.data).foldl (filepath.cleanStep b) [] = st)
    (hne : (if b then ['/'] else []) ++ filepath.joinComps st.reverse ≠ []) :
    filepath.Clean s = String.mk ((if b then ['/'] else []) ++ filepath.joinComps st.reverse) := by
  unfold filepath.Clean
  simp only [hb, hfold]
  rw [if_neg hne]

theorem components_joinComps_nil (cs : List (List Char))
    (hcs : ∀ c ∈ cs, '/' ∉ c) (hne : cs ≠ []) :
    filepath.components [] (filepath.joinComps cs) = cs := by
  rw [components_joinComps cs [] hcs hne]
  simp

/-- The elements of a rendered clean path, cleaned again, with one more plain
element at the end. -/
theorem foldl_render_snoc (b : Bool) (st : List (List Char)) (x : List Char)
    (h : filepath.GoodStack b st) (hne : st ≠ []) (hx : filepath.Plain x) :
    (filepath.components []
        ((if b then ['/'] else []) ++ filepath.joinComps st.reverse ++ '/' :: x)).foldl
      (filepath.cleanStep b) [] = x :: st := by
  have hrev : st.reverse ≠ [] := by simpa using hne
  have hall : ∀ c ∈ st.reverse ++ [x], '/' ∉ c := by
    intro c hc
    rcases List.mem_append.mp hc with h1 | h1
    · exact (goodStack_elems b st h c (List.mem_reverse.mp h1)).2
    · simp only [List.mem_singleton] at h1
      rw [h1]; exact hx.2.1
  have hj : filepath.joinComps st.reverse ++ '/' :: x = filepath.joinComps (st.reverse ++ [x]) :=
    (joinComps_snoc _ x hrev).symm
  have hfold : (st.reverse ++ [x]).foldl (filepath.cleanStep b) [] = x :: st := by
    rw [List.foldl_append, foldl_cleanStep_good b st h]
    simp [cleanStep_plain x hx]
  rw [List.append_assoc, hj]
  cases b with
  | true =>
    show List.foldl (filepath.cleanStep true) []
      (filepath.components [] ('/' :: filepath.joinComps (st.reverse ++ [x]))) = x :: st
    rw [filepath.components, if_pos rfl, components_joinComps_nil _ hall (by simp),
      List.foldl_cons]
    have : filepath.cleanStep true [] [] = [] := by simp [filepath.cleanStep]
    rw [this, hfold]
  | false =>
    simp only [Bool.false_eq_true, if_false, List.nil_append]
    rw [components_joinComps_nil _ hall (by simp), hfold]

/-- Joining a plain element to a clean directory path appends it. -/
theorem Join_cleanDir (r x : String) (hr : filepath.CleanDir r) (hx : filepath.Plain x.data) :
    filepath.Join r x = r ++ "/" ++ x ∧ filepath.CleanDir (r ++ "/" ++ x) := by
  obtain ⟨b, st, hgood, hne, hdata⟩ := hr
  have hrne : r ≠ "" := by
    intro h
    have := render_ne_nil b st hgood hne
    rw [← hdata, h] at this
    exact this rfl
  have hd : (r ++ "/" ++ x).data
      = (if b then ['/'] else []) ++ filepath.joinComps st.reverse ++ '/' :: x.data := by
    simp [String.data_append, hdata]
  have hgood2 : filepath.GoodStack b (x.data :: st) := goodStack_push b st _ hgood hx
  have hout : (if b then ['/'] else []) ++ filepath.joinComps (x.data :: st).reverse
      = (r ++ "/" ++ x).data := by
    rw [hd, List.reverse_cons, joinComps_snoc _ _ (by simpa using hne)]
    simp
  have hc : filepath.Clean (r ++ "/" ++ x) = r ++ "/" ++ x := by
    rw [Clean_eq (r ++ "/" ++ x) b (x.data :: st)
      (by rw [hd]; exact render_head b st _ hgood hne)
      (by rw [hd]; exact foldl_render_snoc b st x.data hgood hne hx)
      (render_ne_nil b _ hgood2 (by simp))]
    exact String.ext hout
  refine ⟨?_, b, x.data :: st, hgood2, by simp, hout.symm⟩
  unfold filepath.Join
  rw [if_pos hrne, hc]

/-- Whatever the home directory, the managed root is a clean directory path. -/
theorem Join_home_cleanDir (home : String) : filepath.CleanDir (filepath.Join home ".gonvm") := by
  have hg : filepath.Plain ".gonvm".data := ⟨by decide, by decide, by decide, by decide⟩
  by_cases hh : home = ""
  · subst hh
    refine ⟨false, [".gonvm".data], ⟨[".gonvm".data], 0, rfl, ?_, fun _ => rfl⟩, by simp, by decide⟩
    intro c hc
    simp only [List.mem_singleton] at hc
    rw [hc]; exact hg
  · unfold filepath.Join
    rw [if_pos hh]
    have hd : (home ++ "/" ++ ".gonvm").data = home.data ++ '/' :: ".gonvm".data := by
      simp [String.data_append]
    obtain ⟨b, hb⟩ : ∃ b, ((home ++ "/" ++ ".gonvm").data.head? == some '/') = b := ⟨_, rfl⟩
    have hst : filepath.GoodStack b
        ((filepath.components [] home.data).foldl (filepath.cleanStep b) []) :=
      foldl_cleanStep_goodStack b _ _ (components_no_slash home.data [] (by simp))
        (goodStack_nil b)
    have hfold : (filepath.components [] (home ++ "/" ++ ".gonvm").data).foldl
        (filepath.cleanStep b) []
        = ".gonvm".data :: (filepath.components [] home.data).foldl (filepath.cleanStep b) [] := by
      rw [hd, components_snoc _ _ _ hg.2.1, List.foldl_append]
      simp [cleanStep_plain _ hg]
    have hgood2 := goodStack_push b _ _ hst hg
    rw [Clean_eq _ b _ hb hfold (render_ne_nil b _ hgood2 (by simp))]
    exact ⟨b, _, hgood2, by simp, rfl⟩

/-- Joining a plain element to any path gives a path that ends with it. -/
theorem Join_plain_tail (d n : String) (hn : filepath.Plain n.data) :
    ∃ X, (filepath.Join d n).data = X ++ n.data := by
  have hnne : n ≠ "" := by
    intro h
    apply hn.1
    rw [h]
  have key : ∀ s : String, (∃ t, s.data = t ++ n.data ∧ (t = [] ∨ ∃ u, t = u ++ ['/'])) →
      ∃ X, (filepath.Clean s).data = X ++ n.data := by
    intro s hs
    obtain ⟨t, ht, hcase⟩ := hs
    obtain ⟨b, hb⟩ : ∃ b, (s.data.head? == some '/') = b := ⟨_, rfl⟩
    have hfold : ∃ st, (filepath.components [] s.data).foldl (filepath.cleanStep b) []
        = n.data :: st := by
      rcases hcase with h1 | ⟨u, hu⟩
      · subst h1
        rw [ht, List.nil_append, components_plain _ _ hn.2.1]
        exact ⟨[], by simp [cleanStep_plain _ hn]⟩
      · rw [ht, hu, List.append_assoc, List.singleton_append, components_snoc _ _ _ hn.2.1,
          List.foldl_append]
        exact ⟨(filepath.components [] u).foldl (filepath.cleanStep b) [],
          by simp [cleanStep_plain _ hn]⟩
    obtain ⟨st, hst⟩ := hfold
    obtain ⟨X, hX⟩ := joinComps_snoc_tail st.reverse n.data
    have hne : (if b then ['/'] else []) ++ filepath.joinComps (n.data :: st).reverse ≠ [] := by
      rw [List.reverse_cons, hX]
      have := hn.1
      simp [this]
    rw [Clean_eq s b _ hb hst hne, List.reverse_cons, hX]
    exact ⟨(if b then ['/'] else []) ++ X, by simp⟩
  unfold filepath.Join
  by_cases hd : d = ""
  · rw [if_neg (by simpa using hd), if_pos hnne]
    exact key n ⟨[], by simp, Or.inl rfl⟩
  · rw [if_pos hd]
    exact key _ ⟨d.data ++ ['/'], by simp [String.data_append], Or.inr ⟨d.data, rfl⟩⟩

/-! ## Auxiliary facts: the paths of the managed tree -/

theorem cleanDir_ne_empty (r : String) (h : filepath.CleanDir r) : r ≠ "" := by
  obtain ⟨b, st, hgood, hne, hdata⟩ := h
  intro hr
  have := render_ne_nil b st hgood hne
  rw [← hdata, hr] at this
  exact this rfl

theorem getDirName_data (p : Platform) (v : String) :
    (gonvm.getDirName p v).data
      = 'n' :: 'o' :: 'd' :: 'e' :: '-' :: 'v' ::
          (v.data ++ '-' :: (p.GOOS.data ++ '-' :: (gonvm.nodeArch p.GOARCH).data)) := by
  simp [gonvm.getDirName, String.data_append]

theorem getDirName_plain (p : Platform) (v : String)
    (h : '/' ∉ (gonvm.getDirName p v).data) : filepath.Plain (gonvm.getDirName p v).data := by
  refine ⟨?_, h, ?_, ?_⟩ <;> rw [getDirName_data] <;> simp

theorem getFileName_plain (p : Platform) (v : String)
    (h : '/' ∉ (gonvm.getDirName p v).data) : filepath.Plain (gonvm.getFileName p v).data := by
  have hd : (gonvm.getFileName p v).data
      = (gonvm.getDirName p v).data ++ ['.', 't', 'a', 'r', '.', 'g', 'z'] := by
    simp [gonvm.getFileName, String.data_append]
  refine ⟨?_, ?_, ?_, ?_⟩
  · rw [hd]; simp
  · rw [hd]
    simp only [List.mem_append, not_or]
    exact ⟨h, by decide⟩
  · rw [hd, getDirName_data]; simp
  · rw [hd, getDirName_data]; simp

theorem getGoNVMPath_of_home (env : Env) (home : String) (h : env.home = .ok home) :
    gonvm.getGoNVMPath env = .ok (filepath.Join home ".gonvm") := by
  simp [gonvm.getGoNVMPath, h]

theorem getGoNVMPath_ok_home (env : Env) (root : String) (h : gonvm.getGoNVMPath env = .ok root) :
    ∃ home, env.home = .ok home ∧ root = filepath.Join home ".gonvm" := by
  unfold gonvm.getGoNVMPath at h
  cases hh : env.home with
  | error e => simp [hh] at h
  | ok home =>
    simp only [hh] at h
    injection h with h
    exact ⟨home, rfl, h.symm⟩

theorem getGoNVMPath_cleanDir (env : Env) (root : String)
    (h : gonvm.getGoNVMPath env = .ok root) : filepath.CleanDir root := by
  obtain ⟨home, _, hr⟩ := getGoNVMPath_ok_home env root h
  rw [hr]
  exact Join_home_cleanDir home

/-- With the root resolved: the three fixed paths are the root followed by
their name, and the three paths of a version are joins below them. -/
theorem paths_of_root (env : Env) (root v : String) (h : gonvm.getGoNVMPath env = .ok root) :
    gonvm.getGoNVMBinPath env = .ok (root ++ "/bin")
    ∧ gonvm.getGoNVMSourcesPath env = .ok (root ++ "/sources")
    ∧ gonvm.getGoNVMVersionsPath env = .ok (root ++ "/versions")
    ∧ gonvm.getNodeSourcePath env v
        = .ok (filepath.Join (root ++ "/sources") (gonvm.getFileName env.platform v))
    ∧ gonvm.getNodeVersionPath env v
        = .ok (filepath.Join (root ++ "/versions") (gonvm.getDirName env.platform v))
    ∧ gonvm.getNodeVersionBinPath env v
        = .ok (filepath.Join
            (filepath.Join (root ++ "/versions") (gonvm.getDirName env.platform v)) "bin") := by
  have hc := getGoNVMPath_cleanDir env root h
  have j1 : filepath.Join root "bin" = root ++ "/bin" := by
    rw [(Join_cleanDir root "bin" hc ⟨by decide, by decide, by decide, by decide⟩).1]
    simp [String.append_assoc]
  have j2 : filepath.Join root "sources" = root ++ "/sources" := by
    rw [(Join_cleanDir root "sources" hc ⟨by decide, by decide, by decide, by decide⟩).1]
    simp [String.append_assoc]
  have j3 : filepath.Join root "versions" = root ++ "/versions" := by
    rw [(Join_cleanDir root "versions" hc ⟨by decide, by decide, by decide, by decide⟩).1]
    simp [String.append_assoc]
  have hb : gonvm.getGoNVMBinPath env = .ok (root ++ "/bin") := by
    simp [gonvm.getGoNVMBinPath, h, j1]
  have hso : gonvm.getGoNVMSourcesPath env = .ok (root ++ "/sources") := by
    simp [gonvm.getGoNVMSourcesPath, h, j2]
  have hve : gonvm.getGoNVMVersionsPath env = .ok (root ++ "/versions") := by
    simp [gonvm.getGoNVMVersionsPath, h, j3]
  have hi : gonvm.getNodeVersionPath env v
      = .ok (filepath.Join (root ++ "/versions") (gonvm.getDirName env.platform v)) := by
    simp [gonvm.getNodeVersionPath, hve]
  exact ⟨hb, hso, hve, by simp [gonvm.getNodeSourcePath, hso], hi,
    by simp [gonvm.getNodeVersionBinPath, hi]⟩

theorem cleanDir_sub (root name : String) (hc : filepath.CleanDir root)
    (hn : filepath.Plain name.data) :
    filepath.CleanDir (root ++ "/" ++ name) := (Join_cleanDir root name hc hn).2

/-- For an installation name without separator the three paths of a version
are the fixed directories followed by the names. -/
theorem paths_of_name (env : Env) (root v : String) (h : gonvm.getGoNVMPath env = .ok root)
    (hname : '/' ∉ (gonvm.getDirName env.platform v).data) :
    gonvm.getNodeSourcePath env v
        = .ok (root ++ "/sources/" ++ gonvm.getFileName env.platform v)
    ∧ gonvm.getNodeVersionPath env v
        = .ok (root ++ "/versions/" ++ gonvm.getDirName env.platform v)
    ∧ gonvm.getNodeVersionBinPath env v
        = .ok (root ++ "/versions/" ++ gonvm.getDirName env.platform v ++ "/bin") := by
  have hc := getGoNVMPath_cleanDir env root h
  obtain ⟨_, _, _, hsrc, hinst, hvb⟩ := paths_of_root env root v h
  have pl : ∀ s : String, s = "bin" ∨ s = "sources" ∨ s = "versions" → filepath.Plain s.data := by
    intro s hs
    rcases hs with hs | hs | hs <;> subst hs <;> exact ⟨by decide, by decide, by decide, by decide⟩
  have cs : filepath.CleanDir (root ++ "/sources") := by
    have := cleanDir_sub root "sources" hc (pl _ (Or.inr (Or.inl rfl)))
    simpa [String.append_assoc] using this
  have cv : filepath.CleanDir (root ++ "/versions") := by
    have := cleanDir_sub root "versions" hc (pl _ (Or.inr (Or.inr rfl)))
    simpa [String.append_assoc] using this
  have e1 : filepath.Join (root ++ "/sources") (gonvm.getFileName env.platform v)
      = root ++ "/sources/" ++ gonvm.getFileName env.platform v := by
    rw [(Join_cleanDir _ _ cs (getFileName_plain env.platform v hname)).1]
    simp [String.append_assoc]
  have e2 : filepath.Join (root ++ "/versions") (gonvm.getDirName env.platform v)
      = root ++ "/versions/" ++ gonvm.getDirName env.platform v := by
    rw [(Join_cleanDir _ _ cv (getDirName_plain env.platform v hname)).1]
    simp [String.append_assoc]
  have ci : filepath.CleanDir (root ++ "/versions/" ++ gonvm.getDirName env.platform v) := by
    have := cleanDir_sub _ _ cv (getDirName_plain env.platform v hname)
    simpa [String.append_assoc] using this
  have e3 : filepath.Join (root ++ "/versions/" ++ gonvm.getDirName env.platform v) "bin"
      = root ++ "/versions/" ++ gonvm.getDirName env.platform v ++ "/bin" := by
    rw [(Join_cleanDir _ _ ci (pl _ (Or.inl rfl))).1]
    simp [String.append_assoc]
  refine ⟨by rw [hsrc, e1], by rw [hinst, e2], by rw [hvb, e2, e3]⟩

/-! ## Auxiliary facts: the filesystem -/

theorem find_filter_pos (fs : FS) (P : String → Bool) (p : String) (hp : P p = true) :
    FS.find (fs.filter (fun e => P e.1)) p = FS.find fs p := by
  induction fs with
  | nil => rfl
  | cons e rest ih =>
    obtain ⟨q, n⟩ := e
    by_cases hq : q = p
    · subst hq
      simp [List.filter, hp, FS.find]
    · by_cases hP : P q = true
      · simp [List.filter, hP, FS.find, hq, ih]
      · simp [List.filter, hP, FS.find, hq, ih]

theorem find_filter_neg (fs : FS) (P : String → Bool) (p : String) (hp : P p = false) :
    FS.find (fs.filter (fun e => P e.1)) p = none := by
  induction fs with
  | nil => rfl
  | cons e rest ih =>
    obtain ⟨q, n⟩ := e
    by_cases hP : P q = true
    · have hq : q ≠ p := by
        intro h
        rw [h, hp] at hP
        cases hP
      simp [List.filter, hP, FS.find, hq, ih]
    · simp [List.filter, hP, ih]

theorem find_write (fs : FS) (p q : String) (n : Node) :
    FS.find (fs.write p n) q = if p = q then some n else FS.find fs q := by
  unfold FS.write
  by_cases h : p = q
  · simp [FS.find, h]
  · have := find_filter_pos fs (fun x => decide (x ≠ p)) q (by simpa using fun hh => h hh.symm)
    simp only [FS.find, h, if_false]
    exact this

theorem find_remove (fs : FS) (d q : String) :
    FS.find (fs.remove d) q = if FS.isAtOrBelow d q then none else FS.find fs q := by
  unfold FS.remove
  by_cases h : FS.isAtOrBelow d q = true
  · simp only [h, if_true]
    exact find_filter_neg fs (fun x => !FS.isAtOrBelow d x) q (by simp [h])
  · simp only [h]
    exact find_filter_pos fs (fun x => !FS.isAtOrBelow d x) q (by simpa using h)

theorem isAtOrBelow_self (d : String) : FS.isAtOrBelow d d = true := by
  simp [FS.isAtOrBelow]

theorem remove_cons_remove (fs : FS) (d : String) (n : Node) :
    FS.remove ((d, n) :: FS.remove fs d) d = FS.remove fs d := by
  simp [FS.remove, List.filter, isAtOrBelow_self, List.filter_filter]

theorem prefix_of_isAtOrBelow (d q : String) (h : FS.isAtOrBelow d q = true) :
    d.data <+: q.data := by
  unfold FS.isAtOrBelow at h
  rcases Bool.or_eq_true _ _ |>.mp h with h1 | h1
  · have : q = d := by simpa using h1
    rw [this]
  · have h2 := List.isPrefixOf_iff_prefix.mp h1
    simp only [String.data_append] at h2
    exact (List.prefix_append _ _).trans h2

theorem find_relinked (fs : FS) (d q : String) (n : Node) (h : ¬ d.data <+: q.data) :
    FS.find ((d, n) :: FS.remove fs d) q = FS.find fs q := by
  have h1 : d ≠ q := by
    intro hd
    apply h
    rw [hd]
  have h2 : FS.isAtOrBelow d q = false := by
    cases hb : FS.isAtOrBelow d q with
    | false => rfl
    | true => exact absurd (prefix_of_isAtOrBelow d q hb) h
  simp [FS.find, h1, find_remove, h2]

theorem filter_remove_self (fs : FS) (d : String) :
    (FS.remove fs d).filter (fun e => decide (e.1 = d)) = [] := by
  unfold FS.remove
  rw [List.filter_filter, List.filter_eq_nil_iff]
  intro e _
  by_cases h : e.1 = d
  · simp [h, isAtOrBelow_self]
  · simp [h]

theorem mem_parentsAux (cs acc : List Char) (q : String) (h : q ∈ FS.parentsAux acc cs) :
    ∃ rest, acc ++ cs = q.data ++ '/' :: rest := by
  induction cs generalizing acc with
  | nil => simp [FS.parentsAux] at h
  | cons c rest ih =>
    rw [FS.parentsAux] at h
    have step : q ∈ FS.parentsAux (acc ++ [c]) rest → ∃ r, acc ++ c :: rest = q.data ++ '/' :: r := by
      intro hq
      obtain ⟨r, hr⟩ := ih (acc ++ [c]) hq
      exact ⟨r, by simpa using hr⟩
    split at h
    · rename_i hc
      rcases List.mem_cons.mp h with h1 | h1
      · subst h1
        exact ⟨rest, by rw [hc.1]⟩
      · exact step h1
    · exact step h

/-- An ancestor of a path is the path cut right before one of its separators. -/
theorem mem_parents (p q : String) (h : q ∈ FS.parents p) :
    ∃ rest, p.data = q.data ++ '/' :: rest := by
  have := mem_parentsAux p.data [] q h
  simpa using this

theorem isAtOrBelow_of_mem_chain (p q : String) (h : q ∈ p :: (FS.parents p).reverse) :
    FS.isAtOrBelow q p = true := by
  rcases List.mem_cons.mp h with h1 | h1
  · rw [h1]; exact isAtOrBelow_self p
  · obtain ⟨rest, hr⟩ := mem_parents p q (List.mem_reverse.mp h1)
    unfold FS.isAtOrBelow
    have : (q ++ "/").data.isPrefixOf p.data = true := by
      rw [List.isPrefixOf_iff_prefix, hr]
      exact ⟨rest, by simp [String.data_append]⟩
    rw [this]
    simp

theorem isAtOrBelow_trans (a b c : String) (h1 : FS.isAtOrBelow a b = true)
    (h2 : FS.isAtOrBelow b c = true) : FS.isAtOrBelow a c = true := by
  unfold FS.isAtOrBelow at h1 h2 ⊢
  rcases Bool.or_eq_true _ _ |>.mp h1 with e1 | e1
  · have : b = a := by simpa using e1
    subst this
    exact h2
  · rcases Bool.or_eq_true _ _ |>.mp h2 with e2 | e2
    · have : c = b := by simpa using e2
      subst this
      exact h1
    · have p1 := List.isPrefixOf_iff_prefix.mp e1
      have p2 := List.isPrefixOf_iff_prefix.mp e2
      have p3 : (a ++ "/").data <+: c.data := by
        refine p1.trans (List.IsPrefix.trans ?_ p2)
        simp [String.data_append]
      rw [List.isPrefixOf_iff_prefix.mpr p3]
      simp

/-- The ancestors of a path are its non-empty prefixes that a separator
follows. -/
theorem mem_parentsAux_iff (cs acc : List Char) (q : String) :
    q ∈ FS.parentsAux acc cs ↔
      ∃ pre rest, cs = pre ++ '/' :: rest ∧ q.data = acc ++ pre ∧ acc ++ pre ≠ [] := by
  induction cs generalizing acc with
  | nil => simp [FS.parentsAux]
  | cons c cs ih =>
    rw [FS.parentsAux]
    have tail : q ∈ FS.parentsAux (acc ++ [c]) cs ↔
        ∃ pre rest, c :: cs = (c :: pre) ++ '/' :: rest ∧ q.data = acc ++ (c :: pre)
          ∧ acc ++ (c :: pre) ≠ [] := by
      rw [ih]
      constructor
      · rintro ⟨pre, rest, h1, h2, h3⟩
        exact ⟨pre, rest, by simp [h1], by simpa using h2, by simp⟩
      · rintro ⟨pre, rest, h1, h2, _⟩
        exact ⟨pre, rest, by simpa using h1, by simpa using h2, by simp⟩
    have split : (∃ pre rest, c :: cs = pre ++ '/' :: rest ∧ q.data = acc ++ pre ∧ acc ++ pre ≠ [])
        ↔ (c = '/' ∧ acc ≠ [] ∧ q.data = acc)
          ∨ (∃ pre rest, c :: cs = (c :: pre) ++ '/' :: rest ∧ q.data = acc ++ (c :: pre)
              ∧ acc ++ (c :: pre) ≠ []) := by
      constructor
      · rintro ⟨pre, rest, h1, h2, h3⟩
        cases pre with
        | nil =>
          left
          simp only [List.nil_append, List.cons.injEq] at h1
          exact ⟨h1.1, by simpa using h3, by simpa using h2⟩
        | cons d pre =>
          right
          simp only [List.cons_append, List.cons.injEq] at h1
          obtain ⟨hd, h1⟩ := h1
          subst hd
          exact ⟨pre, rest, by simp [h1], h2, h3⟩
      · rintro (⟨hc, ha, hq⟩ | ⟨pre, rest, h1, h2, h3⟩)
        · exact ⟨[], cs, by simp [hc], by simpa using hq, by simpa using ha⟩
        · exact ⟨c :: pre, rest, h1, h2, h3⟩
    rw [split, ← tail]
    by_cases hc : c = '/' ∧ acc ≠ []
    · rw [if_pos hc, List.mem_cons]
      constructor
      · rintro (h | h)
        · left
          exact ⟨hc.1, hc.2, by rw [h]⟩
        · right; exact h
      · rintro (⟨_, _, h⟩ | h)
        · left
          exact String.ext h
        · right; exact h
    · rw [if_neg hc]
      constructor
      · intro h; right; exact h
      · rintro (⟨h1, h2, _⟩ | h)
        · exact absurd ⟨h1, h2⟩ hc
        · exact h

theorem mem_parents_iff (p q : String) :
    q ∈ FS.parents p ↔ q.data ≠ [] ∧ (q.data ++ ['/']) <+: p.data := by
  unfold FS.parents
  rw [mem_parentsAux_iff]
  constructor
  · rintro ⟨pre, rest, h1, h2, h3⟩
    simp only [List.nil_append] at h2 h3
    rw [h2]
    exact ⟨h3, ⟨rest, by rw [h1]; simp⟩⟩
  · rintro ⟨h1, ⟨rest, h2⟩⟩
    exact ⟨q.data, rest, by rw [← h2]; simp, by simp, by simpa using h1⟩

/-- An ancestor of an ancestor is an ancestor. -/
theorem mem_parents_mono (a p q : String) (h : a ∈ FS.parents p)
    (hp : p.data <+: q.data) : a ∈ FS.parents q := by
  rw [mem_parents_iff] at h ⊢
  exact ⟨h.1, h.2.trans hp⟩

theorem mem_parents_trans (a p q : String) (h : a ∈ FS.parents p) (hp : p ∈ FS.parents q) :
    a ∈ FS.parents q := by
  rw [mem_parents_iff] at hp
  exact mem_parents_mono a p q h ((List.prefix_append _ _).trans hp.2)

theorem isAtOrBelow_iff (d p : String) :
    FS.isAtOrBelow d p = true ↔ p = d ∨ (d.data ++ ['/']) <+: p.data := by
  unfold FS.isAtOrBelow
  rw [Bool.or_eq_true, decide_eq_true_iff, List.isPrefixOf_iff_prefix]
  simp [String.data_append]

/-- An ancestor of a path is not at or below the path. -/
theorem not_isAtOrBelow_of_mem_parents (a p : String) (h : a ∈ FS.parents p) :
    FS.isAtOrBelow p a = false := by
  rw [mem_parents_iff] at h
  cases hb : FS.isAtOrBelow p a with
  | false => rfl
  | true =>
    exfalso
    rw [isAtOrBelow_iff] at hb
    have hlen := h.2.length_le
    simp only [List.length_append, List.length_singleton] at hlen
    rcases hb with hb | hb
    · rw [hb] at hlen
      omega
    · have := hb.length_le
      simp only [List.length_append, List.length_singleton] at this
      omega

/-- What lies at or below a path has the ancestors of that path among its
own. -/
theorem mem_parents_of_isAtOrBelow (a d q : String) (h : a ∈ FS.parents d)
    (hq : FS.isAtOrBelow d q = true) : a ∈ FS.parents q := by
  rw [isAtOrBelow_iff] at hq
  rcases hq with hq | hq
  · rw [hq]; exact h
  · exact mem_parents_mono a d q h ((List.prefix_append _ _).trans hq)

/-- The ancestors of `r/x`, for an element `x` without separator, are `r` and
the ancestors of `r`. -/
theorem mem_parents_child (r x a : String) (hr : r.data ≠ []) (hx : '/' ∉ x.data) :
    a ∈ FS.parents (r ++ "/" ++ x) ↔ a = r ∨ a ∈ FS.parents r := by
  rw [mem_parents_iff, mem_parents_iff]
  have hd : (r ++ "/" ++ x).data = r.data ++ '/' :: x.data := by simp [String.data_append]
  rw [hd]
  constructor
  · rintro ⟨h1, ⟨rest, h2⟩⟩
    -- compare the two splittings at a separator
    have h3 : a.data ++ '/' :: rest = r.data ++ '/' :: x.data := by simpa using h2
    rcases List.append_eq_append_iff.mp h3 with ⟨m, hm1, hm2⟩ | ⟨m, hm1, hm2⟩
    · -- r = a ++ m
      cases m with
      | nil =>
        left
        apply String.ext
        simpa using hm1.symm
      | cons c m =>
        right
        simp only [List.cons_append, List.cons.injEq] at hm2
        obtain ⟨hc, _⟩ := hm2
        subst hc
        exact ⟨h1, ⟨m, by rw [hm1]; simp⟩⟩
    · -- a = r ++ m
      cases m with
      | nil =>
        left
        apply String.ext
        simpa using hm1
      | cons c m =>
        exfalso
        simp only [List.cons_append, List.cons.injEq] at hm2
        obtain ⟨_, hm2⟩ := hm2
        apply hx
        rw [hm2]
        simp
  · rintro (h | ⟨h1, ⟨rest, h2⟩⟩)
    · subst h
      exact ⟨hr, ⟨x.data, by simp⟩⟩
    · refine ⟨h1, ⟨rest ++ '/' :: x.data, ?_⟩⟩
      rw [← h2]
      simp

theorem child_eq (root x : String) (s : String) (hs : s = "/" ++ x) :
    root ++ s = root ++ "/" ++ x := by
  rw [hs, String.append_assoc]

/-- The ancestors of a directory of the managed tree are the root and the
ancestors of the root. -/
theorem mem_parents_managed (root a s x : String) (hr : root ≠ "") (hs : s = "/" ++ x)
    (hx : '/' ∉ x.data) :
    a ∈ FS.parents (root ++ s) ↔ a = root ∨ a ∈ FS.parents root := by
  rw [child_eq root x s hs]
  exact mem_parents_child root x a (fun h => hr (String.ext h)) hx

/-! ## Auxiliary facts: resolution of symbolic links -/

theorem firstLink_none_iff (fs : FS) (sites : List String) :
    fs.firstLink sites = none ↔ ∀ q ∈ sites, Node.isLink (fs.find q) = false := by
  induction sites with
  | nil => simp [FS.firstLink]
  | cons q rest ih =>
    rw [FS.firstLink, List.forall_mem_cons, ← ih]
    cases hf : fs.find q with
    | none => simp [Node.isLink]
    | some n =>
      cases n with
      | symlink t => simp [Node.isLink]
      | file c => simp [Node.isLink]
      | dir => simp [Node.isLink]

theorem firstLink_some (fs : FS) (sites : List String) (q t : String)
    (h : fs.firstLink sites = some (q, t)) :
    q ∈ sites ∧ fs.find q = some (Node.symlink t) := by
  induction sites with
  | nil => simp [FS.firstLink] at h
  | cons q0 rest ih =>
    rw [FS.firstLink] at h
    cases hf : fs.find q0 with
    | none =>
      rw [hf] at h
      obtain ⟨h1, h2⟩ := ih h
      exact ⟨List.mem_cons_of_mem _ h1, h2⟩
    | some n =>
      rw [hf] at h
      cases n with
      | symlink t0 =>
        simp only [Option.some.injEq, Prod.mk.injEq] at h
        obtain ⟨h1, h2⟩ := h
        subst h1 h2
        exact ⟨List.mem_cons_self _ _, hf⟩
      | file c =>
        obtain ⟨h1, h2⟩ := ih h
        exact ⟨List.mem_cons_of_mem _ h1, h2⟩
      | dir =>
        obtain ⟨h1, h2⟩ := ih h
        exact ⟨List.mem_cons_of_mem _ h1, h2⟩

theorem firstLink_append (fs : FS) (a b : List String) :
    fs.firstLink (a ++ b)
      = match fs.firstLink a with
        | some x => some x
        | none => fs.firstLink b := by
  induction a with
  | nil => simp [FS.firstLink]
  | cons q rest ih =>
    simp only [List.cons_append, FS.firstLink]
    cases hf : fs.find q with
    | none => simpa using ih
    | some n =>
      cases n with
      | symlink t => rfl
      | file c => simpa using ih
      | dir => simpa using ih

/-- Two filesystems with the same links at the given paths have the same first
link there. -/
theorem firstLink_congr (fs fs2 : FS) (sites : List String)
    (h : ∀ q ∈ sites, ∀ t, fs2.find q = some (Node.symlink t) ↔ fs.find q = some (Node.symlink t)) :
    fs2.firstLink sites = fs.firstLink sites := by
  induction sites with
  | nil => rfl
  | cons q rest ih =>
    have ih2 := ih (fun q hq => h q (List.mem_cons_of_mem _ hq))
    have hq := h q (List.mem_cons_self _ _)
    rw [FS.firstLink, FS.firstLink]
    cases hf : fs.find q with
    | none =>
      cases hf2 : fs2.find q with
      | none => exact ih2
      | some n =>
        cases n with
        | symlink t => rw [(hq t).mp hf2] at hf; cases hf
        | file c => exact ih2
        | dir => exact ih2
    | some n =>
      cases n with
      | symlink t => rw [(hq t).mpr hf]
      | file c =>
        cases hf2 : fs2.find q with
        | none => exact ih2
        | some n =>
          cases n with
          | symlink t => rw [(hq t).mp hf2] at hf; cases hf
          | file c => exact ih2
          | dir => exact ih2
      | dir =>
        cases hf2 : fs2.find q with
        | none => exact ih2
        | some n =>
          cases n with
          | symlink t => rw [(hq t).mp hf2] at hf; cases hf
          | file c => exact ih2
          | dir => exact ih2

/-- Resolution reads nothing but the links of a filesystem. -/
theorem real_congr (fs fs2 : FS)
    (h : ∀ q t, fs2.find q = some (Node.symlink t) ↔ fs.find q = some (Node.symlink t))
    (n : Nat) (last : Bool) (p : String) : fs2.real n last p = fs.real n last p := by
  induction n generalizing p with
  | zero =>
    unfold FS.real
    rw [firstLink_congr fs fs2 _ (fun q _ => h q)]
  | succ n ih =>
    unfold FS.real
    rw [firstLink_congr fs fs2 _ (fun q _ => h q)]
    cases fs.firstLink (FS.linkSites last p) with
    | none => rfl
    | some x => exact ih _

/-- A path without links on the way leads to itself. -/
theorem real_id (fs : FS) (n : Nat) (last : Bool) (p : String)
    (h : ∀ q ∈ FS.linkSites last p, Node.isLink (fs.find q) = false) :
    fs.real n last p = some p := by
  have hn := (firstLink_none_iff fs _).mpr h
  cases n with
  | zero => unfold FS.real; rw [hn]
  | succ n => unfold FS.real; rw [hn]

/-- Where a path leads, no link is left on the way. -/
theorem real_phys (fs : FS) (n : Nat) (last : Bool) (p P : String)
    (h : fs.real n last p = some P) :
    ∀ q ∈ FS.linkSites last P, Node.isLink (fs.find q) = false := by
  induction n generalizing p with
  | zero =>
    unfold FS.real at h
    cases hf : fs.firstLink (FS.linkSites last p) with
    | none =>
      rw [hf] at h
      injection h with h
      subst h
      exact (firstLink_none_iff fs _).mp hf
    | some x => rw [hf] at h; cases h
  | succ n ih =>
    unfold FS.real at h
    cases hf : fs.firstLink (FS.linkSites last p) with
    | none =>
      rw [hf] at h
      injection h with h
      subst h
      exact (firstLink_none_iff fs _).mp hf
    | some x =>
      rw [hf] at h
      exact ih _ h

/-- When the place a path leads to holds no link, following a link at the end
of the path makes no difference. -/
theorem real_last (fs : FS) (n : Nat) (p P : String)
    (h : fs.real n false p = some P) (hl : Node.isLink (fs.find P) = false) :
    fs.real n true p = some P := by
  have sites : ∀ p : String, fs.firstLink (FS.linkSites true p)
      = match fs.firstLink (FS.linkSites false p) with
        | some x => some x
        | none => fs.firstLink [p] := by
    intro p
    unfold FS.linkSites
    simp only [Bool.false_eq_true, if_false, if_true, List.append_nil]
    exact firstLink_append fs _ _
  have self : fs.firstLink [P] = none := by
    rw [firstLink_none_iff]
    intro q hq
    simp only [List.mem_singleton] at hq
    rw [hq]
    exact hl
  induction n generalizing p with
  | zero =>
    unfold FS.real at h ⊢
    rw [sites]
    cases hf : fs.firstLink (FS.linkSites false p) with
    | none =>
      rw [hf] at h
      injection h with h
      subst h
      simp only
      rw [self]
    | some x => rw [hf] at h; cases h
  | succ n ih =>
    unfold FS.real at h ⊢
    rw [sites]
    cases hf : fs.firstLink (FS.linkSites false p) with
    | none =>
      rw [hf] at h
      injection h with h
      subst h
      simp only
      rw [self]
    | some x =>
      rw [hf] at h
      exact ih _ h

/-! ## Auxiliary facts: additions to the filesystem, `os.Stat` and `exist` -/

theorem adds_refl (fs : FS) : FS.Adds fs fs := fun _ => Or.inl rfl

theorem adds_trans (a b c : FS) (h1 : FS.Adds a b) (h2 : FS.Adds b c) : FS.Adds a c := by
  intro q
  rcases h2 q with e2 | ⟨n2, m, hm, hl⟩ | ⟨c1, c2, f1, f2⟩
  · rw [e2]
    exact h1 q
  · rcases h1 q with e1 | ⟨n1, m1, hm1, _⟩ | ⟨c1, c2, f1, f2⟩
    · right; left
      exact ⟨by rw [← e1]; exact n2, m, hm, hl⟩
    · rw [hm1] at n2; cases n2
    · rw [f2] at n2; cases n2
  · rcases h1 q with e1 | ⟨n1, m1, hm1, hl1⟩ | ⟨d1, d2, g1, g2⟩
    · right; right
      exact ⟨c1, c2, by rw [← e1]; exact f1, f2⟩
    · right; left
      exact ⟨n1, Node.file c2, f2, rfl⟩
    · right; right
      exact ⟨d1, c2, g1, f2⟩

theorem adds_links (fs fs2 : FS) (h : FS.Adds fs fs2) (q t : String) :
    fs2.find q = some (Node.symlink t) ↔ fs.find q = some (Node.symlink t) := by
  rcases h q with e | ⟨n0, m, hm, hl⟩ | ⟨c1, c2, f1, f2⟩
  · rw [e]
  · rw [hm, n0]
    constructor
    · intro hh
      injection hh with hh
      subst hh
      simp [Node.isLink] at hl
    · intro hh; cases hh
  · rw [f1, f2]
    constructor <;> intro hh <;> cases hh

theorem adds_isLink (fs fs2 : FS) (h : FS.Adds fs fs2) (q : String) :
    Node.isLink (fs2.find q) = Node.isLink (fs.find q) := by
  rcases h q with e | ⟨n0, m, hm, hl⟩ | ⟨c1, c2, f1, f2⟩
  · rw [e]
  · rw [hm, n0, hl]; rfl
  · rw [f1, f2]; rfl

theorem adds_none (fs fs2 : FS) (h : FS.Adds fs fs2) (q : String) (h2 : fs2.find q = none) :
    fs.find q = none := by
  rcases h q with e | ⟨n0, _⟩ | ⟨c1, c2, f1, f2⟩
  · rw [← e]; exact h2
  · exact n0
  · rw [f2] at h2; cases h2

theorem adds_dir (fs fs2 : FS) (h : FS.Adds fs fs2) (q : String)
    (hd : fs.find q = some Node.dir) : fs2.find q = some Node.dir := by
  rcases h q with e | ⟨n0, _⟩ | ⟨c1, c2, f1, f2⟩
  · rw [e]; exact hd
  · rw [n0] at hd; cases hd
  · rw [f1] at hd; cases hd

theorem adds_real (fs fs2 : FS) (h : FS.Adds fs fs2) (n : Nat) (last : Bool) (p : String) :
    fs2.real n last p = fs.real n last p :=
  real_congr fs fs2 (adds_links fs fs2 h) n last p

theorem fileOnWay_iff (fs : FS) (p : String) :
    fs.fileOnWay p = true ↔ ∃ a ∈ FS.parents p, ∃ c, fs.find a = some (Node.file c) := by
  unfold FS.fileOnWay
  rw [List.any_eq_true]
  constructor
  · rintro ⟨a, ha, h⟩
    refine ⟨a, ha, ?_⟩
    cases hf : fs.find a with
    | none => rw [hf] at h; cases h
    | some n =>
      cases n with
      | file c => exact ⟨c, rfl⟩
      | dir => rw [hf] at h; cases h
      | symlink t => rw [hf] at h; cases h
  · rintro ⟨a, ha, c, hc⟩
    exact ⟨a, ha, by rw [hc]⟩

theorem adds_fileOnWay (fs fs2 : FS) (h : FS.Adds fs fs2) (p : String)
    (hf : fs2.fileOnWay p = false) : fs.fileOnWay p = false := by
  cases hb : fs.fileOnWay p with
  | false => rfl
  | true =>
    exfalso
    obtain ⟨a, ha, c, hc⟩ := (fileOnWay_iff fs p).mp hb
    have : fs2.fileOnWay p = true := by
      rw [fileOnWay_iff]
      rcases h a with e | ⟨n0, _⟩ | ⟨c1, c2, f1, f2⟩
      · exact ⟨a, ha, c, by rw [e]; exact hc⟩
      · rw [n0] at hc; cases hc
      · exact ⟨a, ha, c2, f2⟩
    rw [this] at hf
    cases hf

/-- Two filesystems that agree on the ancestors of a path agree on whether a
regular file stands on the way. -/
theorem fileOnWay_congr (fs fs2 : FS) (p : String)
    (h : ∀ a ∈ FS.parents p, fs2.find a = fs.find a) : fs2.fileOnWay p = fs.fileOnWay p := by
  rw [Bool.eq_iff_iff, fileOnWay_iff, fileOnWay_iff]
  constructor
  · rintro ⟨a, ha, c, hc⟩
    exact ⟨a, ha, c, by rw [← h a ha]; exact hc⟩
  · rintro ⟨a, ha, c, hc⟩
    exact ⟨a, ha, c, by rw [h a ha]; exact hc⟩

theorem adds_cons (fs : FS) (p : String) (n : Node) (h0 : fs.find p = none)
    (hn : Node.isLink (some n) = false) : FS.Adds fs ((p, n) :: fs) := by
  intro q
  by_cases hq : p = q
  · subst hq
    right; left
    exact ⟨h0, n, by simp [FS.find], hn⟩
  · left
    simp [FS.find, hq]

theorem adds_write_file (fs : FS) (p : String) (c : String)
    (h : fs.find p = none ∨ ∃ c0, fs.find p = some (Node.file c0)) :
    FS.Adds fs (fs.write p (Node.file c)) := by
  intro q
  rw [find_write]
  by_cases hq : p = q
  · subst hq
    simp only [if_true]
    rcases h with h | ⟨c0, h⟩
    · right; left
      exact ⟨h, _, rfl, rfl⟩
    · right; right
      exact ⟨c0, c, h, rfl⟩
  · left
    simp [hq]

/-- When `exist` answers false: the call is not refused, the path leads
somewhere, no regular file stands on the way, and nothing stands there. -/
theorem exist_false_iff (env : Env) (fs : FS) (p : String) :
    gonvm.exist env fs p = false ↔
      env.statErr p = false ∧ ∃ P, fs.real 40 true p = some P ∧ fs.fileOnWay P = false
        ∧ fs.find P = none := by
  unfold gonvm.exist os.Stat
  cases hs : env.statErr p with
  | true => simp
  | false =>
    simp only [Bool.false_eq_true, if_false, true_and]
    cases hr : fs.real 40 true p with
    | none => simp
    | some P =>
      simp only [Option.some.injEq, exists_eq_left']
      cases hw : fs.fileOnWay P with
      | true => simp
      | false =>
        simp only [Bool.false_eq_true, if_false, true_and]
        cases hf : fs.find P with
        | none => simp
        | some n => simp

/-- What exists keeps existing when entries are only added. -/
theorem exist_adds (env : Env) (fs fs2 : FS) (h : FS.Adds fs fs2) (p : String)
    (he : gonvm.exist env fs p = true) : gonvm.exist env fs2 p = true := by
  cases hb : gonvm.exist env fs2 p with
  | true => rfl
  | false =>
    exfalso
    obtain ⟨hs, P, hr, hw, hf⟩ := (exist_false_iff env fs2 p).mp hb
    have : gonvm.exist env fs p = false := by
      rw [exist_false_iff]
      refine ⟨hs, P, ?_, adds_fileOnWay fs fs2 h P hw, adds_none fs fs2 h P hf⟩
      rw [← adds_real fs fs2 h]
      exact hr
    rw [this] at he
    cases he

/-- A path that leads to a place that holds something exists. -/
theorem exist_of_real (env : Env) (fs : FS) (p P : String) (n : Node)
    (hr : fs.real 40 true p = some P) (hf : fs.find P = some n) :
    gonvm.exist env fs p = true := by
  cases hb : gonvm.exist env fs p with
  | true => rfl
  | false =>
    exfalso
    obtain ⟨_, P2, hr2, _, hf2⟩ := (exist_false_iff env fs p).mp hb
    rw [hr] at hr2
    injection hr2 with hr2
    subst hr2
    rw [hf] at hf2
    cases hf2

theorem exist_of_stat_ok (env : Env) (fs : FS) (p : String) (n : Node)
    (h : os.Stat env fs p = StatResult.ok n) : gonvm.exist env fs p = true := by
  simp [gonvm.exist, h]

/-- On a path without links, `os.Stat` reads the path itself. -/
theorem exist_eq_of_noLink (env : Env) (fs : FS) (p : String)
    (h : FS.noLinkOnPath fs p = true) :
    gonvm.exist env fs p = (env.statErr p || fs.fileOnWay p || (fs.find p).isSome) := by
  have hr : fs.real 40 true p = some p := by
    apply real_id
    intro q hq
    unfold FS.noLinkOnPath at h
    rw [List.all_eq_true] at h
    have := h q (by simpa [FS.linkSites] using hq)
    simpa using this
  unfold gonvm.exist os.Stat
  rw [hr]
  cases hs : env.statErr p with
  | true => simp
  | false =>
    cases hw : fs.fileOnWay p with
    | true => simp [hw]
    | false =>
      cases hf : fs.find p with
      | none => simp [hw, hf]
      | some n => simp [hw, hf]

/-- Two filesystems that agree on a path and its ancestors, none of which
holds a link, agree on whether the path exists. -/
theorem exist_congr_of_noLink (env : Env) (fs fs2 : FS) (p : String)
    (h : FS.noLinkOnPath fs p = true)
    (hsame : ∀ a ∈ FS.parents p ++ [p], fs2.find a = fs.find a) :
    gonvm.exist env fs2 p = gonvm.exist env fs p := by
  have h2 : FS.noLinkOnPath fs2 p = true := by
    unfold FS.noLinkOnPath at h ⊢
    rw [List.all_eq_true] at h ⊢
    intro a ha
    rw [hsame a ha]
    exact h a ha
  rw [exist_eq_of_noLink env fs p h, exist_eq_of_noLink env fs2 p h2,
    fileOnWay_congr fs fs2 p (fun a ha => hsame a (List.mem_append_left _ ha)),
    hsame p (by simp)]

/-! ## Auxiliary facts: `os.MkdirAll` -/

/-- What `os.MkdirAll` changes: nothing but places that held nothing and to
which a path of its chain leads, which become directories. -/
theorem mkdirChain_made (env : Env) (chain : List String) (fs : FS) (q : String) :
    FS.find (os.mkdirChain env chain fs).2 q = FS.find fs q
    ∨ (FS.find fs q = none ∧ FS.find (os.mkdirChain env chain fs).2 q = some Node.dir
        ∧ ∃ c ∈ chain, fs.real 40 false c = some q) := by
  induction chain generalizing q with
  | nil => left; rfl
  | cons q0 anc ih =>
    have lift : FS.find (os.mkdirChain env anc fs).2 q = FS.find fs q
        ∨ (FS.find fs q = none ∧ FS.find (os.mkdirChain env anc fs).2 q = some Node.dir
            ∧ ∃ c ∈ q0 :: anc, fs.real 40 false c = some q) := by
      rcases ih q with h | ⟨h1, h2, c, hc, hr⟩
      · exact Or.inl h
      · exact Or.inr ⟨h1, h2, c, List.mem_cons_of_mem _ hc, hr⟩
    have hadds : FS.Adds fs (os.mkdirChain env anc fs).2 := by
      intro x
      rcases ih x with h | ⟨h1, h2, _⟩
      · exact Or.inl h
      · exact Or.inr (Or.inl ⟨h1, _, h2, rfl⟩)
    rw [os.mkdirChain]
    split
    · left; rfl
    · left; rfl
    · generalize os.mkdirChain env anc fs = res at lift hadds
      obtain ⟨r1, fs1⟩ := res
      cases r1 with
      | error e => exact lift
      | ok u =>
        simp only at lift hadds ⊢
        cases hr : fs1.real 40 false q0 with
        | none => exact lift
        | some P =>
          simp only
          split
          · exact lift
          · cases hf : fs1.find P with
            | some node =>
              cases node <;> exact lift
            | none =>
              simp only
              cases hm : env.mkdirErr q0 with
              | some e => exact lift
              | none =>
                simp only [FS.find]
                by_cases hq : P = q
                · subst hq
                  right
                  refine ⟨adds_none fs fs1 hadds P hf, by simp, q0, List.mem_cons_self _ _, ?_⟩
                  rw [← adds_real fs fs1 hadds]
                  exact hr
                · simp only [hq, if_false]
                  exact lift

theorem mkdirChain_adds (env : Env) (chain : List String) (fs : FS) :
    FS.Adds fs (os.mkdirChain env chain fs).2 := by
  intro x
  rcases mkdirChain_made env chain fs x with h | ⟨h1, h2, _⟩
  · exact Or.inl h
  · exact Or.inr (Or.inl ⟨h1, _, h2, rfl⟩)

/-- After a successful `os.MkdirAll` the path exists. -/
theorem mkdirChain_ok_exist (env : Env) (p : String) (anc : List String) (fs : FS)
    (h : (os.mkdirChain env (p :: anc) fs).1 = Except.ok ()) :
    gonvm.exist env (os.mkdirChain env (p :: anc) fs).2 p = true := by
  rw [os.mkdirChain] at h ⊢
  split at h
  · rename_i hS
    exact exist_of_stat_ok env fs p _ hS
  · simp at h
  · generalize os.mkdirChain env anc fs = res at h
    obtain ⟨r1, fs1⟩ := res
    cases r1 with
    | error e => simp at h
    | ok u =>
      simp only at h ⊢
      cases hr : fs1.real 40 false p with
      | none => rw [hr] at h; simp at h
      | some P =>
        rw [hr] at h
        simp only at h ⊢
        cases hw : fs1.fileOnWay P with
        | true => rw [hw] at h; simp at h
        | false =>
          rw [hw] at h
          simp only [Bool.false_eq_true, if_false] at h ⊢
          cases hf : fs1.find P with
          | some node =>
            rw [hf] at h
            cases node with
            | dir =>
              simp only
              exact exist_of_real env fs1 p P Node.dir
                (real_last fs1 40 p P hr (by rw [hf]; rfl)) hf
            | file c => simp at h
            | symlink t => simp at h
          | none =>
            rw [hf] at h
            simp only at h ⊢
            cases hm : env.mkdirErr p with
            | some e => rw [hm] at h; simp at h
            | none =>
              simp only
              have hadd : FS.Adds fs1 ((P, Node.dir) :: fs1) := adds_cons fs1 P Node.dir hf rfl
              apply exist_of_real env _ p P Node.dir
              · rw [adds_real fs1 _ hadd]
                exact real_last fs1 40 p P hr (by rw [hf]; rfl)
              · simp [FS.find]

/-! ## Auxiliary facts: the steps of the pipeline -/

theorem ensure_noop (env : Env) (p : String) (w : World) (h : gonvm.exist env w.fs p = true) :
    (if !gonvm.exist env w.fs p then os.MkdirAll env p w else (Except.ok (), w))
      = (Except.ok (), w) := by
  simp [h]

theorem ensure_cases (env : Env) (p : String) (w : World) (P : FS → Prop) (h0 : P w.fs)
    (h1 : P (os.mkdirChain env (p :: (FS.parents p).reverse) w.fs).2) :
    P (if !gonvm.exist env w.fs p then os.MkdirAll env p w else (Except.ok (), w)).2.fs := by
  by_cases he : gonvm.exist env w.fs p = true
  · simpa [he] using h0
  · have he' : gonvm.exist env w.fs p = false := by simpa using he
    simp only [he', Bool.not_false, if_true, os.MkdirAll, World.log]
    exact h1

theorem ensure_adds (env : Env) (p : String) (w : World) :
    FS.Adds w.fs
      (if !gonvm.exist env w.fs p then os.MkdirAll env p w else (Except.ok (), w)).2.fs :=
  ensure_cases env p w (fun fs => FS.Adds w.fs fs) (adds_refl _) (mkdirChain_adds env _ w.fs)

/-- What ensuring a directory changes: nothing but places that held nothing and
to which the path or one of its ancestors leads, which become directories. -/
theorem ensure_made (env : Env) (p : String) (w : World) (q : String) :
    FS.find (if !gonvm.exist env w.fs p then os.MkdirAll env p w else (Except.ok (), w)).2.fs q
      = FS.find w.fs q
    ∨ (FS.find w.fs q = none
        ∧ FS.find (if !gonvm.exist env w.fs p then os.MkdirAll env p w
            else (Except.ok (), w)).2.fs q = some Node.dir
        ∧ ∃ c, (c = p ∨ c ∈ FS.parents p) ∧ w.fs.real 40 false c = some q) := by
  apply ensure_cases env p w (fun fs => FS.find fs q = FS.find w.fs q
    ∨ (FS.find w.fs q = none ∧ FS.find fs q = some Node.dir
        ∧ ∃ c, (c = p ∨ c ∈ FS.parents p) ∧ w.fs.real 40 false c = some q)) (Or.inl rfl)
  rcases mkdirChain_made env (p :: (FS.parents p).reverse) w.fs q with h | ⟨h1, h2, c, hc, hr⟩
  · exact Or.inl h
  · refine Or.inr ⟨h1, h2, c, ?_, hr⟩
    rcases List.mem_cons.mp hc with h3 | h3
    · exact Or.inl h3
    · exact Or.inr (List.mem_reverse.mp h3)

theorem ensure_exist (env : Env) (p : String) (w : World)
    (h : (if !gonvm.exist env w.fs p then os.MkdirAll env p w else (Except.ok (), w)).1
      = Except.ok ()) :
    gonvm.exist env
      (if !gonvm.exist env w.fs p then os.MkdirAll env p w else (Except.ok (), w)).2.fs p
      = true := by
  by_cases he : gonvm.exist env w.fs p = true
  · simp [he]
  · have he' : gonvm.exist env w.fs p = false := by simpa using he
    simp only [he', Bool.not_false, if_true, os.MkdirAll, World.log] at h ⊢
    exact mkdirChain_ok_exist env p _ w.fs h

theorem Init_home_error (env : Env) (w : World) (e : String) (h : env.home = .error e) :
    gonvm.Init env w = (Except.error e, w) := by
  simp [gonvm.Init, gonvm.getGoNVMPath, h]

/-- `Init` with the root resolved: the three directories are ensured in turn. -/
theorem Init_eq (env : Env) (w : World) (root : String) (h : gonvm.getGoNVMPath env = .ok root) :
    gonvm.Init env w =
      match (if !gonvm.exist env w.fs root then os.MkdirAll env root w else (Except.ok (), w)) with
      | (.error err, w1) => (.error err, w1)
      | (.ok (), w1) =>
        match (if !gonvm.exist env w1.fs (root ++ "/sources")
               then os.MkdirAll env (root ++ "/sources") w1 else (Except.ok (), w1)) with
        | (.error err, w2) => (.error err, w2)
        | (.ok (), w2) =>
          match (if !gonvm.exist env w2.fs (root ++ "/versions")
                 then os.MkdirAll env (root ++ "/versions") w2 else (Except.ok (), w2)) with
          | (.error err, w3) => (.error err, w3)
          | (.ok (), w3) => (.ok (), w3) := by
  obtain ⟨_, hs, hv, _⟩ := paths_of_root env root "" h
  simp only [gonvm.Init, h, hs, hv]

theorem Init_noop (env : Env) (w : World) (root : String) (h : gonvm.getGoNVMPath env = .ok root)
    (h1 : gonvm.exist env w.fs root = true)
    (h2 : gonvm.exist env w.fs (root ++ "/sources") = true)
    (h3 : gonvm.exist env w.fs (root ++ "/versions") = true) :
    gonvm.Init env w = (Except.ok (), w) := by
  rw [Init_eq env w root h]
  simp [h1, h2, h3]

/-- A relation between filesystems that every directory-ensuring step of
`Init` respects holds between the state before and the state after `Init`. -/
theorem Init_steps (env : Env) (w : World) (root : String)
    (h : gonvm.getGoNVMPath env = .ok root) (R : FS → FS → Prop)
    (htrans : ∀ a b c, R a b → R b c → R a c)
    (hstep : ∀ (p : String) (w1 : World),
      p = root ∨ p = root ++ "/sources" ∨ p = root ++ "/versions" →
      R w1.fs (if !gonvm.exist env w1.fs p then os.MkdirAll env p w1
        else (Except.ok (), w1)).2.fs) :
    R w.fs (gonvm.Init env w).2.fs := by
  rw [Init_eq env w root h]
  have a1 := hstep root w (Or.inl rfl)
  generalize (if !gonvm.exist env w.fs root then os.MkdirAll env root w
    else (Except.ok (), w)) = s1 at a1 ⊢
  obtain ⟨r1, w1⟩ := s1
  cases r1 with
  | error e => exact a1
  | ok u =>
    simp only at a1 ⊢
    have a2 := hstep (root ++ "/sources") w1 (Or.inr (Or.inl rfl))
    generalize (if !gonvm.exist env w1.fs (root ++ "/sources")
      then os.MkdirAll env (root ++ "/sources") w1 else (Except.ok (), w1)) = s2 at a2 ⊢
    obtain ⟨r2, w2⟩ := s2
    cases r2 with
    | error e => exact htrans _ _ _ a1 a2
    | ok u =>
      simp only at a2 ⊢
      have a3 := hstep (root ++ "/versions") w2 (Or.inr (Or.inr rfl))
      generalize (if !gonvm.exist env w2.fs (root ++ "/versions")
        then os.MkdirAll env (root ++ "/versions") w2 else (Except.ok (), w2)) = s3 at a3 ⊢
      obtain ⟨r3, w3⟩ := s3
      cases r3 with
      | error e => exact htrans _ _ _ a1 (htrans _ _ _ a2 a3)
      | ok u => exact htrans _ _ _ a1 (htrans _ _ _ a2 a3)

/-- What `Init` changes: nothing but places that held nothing and to which one
of its directories or one of their ancestors leads, which become
directories. -/
theorem Init_made (env : Env) (w : World) (root : String)
    (h : gonvm.getGoNVMPath env = .ok root) :
    FS.Adds w.fs (gonvm.Init env w).2.fs
    ∧ ∀ q, FS.find (gonvm.Init env w).2.fs q = FS.find w.fs q
        ∨ (FS.find w.fs q = none ∧ FS.find (gonvm.Init env w).2.fs q = some Node.dir
            ∧ ∃ c, (c = root ++ "/sources" ∨ c = root ++ "/versions" ∨ c = root
                    ∨ c ∈ FS.parents root)
                ∧ w.fs.real 40 false c = some q) := by
  have hrne : root ≠ "" := cleanDir_ne_empty root (getGoNVMPath_cleanDir env root h)
  refine Init_steps env w root h
    (fun a b => FS.Adds a b
      ∧ ∀ q, FS.find b q = FS.find a q
        ∨ (FS.find a q = none ∧ FS.find b q = some Node.dir
            ∧ ∃ c, (c = root ++ "/sources" ∨ c = root ++ "/versions" ∨ c = root
                    ∨ c ∈ FS.parents root)
                ∧ a.real 40 false c = some q)) ?_ ?_
  · rintro a b c ⟨ab, hab⟩ ⟨bc, hbc⟩
    refine ⟨adds_trans a b c ab bc, ?_⟩
    intro q
    rcases hbc q with e | ⟨n0, d, x, hx, hr⟩
    · rw [e]
      exact hab q
    · right
      refine ⟨adds_none a b ab q n0, d, x, hx, ?_⟩
      rw [← adds_real a b ab]
      exact hr
  · intro p w1 hp
    refine ⟨ensure_adds env p w1, ?_⟩
    intro q
    rcases ensure_made env p w1 q with e | ⟨n0, d, c, hc, hr⟩
    · exact Or.inl e
    · right
      refine ⟨n0, d, c, ?_, hr⟩
      rcases hp with hp | hp | hp
      · subst hp
        rcases hc with hc | hc
        · exact Or.inr (Or.inr (Or.inl hc))
        · exact Or.inr (Or.inr (Or.inr hc))
      · subst hp
        rcases hc with hc | hc
        · exact Or.inl hc
        · rw [mem_parents_managed root c "/sources" "sources" hrne rfl (by decide)] at hc
          exact Or.inr (Or.inr hc)
      · subst hp
        rcases hc with hc | hc
        · exact Or.inr (Or.inl hc)
        · rw [mem_parents_managed root c "/versions" "versions" hrne rfl (by decide)] at hc
          exact Or.inr (Or.inr hc)

theorem Init_adds (env : Env) (w : World) : FS.Adds w.fs (gonvm.Init env w).2.fs := by
  cases hh : env.home with
  | error e => rw [Init_home_error env w e hh]; exact adds_refl _
  | ok home => exact (Init_made env w _ (getGoNVMPath_of_home env home hh)).1

theorem Init_ok_exist (env : Env) (w : World) (root : String)
    (h : gonvm.getGoNVMPath env = .ok root) (hok : (gonvm.Init env w).1 = Except.ok ()) :
    gonvm.exist env (gonvm.Init env w).2.fs root = true
    ∧ gonvm.exist env (gonvm.Init env w).2.fs (root ++ "/sources") = true
    ∧ gonvm.exist env (gonvm.Init env w).2.fs (root ++ "/versions") = true := by
  rw [Init_eq env w root h] at hok ⊢
  have e1 := ensure_exist env root w
  generalize (if !gonvm.exist env w.fs root then os.MkdirAll env root w
    else (Except.ok (), w)) = s1 at e1 hok ⊢
  obtain ⟨r1, w1⟩ := s1
  cases r1 with
  | error e => simp at hok
  | ok u =>
    simp only at e1 hok ⊢
    have e2 := ensure_exist env (root ++ "/sources") w1
    have m2 := ensure_adds env (root ++ "/sources") w1
    generalize (if !gonvm.exist env w1.fs (root ++ "/sources")
      then os.MkdirAll env (root ++ "/sources") w1 else (Except.ok (), w1)) = s2 at e2 m2 hok ⊢
    obtain ⟨r2, w2⟩ := s2
    cases r2 with
    | error e => simp at hok
    | ok u =>
      simp only at e2 m2 hok ⊢
      have e3 := ensure_exist env (root ++ "/versions") w2
      have m3 := ensure_adds env (root ++ "/versions") w2
      generalize (if !gonvm.exist env w2.fs (root ++ "/versions")
        then os.MkdirAll env (root ++ "/versions") w2 else (Except.ok (), w2)) = s3 at e3 m3 hok ⊢
      obtain ⟨r3, w3⟩ := s3
      cases r3 with
      | error e => simp at hok
      | ok u =>
        simp only at e3 m3 hok ⊢
        have k2 : ∀ q, gonvm.exist env w1.fs q = true → gonvm.exist env w2.fs q = true :=
          fun q => exist_adds env _ _ m2 q
        have k3 : ∀ q, gonvm.exist env w2.fs q = true → gonvm.exist env w3.fs q = true :=
          fun q => exist_adds env _ _ m3 q
        exact ⟨k3 _ (k2 _ (e1 trivial)), k3 _ (e2 trivial), e3 trivial⟩

theorem utils_Download_not_found (env : Env) (url dst : String) (w : World) (code : Nat)
    (body : String) (h : env.httpGet url = HttpResult.response code body) (hc : code ≠ 200) :
    utils.Download env url dst w
      = (Except.error "Node version not found", w.log (Event.httpGet url)) := by
  simp [utils.Download, http.Get, h, hc]

/-- What `utils.Download` does to the filesystem: it adds or rewrites a regular
file and touches no link; after a success the destination exists. -/
theorem utils_Download_spec (env : Env) (url dst : String) (w : World) :
    FS.Adds w.fs (utils.Download env url dst w).2.fs
    ∧ ((utils.Download env url dst w).1 = Except.ok () →
        gonvm.exist env (utils.Download env url dst w).2.fs dst = true) := by
  unfold utils.Download http.Get
  cases hg : env.httpGet url with
  | transportError e => exact ⟨adds_refl _, by simp⟩
  | response code body =>
    by_cases hc : code = 200
    · simp only [hc, ne_eq, not_true_eq_false, if_false]
      unfold os.Create
      cases hcr : env.createErr dst with
      | some e => exact ⟨adds_refl _, by simp⟩
      | none =>
        simp only [World.log]
        cases hr : w.fs.real 40 true dst with
        | none => exact ⟨adds_refl _, by simp⟩
        | some out =>
          simp only
          cases hw : w.fs.fileOnWay out with
          | true => exact ⟨adds_refl _, by simp⟩
          | false =>
            simp only [Bool.false_eq_true, if_false]
            have hnl : Node.isLink (w.fs.find out) = false :=
              real_phys w.fs 40 true dst out hr out (by simp [FS.linkSites])
            have main : (w.fs.find out = none ∨ ∃ c0, w.fs.find out = some (Node.file c0)) →
                ∀ r : Except String Unit × World,
                r = ioCopy env out body
                  { fs := w.fs.write out (Node.file ""),
                    trace := w.trace ++ [Event.httpGet url] ++ [Event.create dst] } →
                FS.Adds w.fs r.2.fs
                ∧ (r.1 = Except.ok () → gonvm.exist env r.2.fs dst = true) := by
              intro hout r hr2
              subst hr2
              have a1 := adds_write_file w.fs out "" hout
              have f1 : (w.fs.write out (Node.file "")).find out = some (Node.file "") := by
                simp [find_write]
              unfold ioCopy
              cases hcp : env.copyErr out with
              | some ne =>
                obtain ⟨n, e⟩ := ne
                exact ⟨adds_trans _ _ _ a1 (adds_write_file _ out _ (Or.inr ⟨_, f1⟩)), by simp⟩
              | none =>
                have a2 := adds_trans _ _ _ a1
                  (adds_write_file (w.fs.write out (Node.file "")) out body (Or.inr ⟨_, f1⟩))
                refine ⟨a2, fun _ => ?_⟩
                apply exist_of_real env _ dst out (Node.file body)
                · simp only
                  rw [adds_real w.fs _ a2]
                  exact hr
                · simp [find_write]
            cases hfd : w.fs.find out with
            | none => exact main (Or.inl hfd) _ rfl
            | some node =>
              cases node with
              | dir => exact ⟨adds_refl _, by simp⟩
              | file c => exact main (Or.inr ⟨c, hfd⟩) _ rfl
              | symlink t => simp [hfd, Node.isLink] at hnl
    · simp only [ne_eq, hc, not_false_eq_true, if_true]
      exact ⟨adds_refl _, by simp⟩

theorem Download_eq (env : Env) (v : String) (w : World) (src : String)
    (h : gonvm.getNodeSourcePath env v = .ok src) :
    gonvm.Download env v w =
      match utils.Download env (gonvm.getURL env.platform v) src w with
      | (.error err, w1) =>
        (.error ("Failed to download node version " ++ v ++ " with error: " ++ err), w1)
      | (.ok (), w1) => (.ok (), w1) := by
  simp only [gonvm.Download, h]

theorem Unarchive_eq (env : Env) (v : String) (w : World) (src dst : String)
    (h : gonvm.getNodeSourcePath env v = .ok src)
    (hd : gonvm.getGoNVMVersionsPath env = .ok dst) :
    gonvm.Unarchive env v w =
      match utils.Unarchive env src dst w with
      | (.error err, w1) =>
        (.error ("Failed to unarchive node version " ++ v ++ " with error: " ++ err), w1)
      | (.ok (), w1) => (.ok (), w1) := by
  simp only [gonvm.Unarchive, h, hd]

/-- What `utils.Unarchive` does to the filesystem: it adds at most a directory
and touches no link; after a success the top-level directory of the archive
exists below the destination. -/
theorem utils_Unarchive_spec (env : Env) (src dst : String) (w : World) :
    FS.Adds w.fs (utils.Unarchive env src dst w).2.fs
    ∧ ((utils.Unarchive env src dst w).1 = Except.ok () →
        gonvm.exist env (utils.Unarchive env src dst w).2.fs
          (filepath.Join dst (env.archiveTop src)) = true) := by
  unfold utils.Unarchive
  cases hu : env.unarchiveErr src dst with
  | some e => exact ⟨adds_refl _, by simp⟩
  | none =>
    simp only [World.log]
    cases hr : w.fs.real 40 true (filepath.Join dst (env.archiveTop src)) with
    | none => exact ⟨adds_refl _, by simp⟩
    | some P =>
      simp only
      cases hw : w.fs.fileOnWay P with
      | true => exact ⟨adds_refl _, by simp⟩
      | false =>
        simp only [Bool.false_eq_true, if_false]
        cases hf : w.fs.find P with
        | none =>
          have a1 := adds_cons w.fs P Node.dir hf rfl
          refine ⟨a1, fun _ => ?_⟩
          apply exist_of_real env _ _ P Node.dir
          · simp only
            rw [adds_real w.fs _ a1]
            exact hr
          · simp [FS.find]
        | some node =>
          cases node with
          | dir =>
            exact ⟨adds_refl _, fun _ => exist_of_real env _ _ P Node.dir hr hf⟩
          | file c => exact ⟨adds_refl _, by simp⟩
          | symlink t => exact ⟨adds_refl _, by simp⟩

/-- The download step of `Use`: when it succeeds, the cache path exists
afterwards, and the filesystem has only grown. -/
theorem download_step_spec (env : Env) (v : String) (w : World) (src : String)
    (hsrc : gonvm.getNodeSourcePath env v = .ok src) :
    FS.Adds w.fs
      (if !gonvm.exist env w.fs src then gonvm.Download env v w else (Except.ok (), w)).2.fs
    ∧ ((if !gonvm.exist env w.fs src
          then gonvm.Download env v w else (Except.ok (), w)).1 = Except.ok () →
        gonvm.exist env
          (if !gonvm.exist env w.fs src then gonvm.Download env v w else (Except.ok (), w)).2.fs
          src = true) := by
  by_cases he : gonvm.exist env w.fs src = true
  · simp only [he, Bool.not_true, Bool.false_eq_true, if_false]
    exact ⟨adds_refl _, fun _ => trivial⟩
  · have he' : gonvm.exist env w.fs src = false := by simpa using he
    simp only [he', Bool.not_false, if_true]
    rw [Download_eq env v w src hsrc]
    obtain ⟨s1, s2⟩ := utils_Download_spec env (gonvm.getURL env.platform v) src w
    generalize utils.Download env (gonvm.getURL env.platform v) src w = r at s1 s2 ⊢
    obtain ⟨r1, w1⟩ := r
    cases r1 with
    | error e => exact ⟨s1, by simp⟩
    | ok u => exact ⟨s1, fun _ => s2 rfl⟩

/-- The extraction step of `Use`: the filesystem has only grown, and when the
step succeeds and the archive unpacks to the installation path, that path
exists afterwards. -/
theorem unarchive_step_spec (env : Env) (v : String) (w : World) (src dst inst : String)
    (hsrc : gonvm.getNodeSourcePath env v = .ok src)
    (hdst : gonvm.getGoNVMVersionsPath env = .ok dst) :
    FS.Adds w.fs
      (if !gonvm.exist env w.fs inst then gonvm.Unarchive env v w else (Except.ok (), w)).2.fs
    ∧ ((if !gonvm.exist env w.fs inst
          then gonvm.Unarchive env v w else (Except.ok (), w)).1 = Except.ok () →
        filepath.Join dst (env.archiveTop src) = inst →
        gonvm.exist env
          (if !gonvm.exist env w.fs inst then gonvm.Unarchive env v w
            else (Except.ok (), w)).2.fs inst = true) := by
  by_cases he : gonvm.exist env w.fs inst = true
  · simp only [he, Bool.not_true, Bool.false_eq_true, if_false]
    exact ⟨adds_refl _, fun _ _ => trivial⟩
  · have he' : gonvm.exist env w.fs inst = false := by simpa using he
    simp only [he', Bool.not_false, if_true]
    rw [Unarchive_eq env v w src dst hsrc hdst]
    obtain ⟨s1, s2⟩ := utils_Unarchive_spec env src dst w
    generalize utils.Unarchive env src dst w = r at s1 s2 ⊢
    obtain ⟨r1, w1⟩ := r
    cases r1 with
    | error e => exact ⟨s1, by simp⟩
    | ok u =>
      refine ⟨s1, fun _ hK => ?_⟩
      rw [← hK]
      exact s2 rfl

/-! ## Auxiliary facts: `os.RemoveAll`, `os.Symlink` and `Link` -/

theorem RemoveAll_ok (env : Env) (path : String) (w : World) (hne : path ≠ "")
    (h : (os.RemoveAll env path w).1 = Except.ok ()) :
    env.removeAllErr path = none
    ∧ ∃ P, w.fs.real 40 false path = some P ∧ w.fs.fileOnWay P = false
      ∧ os.RemoveAll env path w
          = (Except.ok (), { fs := w.fs.remove P, trace := w.trace ++ [Event.removeAll path] }) := by
  unfold os.RemoveAll at h ⊢
  simp only [if_neg hne, World.log] at h ⊢
  cases hr : env.removeAllErr path with
  | some e => rw [hr] at h; simp at h
  | none =>
    rw [hr] at h
    simp only at h ⊢
    cases hp : w.fs.real 40 false path with
    | none => rw [hp] at h; simp at h
    | some P =>
      rw [hp] at h
      simp only at h ⊢
      cases hw : w.fs.fileOnWay P with
      | true => rw [hw] at h; simp at h
      | false => exact ⟨trivial, P, rfl, hw, by simp [hw]⟩

theorem RemoveAll_of (env : Env) (path P : String) (w : World) (hne : path ≠ "")
    (he : env.removeAllErr path = none) (hp : w.fs.real 40 false path = some P)
    (hw : w.fs.fileOnWay P = false) :
    os.RemoveAll env path w
      = (Except.ok (), { fs := w.fs.remove P, trace := w.trace ++ [Event.removeAll path] }) := by
  unfold os.RemoveAll
  simp [if_neg hne, World.log, he, hp, hw]

theorem Symlink_ok (env : Env) (target path : String) (w : World)
    (h : (os.Symlink env target path w).1 = Except.ok ()) :
    path ≠ "" ∧ env.symlinkErr target path = none
    ∧ ∃ P, w.fs.real 40 false path = some P ∧ w.fs.fileOnWay P = false ∧ w.fs.find P = none
      ∧ os.Symlink env target path w
          = (Except.ok (), { fs := (P, Node.symlink target) :: w.fs,
                             trace := w.trace ++ [Event.symlink target path] }) := by
  unfold os.Symlink at h ⊢
  by_cases hne : path = ""
  · simp [hne] at h
  · simp only [if_neg hne, World.log] at h ⊢
    cases hp : w.fs.real 40 false path with
    | none => rw [hp] at h; simp at h
    | some P =>
      rw [hp] at h
      simp only at h ⊢
      cases hw : w.fs.fileOnWay P with
      | true => rw [hw] at h; simp at h
      | false =>
        rw [hw] at h
        simp only [Bool.false_eq_true, if_false] at h ⊢
        cases hf : w.fs.find P with
        | some n => rw [hf] at h; simp at h
        | none =>
          rw [hf] at h
          simp only at h ⊢
          cases hs : env.symlinkErr target path with
          | some e => rw [hs] at h; simp at h
          | none => exact ⟨hne, rfl, P, rfl, hw, hf, by simp [hw, hf, hs]⟩

theorem Symlink_of (env : Env) (target path P : String) (w : World) (hne : path ≠ "")
    (he : env.symlinkErr target path = none) (hp : w.fs.real 40 false path = some P)
    (hw : w.fs.fileOnWay P = false) (hf : w.fs.find P = none) :
    os.Symlink env target path w
      = (Except.ok (), { fs := (P, Node.symlink target) :: w.fs,
                         trace := w.trace ++ [Event.symlink target path] }) := by
  unfold os.Symlink
  simp [if_neg hne, World.log, he, hp, hw, hf]

/-- What a successful `Link` did: it removed what stood where the pointer path
led and made the link where the pointer path led then. -/
theorem Link_ok_shape (env : Env) (v : String) (w : World)
    (h : (gonvm.Link env v w).1 = Except.ok ()) :
    ∃ bin target P P2, gonvm.getGoNVMBinPath env = .ok bin ∧ bin ≠ ""
      ∧ gonvm.getNodeVersionBinPath env v = .ok target
      ∧ env.removeAllErr bin = none ∧ env.symlinkErr target bin = none
      ∧ w.fs.real 40 false bin = some P ∧ w.fs.fileOnWay P = false
      ∧ (w.fs.remove P).real 40 false bin = some P2
      ∧ (w.fs.remove P).fileOnWay P2 = false
      ∧ (w.fs.remove P).find P2 = none
      ∧ gonvm.Link env v w
          = (Except.ok (), { fs := (P2, Node.symlink target) :: w.fs.remove P,
                             trace := w.trace ++ [Event.removeAll bin, Event.symlink target bin] }) := by
  unfold gonvm.Link at h ⊢
  cases hb : gonvm.getGoNVMBinPath env with
  | error e => rw [hb] at h; simp at h
  | ok bin =>
    rw [hb] at h
    simp only at h ⊢
    cases hR : os.RemoveAll env bin w with
    | mk r1 w1 =>
    rw [hR] at h
    cases r1 with
    | error e => simp at h
    | ok u =>
      simp only at h ⊢
      cases ht : gonvm.getNodeVersionBinPath env v with
      | error e => rw [ht] at h; simp at h
      | ok target =>
        rw [ht] at h
        simp only at h ⊢
        cases hS : os.Symlink env target bin w1 with
        | mk r2 w2 =>
        rw [hS] at h
        cases r2 with
        | error e => simp at h
        | ok u2 =>
          obtain ⟨hne, hse, P2, hp2, hw2, hf2, hS2⟩ :=
            Symlink_ok env target bin w1 (by rw [hS])
          obtain ⟨hre, P, hp, hw, hR2⟩ := RemoveAll_ok env bin w hne (by rw [hR])
          rw [hR] at hR2
          injection hR2 with _ hw1
          subst hw1
          rw [hS] at hS2
          injection hS2 with _ hw2e
          subst hw2e
          exact ⟨bin, target, P, P2, rfl, hne, rfl, hre, hse, hp, hw, hp2, hw2, hf2,
            by simp⟩

theorem Link_of (env : Env) (v : String) (w : World) (bin target P P2 : String)
    (hb : gonvm.getGoNVMBinPath env = .ok bin) (hne : bin ≠ "")
    (ht : gonvm.getNodeVersionBinPath env v = .ok target)
    (hre : env.removeAllErr bin = none) (hse : env.symlinkErr target bin = none)
    (hp : w.fs.real 40 false bin = some P) (hw : w.fs.fileOnWay P = false)
    (hp2 : (w.fs.remove P).real 40 false bin = some P2)
    (hw2 : (w.fs.remove P).fileOnWay P2 = false)
    (hf2 : (w.fs.remove P).find P2 = none) :
    gonvm.Link env v w
      = (Except.ok (), { fs := (P2, Node.symlink target) :: w.fs.remove P,
                         trace := w.trace ++ [Event.removeAll bin, Event.symlink target bin] }) := by
  unfold gonvm.Link
  rw [hb]
  simp only
  rw [RemoveAll_of env bin P w hne hre hp hw]
  simp only
  rw [ht]
  simp only
  rw [Symlink_of env target bin P2 _ hne hse hp2 hw2 hf2]
  simp

theorem Use_home_error (env : Env) (v : String) (w : World) (e : String)
    (h : env.home = .error e) : gonvm.Use env v w = (Except.error e, w) := by
  simp [gonvm.Use, Init_home_error env w e h]

/-- `Use` with its two paths resolved: the four steps in turn. -/
theorem Use_eq (env : Env) (v : String) (w : World) (src inst : String)
    (hsrc : gonvm.getNodeSourcePath env v = .ok src)
    (hinst : gonvm.getNodeVersionPath env v = .ok inst) :
    gonvm.Use env v w =
      match gonvm.Init env w with
      | (.error err, w1) => (.error err, w1)
      | (.ok (), w1) =>
        match (if !gonvm.exist env w1.fs src
               then gonvm.Download env v w1 else (Except.ok (), w1)) with
        | (.error err, w2) => (.error err, w2)
        | (.ok (), w2) =>
          match (if !gonvm.exist env w2.fs inst
                 then gonvm.Unarchive env v w2 else (Except.ok (), w2)) with
          | (.error err, w3) => (.error err, w3)
          | (.ok (), w3) => gonvm.Link env v w3 := by
  simp only [gonvm.Use, hsrc, hinst]
  rcases gonvm.Init env w with ⟨r1, w1⟩
  cases r1 with
  | error e => rfl
  | ok u =>
    simp only
    rcases (if !gonvm.exist env w1.fs src
      then gonvm.Download env v w1 else (Except.ok (), w1)) with ⟨r2, w2⟩
    cases r2 with
    | error e => rfl
    | ok u =>
      simp only
      rcases (if !gonvm.exist env w2.fs inst
        then gonvm.Unarchive env v w2 else (Except.ok (), w2)) with ⟨r3, w3⟩
      cases r3 with
      | error e => rfl
      | ok u =>
        simp only
        rcases gonvm.Link env v w3 with ⟨r4, w4⟩
        cases r4 <;> rfl

/-- The pointer path is not a prefix of the root or of the two directories
next to it. -/
theorem bin_apart (root : String) :
    ¬ (root ++ "/bin").data <+: root.data
    ∧ ¬ (root ++ "/bin").data <+: (root ++ "/sources").data
    ∧ ¬ (root ++ "/bin").data <+: (root ++ "/versions").data := by
  refine ⟨?_, ?_, ?_⟩
  · intro h
    have := h.length_le
    simp at this
  all_goals simp [List.prefix_append_right_inj]

theorem outside_of_apart (d q : String) (h : ¬ d.data <+: q.data) :
    FS.isAtOrBelow d q = false := by
  cases hb : FS.isAtOrBelow d q with
  | false => rfl
  | true => exact absurd (prefix_of_isAtOrBelow d q hb) h

theorem find_relinked_of (fs : FS) (d q : String) (n : Node) (h : FS.isAtOrBelow d q = false) :
    FS.find ((d, n) :: FS.remove fs d) q = FS.find fs q := by
  have h1 : d ≠ q := by
    intro hd
    rw [hd, isAtOrBelow_self] at h
    cases h
  simp [FS.find, h1, find_remove, h]

theorem noLink_of_noLinkOnPath (fs : FS) (p q : String) (h : FS.noLinkOnPath fs p = true)
    (hq : q ∈ FS.parents p ++ [p]) : Node.isLink (fs.find q) = false := by
  unfold FS.noLinkOnPath at h
  rw [List.all_eq_true] at h
  simpa using h q hq

theorem Download_error_shape (env : Env) (v : String) (w : World) (e : String)
    (h : (gonvm.Download env v w).1 = Except.error e) :
    ∃ e0, e = "Failed to download node version " ++ v ++ " with error: " ++ e0 := by
  unfold gonvm.Download at h
  cases hp : gonvm.getNodeSourcePath env v with
  | error e1 =>
    simp only [hp] at h
    exact ⟨e1, by injection h with h; exact h.symm⟩
  | ok dst =>
    simp only [hp] at h
    generalize utils.Download env (gonvm.getURL env.platform v) dst w = res at h
    obtain ⟨r, w1⟩ := res
    cases r with
    | error e1 => exact ⟨e1, by simp only at h; injection h with h; exact h.symm⟩
    | ok u => simp at h

theorem Unarchive_error_shape (env : Env) (v : String) (w : World) (e : String)
    (h : (gonvm.Unarchive env v w).1 = Except.error e) :
    ∃ e0, e = "Failed to unarchive node version " ++ v ++ " with error: " ++ e0 := by
  unfold gonvm.Unarchive at h
  cases hp : gonvm.getNodeSourcePath env v with
  | error e1 =>
    simp only [hp] at h
    exact ⟨e1, by injection h with h; exact h.symm⟩
  | ok src =>
    simp only [hp] at h
    cases hq : gonvm.getGoNVMVersionsPath env with
    | error e1 =>
      simp only [hq] at h
      exact ⟨e1, by injection h with h; exact h.symm⟩
    | ok dst =>
      simp only [hq] at h
      generalize utils.Unarchive env src dst w = res at h
      obtain ⟨r, w1⟩ := res
      cases r with
      | error e1 => exact ⟨e1, by simp only at h; injection h with h; exact h.symm⟩
      | ok u => simp at h

theorem Link_error_shape (env : Env) (v : String) (w : World) (e : String)
    (h : (gonvm.Link env v w).1 = Except.error e) :
    ∃ e0, e = "Failed to link node version " ++ v ++ " with error: " ++ e0 := by
  unfold gonvm.Link at h
  cases hp : gonvm.getGoNVMBinPath env with
  | error e1 =>
    simp only [hp] at h
    exact ⟨e1, by injection h with h; exact h.symm⟩
  | ok bin =>
    simp only [hp] at h
    generalize os.RemoveAll env bin w = res at h
    obtain ⟨r, w1⟩ := res
    cases r with
    | error e1 => exact ⟨e1, by simp only at h; injection h with h; exact h.symm⟩
    | ok u =>
      simp only at h
      cases hq : gonvm.getNodeVersionBinPath env v with
      | error e1 =>
        simp only [hq] at h
        exact ⟨e1, by injection h with h; exact h.symm⟩
      | ok target =>
        simp only [hq] at h
        generalize os.Symlink env target bin w1 = res2 at h
        obtain ⟨r2, w2⟩ := res2
        cases r2 with
        | error e1 => exact ⟨e1, by simp only at h; injection h with h; exact h.symm⟩
        | ok u => simp at h

theorem getDirName_cancel (p : Platform) (v1 v2 : String)
    (h : gonvm.getDirName p v1 = gonvm.getDirName p v2) : v1 = v2 := by
  unfold gonvm.getDirName at h
  have h2 := congrArg String.data h
  simp only [String.data_append, List.append_assoc] at h2
  have h3 := List.append_cancel_left h2
  exact String.ext ((List.append_left_inj _).mp h3)

/-- `Clean` leaves a single plain element as it is. -/
theorem Clean_plain (x : String) (h : filepath.Plain x.data) : filepath.Clean x = x := by
  have hne := h.1
  have hs := h.2.1
  have hb : (x.data.head? == some '/') = false := by
    cases hx : x.data with
    | nil => rfl
    | cons c cs =>
      have : c ≠ '/' := by
        intro hc
        apply hs
        rw [hx, hc]
        exact List.mem_cons_self _ _
      simp [this]
  have hfold : (filepath.components [] x.data).foldl (filepath.cleanStep false) [] = [x.data] := by
    rw [components_plain x.data [] hs]
    simp only [List.nil_append, List.foldl_cons, List.foldl_nil]
    exact cleanStep_plain x.data h false []
  rw [Clean_eq x false [x.data] hb hfold (by simpa [filepath.joinComps] using hne)]
  simp [filepath.joinComps]

/-- For a version whose installation name holds no separator, the cache path
and the installation path lie outside the pointer path. -/
theorem paths_outside_pointer (env : Env) (v : String)
    (hname : '/' ∉ (gonvm.getDirName env.platform v).data) :
    ∀ bin p, gonvm.getGoNVMBinPath env = .ok bin →
      (gonvm.getNodeSourcePath env v = .ok p ∨ gonvm.getNodeVersionPath env v = .ok p) →
      FS.isAtOrBelow bin p = false := by
  intro bin p hbin hp
  cases hh : env.home with
  | error e =>
    have h1 : gonvm.getGoNVMPath env = .error e := by simp [gonvm.getGoNVMPath, hh]
    have h2 : gonvm.getGoNVMVersionsPath env = .error e := by
      simp [gonvm.getGoNVMVersionsPath, h1]
    have h3 : gonvm.getNodeVersionPath env v = .error e := by
      simp [gonvm.getNodeVersionPath, h2]
    have h4 : gonvm.getGoNVMSourcesPath env = .ok "" := by simp [gonvm.getGoNVMSourcesPath, h1]
    have h5 : gonvm.getGoNVMBinPath env = .ok "" := by simp [gonvm.getGoNVMBinPath, h1]
    have hpl := getFileName_plain env.platform v hname
    have hne : gonvm.getFileName env.platform v ≠ "" := by
      intro h0
      apply hpl.1
      rw [h0]
    have h6 : gonvm.getNodeSourcePath env v = .ok (gonvm.getFileName env.platform v) := by
      simp only [gonvm.getNodeSourcePath, h4]
      unfold filepath.Join
      simp only [ne_eq, not_true_eq_false, if_false, hne, not_false_eq_true, if_true]
      rw [Clean_plain _ hpl]
    rw [h5] at hbin
    injection hbin with hbin
    subst hbin
    rcases hp with hp | hp
    · rw [h6] at hp
      injection hp with hp
      subst hp
      unfold FS.isAtOrBelow
      have hpre : ("" ++ "/").data.isPrefixOf (gonvm.getFileName env.platform v).data = false := by
        cases hx : ("" ++ "/").data.isPrefixOf (gonvm.getFileName env.platform v).data with
        | false => rfl
        | true =>
          obtain ⟨t, ht⟩ := List.isPrefixOf_iff_prefix.mp hx
          exact absurd (by rw [← ht]; simp [String.data_append]) hpl.2.1
      rw [hpre]
      simp [hne]
    · rw [h3] at hp
      cases hp
  | ok home =>
    have hroot := getGoNVMPath_of_home env home hh
    obtain ⟨hb, _⟩ := paths_of_root env _ v hroot
    obtain ⟨hsrc, hinst, _⟩ := paths_of_name env _ v hroot hname
    rw [hb] at hbin
    injection hbin with hbin
    subst hbin
    apply outside_of_apart
    rcases hp with hp | hp
    · rw [hsrc] at hp
      injection hp with hp
      subst hp
      simp [String.data_append, List.append_assoc, List.prefix_append_right_inj]
    · rw [hinst] at hp
      injection hp with hp
      subst hp
      simp [String.data_append, List.append_assoc, List.prefix_append_right_inj]

/-! ## Auxiliary facts: paths without links, and the pointer path -/

theorem noLinkOnPath_iff (fs : FS) (p : String) :
    FS.noLinkOnPath fs p = true ↔ ∀ q ∈ FS.parents p ++ [p], Node.isLink (fs.find q) = false := by
  unfold FS.noLinkOnPath
  rw [List.all_eq_true]
  constructor
  · intro h q hq
    simpa using h q hq
  · intro h q hq
    simpa using h q hq

theorem noLinkOnPath_adds (fs fs2 : FS) (h : FS.Adds fs fs2) (p : String)
    (hp : FS.noLinkOnPath fs p = true) : FS.noLinkOnPath fs2 p = true := by
  rw [noLinkOnPath_iff] at hp ⊢
  intro q hq
  rw [adds_isLink fs fs2 h]
  exact hp q hq

theorem noLinkOnPath_anc (fs : FS) (a p : String) (ha : a ∈ FS.parents p)
    (hp : FS.noLinkOnPath fs p = true) : FS.noLinkOnPath fs a = true := by
  rw [noLinkOnPath_iff] at hp ⊢
  intro q hq
  apply hp q
  rcases List.mem_append.mp hq with h | h
  · exact List.mem_append_left _ (mem_parents_trans q a p h ha)
  · simp only [List.mem_singleton] at h
    rw [h]
    exact List.mem_append_left _ ha

/-- The ancestors of a path that is not at or below `d` are not at or below
`d` either. -/
theorem outside_anc (d p a : String) (h : FS.isAtOrBelow d p = false)
    (ha : a ∈ FS.parents p ++ [p]) : FS.isAtOrBelow d a = false := by
  rcases List.mem_append.mp ha with h1 | h1
  · cases hb : FS.isAtOrBelow d a with
    | false => rfl
    | true =>
      have h2 : FS.isAtOrBelow a p = true :=
        isAtOrBelow_of_mem_chain p a (List.mem_cons_of_mem _ (List.mem_reverse.mpr h1))
      rw [isAtOrBelow_trans d a p hb h2] at h
      cases h
  · simp only [List.mem_singleton] at h1
    rw [h1]
    exact h

/-- Replacing what stands at `d` by a link changes nothing for a path without
links that is not at or below `d`. -/
theorem exist_relinked (env : Env) (fs : FS) (d p : String) (n : Node)
    (hl : FS.noLinkOnPath fs p = true) (ho : FS.isAtOrBelow d p = false) :
    gonvm.exist env ((d, n) :: FS.remove fs d) p = gonvm.exist env fs p :=
  exist_congr_of_noLink env fs _ p hl
    (fun a ha => find_relinked_of fs d a n (outside_anc d p a ho ha))

/-- The pointer path leads to itself when no link stands at the root of the
managed tree or at one of its ancestors. -/
theorem real_bin (fs : FS) (root : String) (hr : root ≠ "")
    (h : FS.noLinkOnPath fs root = true) (n : Nat) :
    fs.real n false (root ++ "/bin") = some (root ++ "/bin") := by
  apply real_id
  intro q hq
  have hq2 : q ∈ FS.parents (root ++ "/bin") := by simpa [FS.linkSites] using hq
  rw [mem_parents_managed root q "/bin" "bin" hr rfl (by decide)] at hq2
  rw [noLinkOnPath_iff] at h
  apply h q
  rcases hq2 with h1 | h1
  · rw [h1]; simp
  · exact List.mem_append_left _ h1

/-- What stands at the ancestors of the pointer path is not touched by
replacing what stands at the pointer path. -/
theorem find_anc_bin (fs : FS) (bin a : String) (n : Node) (ha : a ∈ FS.parents bin) :
    FS.find ((bin, n) :: FS.remove fs bin) a = FS.find fs a
    ∧ FS.find (FS.remove fs bin) a = FS.find fs a := by
  have ho := not_isAtOrBelow_of_mem_parents a bin ha
  exact ⟨find_relinked_of fs bin a n ho, by rw [find_remove, ho]; simp⟩

/-! ## Auxiliary facts: a successful `Use` -/

/-- The steps of a successful `Use` before `Link`: the filesystem has only
grown, the three directories and the cache path exist, the installation path
exists when the archive unpacks to it, and `Use` ends with `Link`. -/
theorem Use_ok_steps (env : Env) (v : String) (w : World) (root src inst : String)
    (hroot : gonvm.getGoNVMPath env = .ok root)
    (hsrc : gonvm.getNodeSourcePath env v = .ok src)
    (hinst : gonvm.getNodeVersionPath env v = .ok inst)
    (hok : (gonvm.Use env v w).1 = Except.ok ()) :
    ∃ w3, FS.Adds w.fs w3.fs
      ∧ gonvm.exist env w3.fs root = true
      ∧ gonvm.exist env w3.fs (root ++ "/sources") = true
      ∧ gonvm.exist env w3.fs (root ++ "/versions") = true
      ∧ gonvm.exist env w3.fs src = true
      ∧ (filepath.Join (root ++ "/versions") (env.archiveTop src) = inst →
          gonvm.exist env w3.fs inst = true)
      ∧ gonvm.Use env v w = gonvm.Link env v w3
      ∧ (gonvm.Link env v w3).1 = Except.ok () := by
  obtain ⟨_, _, hve, _⟩ := paths_of_root env root v hroot
  have hU := Use_eq env v w src inst hsrc hinst
  have i1 := Init_ok_exist env w root hroot
  have ia := Init_adds env w
  generalize gonvm.Init env w = rI at hU i1 ia
  obtain ⟨r1, w1⟩ := rI
  cases r1 with
  | error e => rw [hU] at hok; simp at hok
  | ok u1 =>
    simp only at hU i1 ia
    obtain ⟨x1, x2, x3⟩ := i1 trivial
    have d1 := download_step_spec env v w1 src hsrc
    generalize (if !gonvm.exist env w1.fs src
      then gonvm.Download env v w1 else (Except.ok (), w1)) = rD at hU d1
    obtain ⟨r2, w2⟩ := rD
    cases r2 with
    | error e => rw [hU] at hok; simp at hok
    | ok u2 =>
      simp only at hU d1
      obtain ⟨a2, x4⟩ := d1
      have s1 := unarchive_step_spec env v w2 src (root ++ "/versions") inst hsrc hve
      generalize (if !gonvm.exist env w2.fs inst
        then gonvm.Unarchive env v w2 else (Except.ok (), w2)) = rA at hU s1
      obtain ⟨r3, w3⟩ := rA
      cases r3 with
      | error e => rw [hU] at hok; simp at hok
      | ok u3 =>
        simp only at hU s1
        obtain ⟨a3, x5⟩ := s1
        have a23 := adds_trans _ _ _ a2 a3
        refine ⟨w3, adds_trans _ _ _ ia a23, exist_adds env _ _ a23 _ x1,
          exist_adds env _ _ a23 _ x2, exist_adds env _ _ a23 _ x3,
          exist_adds env _ _ a3 _ (x4 trivial), x5 trivial, hU, ?_⟩
        rw [← hU]
        exact hok

/-! ## The activation pipeline: idempotence -/

/-- C3, as amended (idempotence of the activation pipeline).  In an
environment whose archive for `v` unpacks to the installation directory of
`v`, from a starting state in which no symbolic link stands at the sources
directory, the versions directory, the cache path or the installation path of
`v`, or at an ancestor of one of them, and for a version whose cache path and
installation path do not lie at or below the pointer path: if `Use v`
succeeds, then `Use v` run again on the resulting state succeeds, makes only
the two library calls of `Link` (`os.RemoveAll` and `os.Symlink` on the pointer
path: no directory creation, no `http.Get`, no `os.Create`, no extraction), and
leaves the filesystem exactly as the first run left it. -/
theorem Use_idempotent (env : Env) (v : String) (w : World)
    (hArch : ∀ src, gonvm.getNodeSourcePath env v = .ok src →
      env.archiveTop src = gonvm.getDirName env.platform v)
    (hLinks : ∀ p, (gonvm.getGoNVMSourcesPath env = .ok p ∨ gonvm.getGoNVMVersionsPath env = .ok p
        ∨ gonvm.getNodeSourcePath env v = .ok p ∨ gonvm.getNodeVersionPath env v = .ok p) →
      FS.noLinkOnPath w.fs p = true)
    (hOutside : ∀ bin p, gonvm.getGoNVMBinPath env = .ok bin →
      (gonvm.getNodeSourcePath env v = .ok p ∨ gonvm.getNodeVersionPath env v = .ok p) →
      FS.isAtOrBelow bin p = false)
    (hok : (gonvm.Use env v w).1 = Except.ok ()) :
    ∃ bin target, gonvm.getGoNVMBinPath env = .ok bin
      ∧ gonvm.getNodeVersionBinPath env v = .ok target
      ∧ gonvm.Use env v (gonvm.Use env v w).2
          = (Except.ok (),
              { fs := (gonvm.Use env v w).2.fs,
                trace := (gonvm.Use env v w).2.trace
                  ++ [Event.removeAll bin, Event.symlink target bin] }) := by
  cases hh : env.home with
  | error e => rw [Use_home_error env v w e hh] at hok; simp at hok
  | ok home =>
    have hroot := getGoNVMPath_of_home env home hh
    generalize filepath.Join home ".gonvm" = root at hroot
    have hrne : root ≠ "" := cleanDir_ne_empty root (getGoNVMPath_cleanDir env root hroot)
    obtain ⟨hb, hso, hve, hsrc, hinst, hvb⟩ := paths_of_root env root v hroot
    generalize filepath.Join (root ++ "/sources") (gonvm.getFileName env.platform v) = src
      at hsrc
    have hK : filepath.Join (root ++ "/versions") (env.archiveTop src)
        = filepath.Join (root ++ "/versions") (gonvm.getDirName env.platform v) := by
      rw [hArch src hsrc]
    generalize filepath.Join (root ++ "/versions") (gonvm.getDirName env.platform v) = inst
      at hinst hvb hK
    generalize filepath.Join inst "bin" = target at hvb
    refine ⟨_, _, hb, hvb, ?_⟩
    -- the first run, up to `Link`
    obtain ⟨w3, a3, x1, x2, x3, x4, x5, hU, hL⟩ :=
      Use_ok_steps env v w root src inst hroot hsrc hinst hok
    have x5 := x5 hK
    -- the paths that the existence checks read hold no link
    have n0s := hLinks _ (Or.inl hso)
    have n0r : FS.noLinkOnPath w.fs root = true :=
      noLinkOnPath_anc w.fs root _
        ((mem_parents_managed root root "/sources" "sources" hrne rfl (by decide)).mpr
          (Or.inl rfl)) n0s
    have n3 : ∀ p, FS.noLinkOnPath w.fs p = true → FS.noLinkOnPath w3.fs p = true :=
      fun p hp => noLinkOnPath_adds w.fs w3.fs a3 p hp
    have n3r := n3 _ n0r
    have n3s := n3 _ n0s
    have n3v := n3 _ (hLinks _ (Or.inr (Or.inl hve)))
    have n3c := n3 _ (hLinks _ (Or.inr (Or.inr (Or.inl hsrc))))
    have n3i := n3 _ (hLinks _ (Or.inr (Or.inr (Or.inr hinst))))
    -- none of them lies at or below the pointer path
    obtain ⟨b1, b2, b3⟩ := bin_apart root
    have o1 := outside_of_apart _ _ b1
    have o2 := outside_of_apart _ _ b2
    have o3 := outside_of_apart _ _ b3
    have o4 := hOutside _ src hb (Or.inl hsrc)
    have o5 := hOutside _ inst hb (Or.inr hinst)
    -- what `Link` did in the first run
    obtain ⟨bin2, target2, P, P2, hb2, hbne, hvb2, hre, hse, hp, hw, hp2, hw2, hf2, hLe⟩ :=
      Link_ok_shape env v w3 hL
    rw [hb] at hb2
    injection hb2 with hb2
    subst hb2
    rw [hvb] at hvb2
    injection hvb2 with hvb2
    subst hvb2
    have hP : P = root ++ "/bin" := by
      rw [real_bin w3.fs root hrne n3r 40] at hp
      injection hp with hp
      exact hp.symm
    subst hP
    have nrem : FS.noLinkOnPath (FS.remove w3.fs (root ++ "/bin")) root = true := by
      rw [noLinkOnPath_iff] at n3r ⊢
      intro q hq
      have : FS.find (FS.remove w3.fs (root ++ "/bin")) q = FS.find w3.fs q := by
        rw [find_remove, outside_anc _ root q o1 hq]
        simp
      rw [this]
      exact n3r q hq
    have hP2 : P2 = root ++ "/bin" := by
      rw [real_bin _ root hrne nrem 40] at hp2
      injection hp2 with hp2
      exact hp2.symm
    subst hP2
    rw [hU, hLe]
    simp only
    -- the second run
    have keep : ∀ q, FS.noLinkOnPath w3.fs q = true → FS.isAtOrBelow (root ++ "/bin") q = false →
        gonvm.exist env w3.fs q = true →
        gonvm.exist env ((root ++ "/bin", Node.symlink target)
          :: FS.remove w3.fs (root ++ "/bin")) q = true := by
      intro q hl ho he
      rw [exist_relinked env w3.fs _ q _ hl ho]
      exact he
    have n4r : FS.noLinkOnPath ((root ++ "/bin", Node.symlink target)
        :: FS.remove w3.fs (root ++ "/bin")) root = true := by
      rw [noLinkOnPath_iff] at n3r ⊢
      intro q hq
      rw [find_relinked_of w3.fs _ q _ (outside_anc _ root q o1 hq)]
      exact n3r q hq
    have hw4 : FS.fileOnWay ((root ++ "/bin", Node.symlink target)
        :: FS.remove w3.fs (root ++ "/bin")) (root ++ "/bin") = false := by
      rw [fileOnWay_congr w3.fs _ (root ++ "/bin")
        (fun a ha => (find_anc_bin w3.fs _ a _ ha).1)]
      exact hw
    rw [Use_eq env v _ src inst hsrc hinst,
      Init_noop env _ root hroot (keep _ n3r o1 x1) (keep _ n3s o2 x2) (keep _ n3v o3 x3)]
    simp only [keep _ n3c o4 x4, keep _ n3i o5 x5, Bool.not_true, Bool.false_eq_true, if_false]
    rw [Link_of env v _ (root ++ "/bin") target (root ++ "/bin") (root ++ "/bin") hb hbne hvb
      hre hse (real_bin _ root hrne n4r 40) hw4
      (by simp only [remove_cons_remove]; exact hp2)
      (by simp only [remove_cons_remove]; exact hw2)
      (by simp only [remove_cons_remove]; exact hf2)]
    simp only [remove_cons_remove]

/-- After a successful `Use`, the filesystem is what `Link` built: the link to
the `bin` path of the version, made where the pointer path led, in front of a
filesystem that had only grown and was then cleared of what stood where the
pointer path led. -/
theorem Use_ok_shape (env : Env) (v : String) (w : World)
    (hok : (gonvm.Use env v w).1 = Except.ok ()) :
    ∃ (home root target : String) (w3 : World) (P P2 : String), env.home = .ok home ∧ root = filepath.Join home ".gonvm"
      ∧ gonvm.getGoNVMPath env = .ok root
      ∧ gonvm.getNodeVersionBinPath env v = .ok target
      ∧ FS.Adds w.fs w3.fs
      ∧ w3.fs.real 40 false (root ++ "/bin") = some P
      ∧ (w3.fs.remove P).real 40 false (root ++ "/bin") = some P2
      ∧ (w3.fs.remove P).find P2 = none
      ∧ (gonvm.Use env v w).2.fs = (P2, Node.symlink target) :: w3.fs.remove P := by
  cases hh : env.home with
  | error e => rw [Use_home_error env v w e hh] at hok; simp at hok
  | ok home =>
    have hroot := getGoNVMPath_of_home env home hh
    obtain ⟨root, hrd⟩ : ∃ root, root = filepath.Join home ".gonvm" := ⟨_, rfl⟩
    rw [← hrd] at hroot
    obtain ⟨hb, _, _, hsrc, hinst, hvb⟩ := paths_of_root env root v hroot
    obtain ⟨w3, a3, _, _, _, _, _, hU, hL⟩ :=
      Use_ok_steps env v w root _ _ hroot hsrc hinst hok
    obtain ⟨bin2, target2, P, P2, hb2, _, hvb2, _, _, hp, _, hp2, _, hf2, hLe⟩ :=
      Link_ok_shape env v w3 hL
    rw [hb] at hb2
    injection hb2 with hb2
    subst hb2
    refine ⟨home, root, target2, w3, P, P2, rfl, hrd, hroot, hvb2, a3, hp, hp2, hf2, ?_⟩
    rw [hU, hLe]

/-- A successful `Use` from a state in which no link stands at the root of the
managed tree or at one of its ancestors: the link is made at the pointer path
itself, nothing is left below it, and there is still no link at the root or
above. -/
theorem Use_ok_plain (env : Env) (v : String) (w : World) (root : String)
    (hroot : gonvm.getGoNVMPath env = .ok root)
    (hn : FS.noLinkOnPath w.fs root = true)
    (hok : (gonvm.Use env v w).1 = Except.ok ()) :
    ∃ target fs3, gonvm.getNodeVersionBinPath env v = .ok target
      ∧ (gonvm.Use env v w).2.fs
          = (root ++ "/bin", Node.symlink target) :: FS.remove fs3 (root ++ "/bin")
      ∧ FS.noLinkOnPath (gonvm.Use env v w).2.fs root = true := by
  obtain ⟨home, root2, target, w3, P, P2, hh, hrd, hroot2, hvb, a3, hp, hp2, hf2, hfs⟩ :=
    Use_ok_shape env v w hok
  rw [hroot] at hroot2
  injection hroot2 with hroot2
  subst hroot2
  have hrne : root ≠ "" := cleanDir_ne_empty root (getGoNVMPath_cleanDir env root hroot)
  have n3r := noLinkOnPath_adds w.fs w3.fs a3 root hn
  obtain ⟨b1, _, _⟩ := bin_apart root
  have o1 := outside_of_apart _ _ b1
  have hP : P = root ++ "/bin" := by
    rw [real_bin w3.fs root hrne n3r 40] at hp
    injection hp with hp
    exact hp.symm
  subst hP
  have nrem : FS.noLinkOnPath (FS.remove w3.fs (root ++ "/bin")) root = true := by
    rw [noLinkOnPath_iff] at n3r ⊢
    intro q hq
    have : FS.find (FS.remove w3.fs (root ++ "/bin")) q = FS.find w3.fs q := by
      rw [find_remove, outside_anc _ root q o1 hq]
      simp
    rw [this]
    exact n3r q hq
  have hP2 : P2 = root ++ "/bin" := by
    rw [real_bin _ root hrne nrem 40] at hp2
    injection hp2 with hp2
    exact hp2.symm
  subst hP2
  refine ⟨target, w3.fs, hvb, hfs, ?_⟩
  rw [hfs]
  rw [noLinkOnPath_iff] at n3r ⊢
  intro q hq
  rw [find_relinked_of w3.fs _ q _ (outside_anc _ root q o1 hq)]
  exact n3r q hq

theorem filter_eq_nil_of_find (fs : FS) (p : String) (h : fs.find p = none) :
    fs.filter (fun e => decide (e.1 = p)) = [] := by
  induction fs with
  | nil => rfl
  | cons e rest ih =>
    obtain ⟨q, n⟩ := e
    by_cases hq : q = p
    · simp [FS.find, hq] at h
    · simp only [FS.find, hq, if_false] at h
      simp [List.filter, hq, ih h]

/-! ## The activation pipeline: pointer switch -/

/-- C5, as amended (pointer switch).  After a successful `Use A` followed by a
successful `Use B`, whatever the pointer path held before: where the pointer
path `<root>/bin` leads there stands a symbolic link to the `bin` path of `B`,
and it is the only entry there.  When no symbolic link stands at the root of
the managed tree or at one of its ancestors, the link stands at the pointer
path itself and nothing is left below it.  When the installation name of `B`
holds no separator, the target of the link is
`<root>/versions/getDirName(B)/bin`; when the installation name of `A` holds
none either and `A ≠ B`, it is not the `bin` path of `A`. -/
theorem Use_switches_pointer (env : Env) (A B : String) (w : World)
    (hA : (gonvm.Use env A w).1 = Except.ok ())
    (hB : (gonvm.Use env B (gonvm.Use env A w).2).1 = Except.ok ()) :
    ∃ home root target P, env.home = .ok home ∧ root = filepath.Join home ".gonvm"
      ∧ gonvm.getGoNVMBinPath env = .ok (root ++ "/bin")
      ∧ gonvm.getNodeVersionBinPath env B = .ok target
      ∧ (∃ rest, (gonvm.Use env B (gonvm.Use env A w).2).2.fs = (P, Node.symlink target) :: rest
          ∧ FS.real rest 40 false (root ++ "/bin") = some P)
      ∧ FS.find (gonvm.Use env B (gonvm.Use env A w).2).2.fs P = some (Node.symlink target)
      ∧ (gonvm.Use env B (gonvm.Use env A w).2).2.fs.filter (fun e => decide (e.1 = P))
          = [(P, Node.symlink target)]
      ∧ (FS.noLinkOnPath w.fs root = true →
          P = root ++ "/bin"
          ∧ ∀ q, FS.isAtOrBelow (root ++ "/bin") q = true → q ≠ root ++ "/bin" →
              FS.find (gonvm.Use env B (gonvm.Use env A w).2).2.fs q = none)
      ∧ ('/' ∉ (gonvm.getDirName env.platform B).data →
          target = root ++ "/versions/" ++ gonvm.getDirName env.platform B ++ "/bin")
      ∧ ('/' ∉ (gonvm.getDirName env.platform A).data →
          '/' ∉ (gonvm.getDirName env.platform B).data → A ≠ B →
          gonvm.getNodeVersionBinPath env A ≠ gonvm.getNodeVersionBinPath env B) := by
  obtain ⟨home, root, target, w3, P0, P, hh, hrd, hroot, hvb, _, _, hp2, hf2, hfs⟩ :=
    Use_ok_shape env B _ hB
  obtain ⟨hb, _⟩ := paths_of_root env root B hroot
  refine ⟨home, root, target, P, hh, hrd, hb, hvb, ⟨_, hfs, hp2⟩, ?_, ?_, ?_, ?_, ?_⟩
  · rw [hfs]
    simp [FS.find]
  · rw [hfs]
    simp [List.filter, filter_eq_nil_of_find _ P hf2]
  · intro hn
    obtain ⟨_, _, _, _, hnA⟩ := Use_ok_plain env A w root hroot hn hA
    obtain ⟨target2, fs3, hvb2, hfs2, _⟩ := Use_ok_plain env B _ root hroot hnA hB
    rw [hfs] at hfs2
    injection hfs2 with h1 h2
    injection h1 with h1 _
    refine ⟨h1, ?_⟩
    intro q hq hne
    rw [hfs, h2]
    simp [FS.find, h1, Ne.symm hne, find_remove, hq]
  · intro hn
    obtain ⟨_, _, hvb2⟩ := paths_of_name env root B hroot hn
    rw [hvb] at hvb2
    injection hvb2
  · intro hnA hnB hAB heq
    obtain ⟨_, _, hva⟩ := paths_of_name env root A hroot hnA
    obtain ⟨_, _, hvb2⟩ := paths_of_name env root B hroot hnB
    rw [hva, hvb2] at heq
    injection heq with heq
    have h2 := congrArg String.data heq
    simp only [String.data_append, List.append_assoc, List.append_cancel_left_eq] at h2
    have h3 := (List.append_left_inj _).mp h2
    exact hAB (getDirName_cancel env.platform A B (String.ext h3))

/-! ## The activation pipeline: a version the server does not have -/

/-- The installation path of a version whose installation name holds no
separator lies below the versions directory. -/
theorem inst_below_versions (env : Env) (root v : String)
    (h : gonvm.getGoNVMPath env = .ok root)
    (hname : '/' ∉ (gonvm.getDirName env.platform v).data) :
    ∀ inst d, gonvm.getNodeVersionPath env v = .ok inst →
      gonvm.getGoNVMVersionsPath env = .ok d → d ∈ FS.parents inst := by
  intro inst d hi hd
  obtain ⟨_, _, hv, _⟩ := paths_of_root env root v h
  obtain ⟨_, hinst, _⟩ := paths_of_name env root v h hname
  rw [hinst] at hi
  injection hi with hi
  subst hi
  rw [hv] at hd
  injection hd with hd
  subst hd
  rw [mem_parents_iff]
  constructor
  · simp [String.data_append]
  · exact ⟨(gonvm.getDirName env.platform v).data, by simp [String.data_append]⟩

/-- `Init` changes nothing at or below a path that lies below the root of the
managed tree and is not at or above the sources or the versions directory. -/
theorem Init_keeps (env : Env) (w : World) (root X q : String)
    (hroot : gonvm.getGoNVMPath env = .ok root)
    (hX1 : root ∈ FS.parents X)
    (hX2 : FS.isAtOrBelow X (root ++ "/sources") = false)
    (hX3 : FS.isAtOrBelow X (root ++ "/versions") = false)
    (hq : FS.isAtOrBelow X q = true) :
    FS.find (gonvm.Init env w).2.fs q = FS.find w.fs q := by
  have hrne : root ≠ "" := cleanDir_ne_empty root (getGoNVMPath_cleanDir env root hroot)
  rcases (Init_made env w root hroot).2 q with e | ⟨_, _, c, hc, hr⟩
  · exact e
  · exfalso
    -- no link stands on the way to `q`, hence none at the root or above
    have hphys := real_phys w.fs 40 false c q hr
    have hq1 : ∀ a, a ∈ FS.parents X → Node.isLink (w.fs.find a) = false := by
      intro a ha
      apply hphys a
      simpa [FS.linkSites] using mem_parents_of_isAtOrBelow a X q ha hq
    have hR : ∀ a, (a = root ∨ a ∈ FS.parents root) → Node.isLink (w.fs.find a) = false := by
      rintro a (ha | ha)
      · rw [ha]; exact hq1 root hX1
      · exact hq1 a (mem_parents_trans a root X ha hX1)
    -- so the path that was made leads to itself
    have hcs : ∀ a ∈ FS.linkSites false c, Node.isLink (w.fs.find a) = false := by
      intro a ha
      have ha2 : a ∈ FS.parents c := by simpa [FS.linkSites] using ha
      apply hR
      rcases hc with hc | hc | hc | hc
      · rw [hc] at ha2
        exact (mem_parents_managed root a "/sources" "sources" hrne rfl (by decide)).mp ha2
      · rw [hc] at ha2
        exact (mem_parents_managed root a "/versions" "versions" hrne rfl (by decide)).mp ha2
      · rw [hc] at ha2
        exact Or.inr ha2
      · exact Or.inr (mem_parents_trans a c root ha2 hc)
    rw [real_id w.fs 40 false c hcs] at hr
    injection hr with hr
    subst hr
    rcases hc with hc | hc | hc | hc
    · rw [hc, hX2] at hq; cases hq
    · rw [hc, hX3] at hq; cases hq
    · rw [hc, not_isAtOrBelow_of_mem_parents root X hX1] at hq; cases hq
    · rw [not_isAtOrBelow_of_mem_parents c X (mem_parents_trans c root X hc hX1)] at hq
      cases hq

/-- C4, as amended (not-found propagation).  When `Init` succeeds, the archive
cache entry of `v` is missing, and the server answers the download request
with a status other than 200: `Use v` returns the download error naming `v`;
it ends in the state `Init` left, with the `http.Get` call as the only
further library call (no `os.Create`, no extraction, no `os.RemoveAll`, no
`os.Symlink`); the pointer path and everything below it hold what they held
before the call; so do the installation path of `v` and everything below it,
when that path lies below the versions directory; and the cache entry is still
missing: the cache path holds nothing, when no symbolic link stood at it or at
one of its ancestors. -/
theorem Use_not_found (env : Env) (v : String) (w : World) (code : Nat) (body : String)
    (hInit : (gonvm.Init env w).1 = Except.ok ())
    (hCache : ∀ src, gonvm.getNodeSourcePath env v = .ok src →
      gonvm.exist env (gonvm.Init env w).2.fs src = false)
    (hHttp : env.httpGet (gonvm.getURL env.platform v) = HttpResult.response code body)
    (hCode : code ≠ 200) :
    gonvm.Use env v w
        = (Except.error
            ("Failed to download node version " ++ v ++ " with error: Node version not found"),
           (gonvm.Init env w).2.log (Event.httpGet (gonvm.getURL env.platform v)))
    ∧ (∀ bin q, gonvm.getGoNVMBinPath env = .ok bin → FS.isAtOrBelow bin q = true →
        FS.find (gonvm.Use env v w).2.fs q = FS.find w.fs q)
    ∧ (∀ inst q, gonvm.getNodeVersionPath env v = .ok inst →
        (∀ d, gonvm.getGoNVMVersionsPath env = .ok d → d ∈ FS.parents inst) →
        FS.isAtOrBelow inst q = true →
        FS.find (gonvm.Use env v w).2.fs q = FS.find w.fs q)
    ∧ (∀ src, gonvm.getNodeSourcePath env v = .ok src →
        gonvm.exist env (gonvm.Use env v w).2.fs src = false
        ∧ (FS.noLinkOnPath w.fs src = true →
            FS.find (gonvm.Use env v w).2.fs src = none)) := by
  cases hh : env.home with
  | error e => rw [Init_home_error env w e hh] at hInit; simp at hInit
  | ok home =>
    have hroot := getGoNVMPath_of_home env home hh
    obtain ⟨root, hrd⟩ : ∃ root, root = filepath.Join home ".gonvm" := ⟨_, rfl⟩
    rw [← hrd] at hroot
    have hrne : root ≠ "" := cleanDir_ne_empty root (getGoNVMPath_cleanDir env root hroot)
    obtain ⟨hb, hs, hv, hsrc, hinst, _⟩ := paths_of_root env root v hroot
    have hc := hCache _ hsrc
    have hU : gonvm.Use env v w
        = (Except.error
            ("Failed to download node version " ++ v ++ " with error: Node version not found"),
           (gonvm.Init env w).2.log (Event.httpGet (gonvm.getURL env.platform v))) := by
      rw [Use_eq env v w _ _ hsrc hinst]
      generalize gonvm.Init env w = rI at hInit hc
      obtain ⟨r1, w1⟩ := rI
      cases r1 with
      | error e => simp at hInit
      | ok u =>
        simp only at hc
        simp only [hc, Bool.not_false, if_true]
        rw [Download_eq env v w1 _ hsrc,
          utils_Download_not_found env _ _ w1 code body hHttp hCode]
        simp [String.append_assoc]
    have hfs : (gonvm.Use env v w).2.fs = (gonvm.Init env w).2.fs := by
      rw [hU]
      rfl
    obtain ⟨_, hbs, hbv⟩ := bin_apart root
    refine ⟨hU, ?_, ?_, ?_⟩
    · intro bin q hbin hq
      rw [hb] at hbin
      injection hbin with hbin
      subst hbin
      rw [hfs]
      exact Init_keeps env w root _ q hroot
        ((mem_parents_managed root root "/bin" "bin" hrne rfl (by decide)).mpr (Or.inl rfl))
        (outside_of_apart _ _ hbs) (outside_of_apart _ _ hbv) hq
    · intro inst q hi hbelow hq
      have hvi := hbelow _ hv
      have hrv : root ∈ FS.parents (root ++ "/versions") :=
        (mem_parents_managed root root "/versions" "versions" hrne rfl (by decide)).mpr
          (Or.inl rfl)
      rw [hfs]
      refine Init_keeps env w root inst q hroot (mem_parents_trans _ _ _ hrv hvi) ?_
        (not_isAtOrBelow_of_mem_parents _ _ hvi) hq
      -- the sources directory is not at or below a path below the versions directory
      cases hx : FS.isAtOrBelow inst (root ++ "/sources") with
      | false => rfl
      | true =>
        exfalso
        have hp1 : ((root ++ "/versions").data ++ ['/']) <+: inst.data :=
          ((mem_parents_iff inst _).mp hvi).2
        have hp2 : inst.data <+: (root ++ "/sources").data := prefix_of_isAtOrBelow _ _ hx
        have hp3 := hp1.trans hp2
        simp [String.data_append, List.append_assoc, List.prefix_append_right_inj] at hp3
    · intro src hs2
      rw [hsrc] at hs2
      injection hs2 with hs2
      subst hs2
      rw [hfs]
      refine ⟨hc, ?_⟩
      intro hl
      have hl2 := noLinkOnPath_adds w.fs _ (Init_adds env w) _ hl
      obtain ⟨_, P, hr, _, hf⟩ := (exist_false_iff env _ _).mp hc
      rw [real_id _ 40 true _ (by
        intro a ha
        exact (noLinkOnPath_iff _ _).mp hl2 a (by simpa [FS.linkSites] using ha))] at hr
      injection hr with hr
      rw [hr]
      exact hf

/-! ## The activation pipeline: the first failing step ends the call -/

/-- C6, as amended (short-circuit and annotation).  `Use v` runs `Init`,
`Download` (when the cache entry is missing), `Unarchive` (when the
installation entry is missing) and `Link` in this order, and the first step
that fails ends the call: `Use` returns the result of that step as it is
(error and state), so no later step runs.  The error of `Download`,
`Unarchive` and `Link` reads "Failed to download / unarchive / link node
version v with error: ..."; the error of `Init` is returned as it is, not
annotated.  When no step before `Link` fails, `Use` returns the result of
`Link`.  Conversely, an error returned by `Use` is the error of exactly one of
these steps, the first one that failed. -/
theorem Use_error_cases (env : Env) (v : String) (w : World) :
    (∀ e, (gonvm.Init env w).1 = Except.error e →
        gonvm.Use env v w = gonvm.Init env w ∧ (gonvm.Use env v w).1 = Except.error e)
    ∧ (∀ src w1 e, gonvm.getNodeSourcePath env v = .ok src →
        gonvm.Init env w = (Except.ok (), w1) →
        gonvm.exist env w1.fs src = false →
        (gonvm.Download env v w1).1 = Except.error e →
        gonvm.Use env v w = gonvm.Download env v w1
        ∧ (gonvm.Use env v w).1 = Except.error e
        ∧ ∃ e0, e = "Failed to download node version " ++ v ++ " with error: " ++ e0)
    ∧ (∀ src inst w1 w2 e, gonvm.getNodeSourcePath env v = .ok src →
        gonvm.getNodeVersionPath env v = .ok inst →
        gonvm.Init env w = (Except.ok (), w1) →
        (if !gonvm.exist env w1.fs src then gonvm.Download env v w1 else (Except.ok (), w1))
            = (Except.ok (), w2) →
        gonvm.exist env w2.fs inst = false →
        (gonvm.Unarchive env v w2).1 = Except.error e →
        gonvm.Use env v w = gonvm.Unarchive env v w2
        ∧ (gonvm.Use env v w).1 = Except.error e
        ∧ ∃ e0, e = "Failed to unarchive node version " ++ v ++ " with error: " ++ e0)
    ∧ (∀ src inst w1 w2 w3, gonvm.getNodeSourcePath env v = .ok src →
        gonvm.getNodeVersionPath env v = .ok inst →
        gonvm.Init env w = (Except.ok (), w1) →
        (if !gonvm.exist env w1.fs src then gonvm.Download env v w1 else (Except.ok (), w1))
            = (Except.ok (), w2) →
        (if !gonvm.exist env w2.fs inst then gonvm.Unarchive env v w2 else (Except.ok (), w2))
            = (Except.ok (), w3) →
        gonvm.Use env v w = gonvm.Link env v w3
        ∧ ∀ e, (gonvm.Link env v w3).1 = Except.error e →
            ∃ e0, e = "Failed to link node version " ++ v ++ " with error: " ++ e0)
    ∧ (∀ e, (gonvm.Use env v w).1 = Except.error e →
        ((gonvm.Init env w).1 = Except.error e ∧ gonvm.Use env v w = gonvm.Init env w)
        ∨ (∃ src w1, gonvm.getNodeSourcePath env v = .ok src
            ∧ gonvm.Init env w = (Except.ok (), w1)
            ∧ gonvm.exist env w1.fs src = false
            ∧ gonvm.Use env v w = gonvm.Download env v w1
            ∧ ∃ e0, e = "Failed to download node version " ++ v ++ " with error: " ++ e0)
        ∨ (∃ src inst w1 w2, gonvm.getNodeSourcePath env v = .ok src
            ∧ gonvm.getNodeVersionPath env v = .ok inst
            ∧ gonvm.Init env w = (Except.ok (), w1)
            ∧ (if !gonvm.exist env w1.fs src then gonvm.Download env v w1
                else (Except.ok (), w1)) = (Except.ok (), w2)
            ∧ gonvm.exist env w2.fs inst = false
            ∧ gonvm.Use env v w = gonvm.Unarchive env v w2
            ∧ ∃ e0, e = "Failed to unarchive node version " ++ v ++ " with error: " ++ e0)
        ∨ (∃ src inst w1 w2 w3, gonvm.getNodeSourcePath env v = .ok src
            ∧ gonvm.getNodeVersionPath env v = .ok inst
            ∧ gonvm.Init env w = (Except.ok (), w1)
            ∧ (if !gonvm.exist env w1.fs src then gonvm.Download env v w1
                else (Except.ok (), w1)) = (Except.ok (), w2)
            ∧ (if !gonvm.exist env w2.fs inst then gonvm.Unarchive env v w2
                else (Except.ok (), w2)) = (Except.ok (), w3)
            ∧ gonvm.Use env v w = gonvm.Link env v w3
            ∧ ∃ e0, e = "Failed to link node version " ++ v ++ " with error: " ++ e0)) := by
  refine ⟨?_, ?_, ?_, ?_, ?_⟩
  · intro e hI
    have hU : gonvm.Use env v w = gonvm.Init env w := by
      unfold gonvm.Use
      generalize gonvm.Init env w = rI at hI
      obtain ⟨r1, w1⟩ := rI
      cases r1 with
      | error e1 => rfl
      | ok u => simp at hI
    exact ⟨hU, by rw [hU]; exact hI⟩
  · intro src w1 e hsrc hI hx hD
    cases hh : env.home with
    | error e1 => rw [Init_home_error env w e1 hh] at hI; simp at hI
    | ok home =>
      obtain ⟨_, _, _, _, hinst, _⟩ :=
        paths_of_root env _ v (getGoNVMPath_of_home env home hh)
      have hU := Use_eq env v w _ _ hsrc hinst
      rw [hI] at hU
      simp only [hx, Bool.not_false, if_true] at hU
      have hU2 : gonvm.Use env v w = gonvm.Download env v w1 := by
        rw [hU]
        generalize gonvm.Download env v w1 = rD at hD
        obtain ⟨r2, w2⟩ := rD
        cases r2 with
        | error e2 => rfl
        | ok u => simp at hD
      exact ⟨hU2, by rw [hU2]; exact hD, Download_error_shape env v w1 e hD⟩
  · intro src inst w1 w2 e hsrc hinst hI hD hy hA
    have hU := Use_eq env v w _ _ hsrc hinst
    rw [hI] at hU
    simp only at hU
    rw [hD] at hU
    simp only [hy, Bool.not_false, if_true] at hU
    have hU2 : gonvm.Use env v w = gonvm.Unarchive env v w2 := by
      rw [hU]
      generalize gonvm.Unarchive env v w2 = rA at hA
      obtain ⟨r3, w3⟩ := rA
      cases r3 with
      | error e3 => rfl
      | ok u => simp at hA
    exact ⟨hU2, by rw [hU2]; exact hA, Unarchive_error_shape env v w2 e hA⟩
  · intro src inst w1 w2 w3 hsrc hinst hI hD hA
    have hU := Use_eq env v w _ _ hsrc hinst
    rw [hI] at hU
    simp only at hU
    rw [hD] at hU
    simp only at hU
    rw [hA] at hU
    exact ⟨hU, fun e he => Link_error_shape env v w3 e he⟩
  · intro e h
    cases hh : env.home with
    | error e1 =>
      left
      rw [Use_home_error env v w e1 hh] at h
      rw [Use_home_error env v w e1 hh, Init_home_error env w e1 hh]
      exact ⟨h, rfl⟩
    | ok home =>
      obtain ⟨_, _, _, hsrc, hinst, _⟩ :=
        paths_of_root env _ v (getGoNVMPath_of_home env home hh)
      have hU := Use_eq env v w _ _ hsrc hinst
      cases hI : gonvm.Init env w with
      | mk r1 w1 =>
      rw [hI] at hU
      cases r1 with
      | error e1 =>
        left
        simp only at hU
        rw [hU] at h ⊢
        exact ⟨h, rfl⟩
      | ok u1 =>
        right
        simp only at hU
        by_cases hx : gonvm.exist env w1.fs
            (filepath.Join (filepath.Join home ".gonvm" ++ "/sources")
              (gonvm.getFileName env.platform v)) = true
        · -- the cache entry is there: no download
          simp only [hx, Bool.not_true, Bool.false_eq_true, if_false] at hU
          right
          by_cases hy : gonvm.exist env w1.fs
              (filepath.Join (filepath.Join home ".gonvm" ++ "/versions")
              (gonvm.getDirName env.platform v)) = true
          · simp only [hy, Bool.not_true, Bool.false_eq_true, if_false] at hU
            right
            refine ⟨_, _, w1, w1, w1, hsrc, hinst, rfl, by simp [hx], by simp [hy], hU, ?_⟩
            rw [hU] at h
            exact Link_error_shape env v w1 e h
          · have hy' : gonvm.exist env w1.fs
                (filepath.Join (filepath.Join home ".gonvm" ++ "/versions")
              (gonvm.getDirName env.platform v)) = false := by
              simpa using hy
            simp only [hy', Bool.not_false, if_true] at hU
            cases hA : gonvm.Unarchive env v w1 with
            | mk r3 w3 =>
            rw [hA] at hU
            cases r3 with
            | error e3 =>
              left
              simp only at hU
              refine ⟨_, _, w1, w1, hsrc, hinst, rfl, by simp [hx], hy', hU.trans hA.symm, ?_⟩
              rw [hU] at h
              exact Unarchive_error_shape env v w1 e (by rw [hA]; exact h)
            | ok u3 =>
              right
              simp only at hU
              refine ⟨_, _, w1, w1, w3, hsrc, hinst, rfl, by simp [hx], by simp [hy', hA], hU, ?_⟩
              rw [hU] at h
              exact Link_error_shape env v w3 e h
        · have hx' : gonvm.exist env w1.fs
              (filepath.Join (filepath.Join home ".gonvm" ++ "/sources")
              (gonvm.getFileName env.platform v)) = false := by
            simpa using hx
          simp only [hx', Bool.not_false, if_true] at hU
          cases hD : gonvm.Download env v w1 with
          | mk r2 w2 =>
          rw [hD] at hU
          cases r2 with
          | error e2 =>
            left
            simp only at hU
            refine ⟨_, w1, hsrc, rfl, hx', hU.trans hD.symm, ?_⟩
            rw [hU] at h
            exact Download_error_shape env v w1 e (by rw [hD]; exact h)
          | ok u2 =>
            right
            simp only at hU
            by_cases hy : gonvm.exist env w2.fs
                (filepath.Join (filepath.Join home ".gonvm" ++ "/versions")
              (gonvm.getDirName env.platform v)) = true
            · simp only [hy, Bool.not_true, Bool.false_eq_true, if_false] at hU
              right
              refine ⟨_, _, w1, w2, w2, hsrc, hinst, rfl, by simp [hx', hD], by simp [hy], hU, ?_⟩
              rw [hU] at h
              exact Link_error_shape env v w2 e h
            · have hy' : gonvm.exist env w2.fs
                  (filepath.Join (filepath.Join home ".gonvm" ++ "/versions")
              (gonvm.getDirName env.platform v)) = false := by
                simpa using hy
              simp only [hy', Bool.not_false, if_true] at hU
              cases hA : gonvm.Unarchive env v w2 with
              | mk r3 w3 =>
              rw [hA] at hU
              cases r3 with
              | error e3 =>
                left
                simp only at hU
                refine ⟨_, _, w1, w2, hsrc, hinst, rfl, by simp [hx', hD], hy', hU.trans hA.symm, ?_⟩
                rw [hU] at h
                exact Unarchive_error_shape env v w2 e (by rw [hA]; exact h)
              | ok u3 =>
                right
                simp only at hU
                refine ⟨_, _, w1, w2, w3, hsrc, hinst, rfl, by simp [hx', hD],
                  by simp [hy', hA], hU, ?_⟩
                rw [hU] at h
                exact Link_error_shape env v w3 e h

/-! ## Auxiliary facts: `strings.ReplaceAll`, `strings.Split`, `filepath.Glob` -/

theorem not_isPrefixOf_of_slash (P name : List Char) (h : '/' ∉ name) :
    (P ++ ['/']).isPrefixOf name = false := by
  cases hb : (P ++ ['/']).isPrefixOf name with
  | false => rfl
  | true =>
    exfalso
    have hp := List.isPrefixOf_iff_prefix.mp hb
    exact h (hp.subset (by simp))

theorem replaceAux_no_slash (P new name : List Char) (h : '/' ∉ name) :
    strings.replaceAux (P ++ ['/']) new 0 name = name := by
  induction name with
  | nil => rfl
  | cons c cs ih =>
    have hc : '/' ∉ cs := fun hm => h (List.mem_cons_of_mem _ hm)
    rw [strings.replaceAux, not_isPrefixOf_of_slash P (c :: cs) h]
    simp [ih hc]

/-- Removing the occurrences of a string that ends in "/" leaves a "/"-free
tail of the subject in place. -/
theorem replaceAux_keeps_tail (P name : List Char) (h : '/' ∉ name) (X : List Char) :
    ∀ skip, skip ≤ X.length →
      ∃ Y, strings.replaceAux (P ++ ['/']) [] skip (X ++ name) = Y ++ name := by
  induction X with
  | nil =>
    intro skip hs
    have : skip = 0 := by simpa using hs
    subst this
    exact ⟨[], by simpa using replaceAux_no_slash P [] name h⟩
  | cons c X ih =>
    intro skip hs
    cases skip with
    | succ k =>
      obtain ⟨Y, hY⟩ := ih k (by simpa using hs)
      exact ⟨Y, by simpa [strings.replaceAux] using hY⟩
    | zero =>
      by_cases hp : (P ++ ['/']).isPrefixOf (c :: (X ++ name)) = true
      · have hpre := List.isPrefixOf_iff_prefix.mp hp
        have hlen : (P ++ ['/']).length - 1 ≤ X.length := by
          by_contra hgt
          have hgt' : X.length + 1 ≤ P.length := by simp at hgt; omega
          obtain ⟨t, ht⟩ := hpre
          -- the "/" closing the occurrence would lie in `name`
          have h1 : (c :: (X ++ name))[P.length]? = some '/' := by
            rw [← ht, List.append_assoc, List.getElem?_append_right (le_refl _)]
            simp
          have h2 : (c :: (X ++ name))[P.length]? = name[P.length - (X.length + 1)]? := by
            have : c :: (X ++ name) = (c :: X) ++ name := rfl
            rw [this, List.getElem?_append_right (by simpa using hgt')]
            simp
          rw [h2] at h1
          exact h (List.getElem?_mem h1)
        obtain ⟨Y, hY⟩ := ih ((P ++ ['/']).length - 1) hlen
        refine ⟨Y, ?_⟩
        have : (c :: X) ++ name = c :: (X ++ name) := rfl
        rw [this, strings.replaceAux, if_pos hp]
        simpa using hY
      · obtain ⟨Y, hY⟩ := ih 0 (Nat.zero_le _)
        refine ⟨c :: Y, ?_⟩
        have : (c :: X) ++ name = c :: (X ++ name) := rfl
        rw [this, strings.replaceAux, if_neg hp, hY]
        rfl

theorem splitAux_length_pos (s acc : List Char) (skip : Nat) :
    1 ≤ (strings.splitAux ['-'] skip acc s).length := by
  induction s generalizing acc skip with
  | nil => cases skip <;> simp [strings.splitAux]
  | cons c cs ih =>
    cases skip with
    | succ k => simpa [strings.splitAux] using ih acc k
    | zero =>
      rw [strings.splitAux]
      split
      · simp
      · exact ih _ _

theorem splitAux_length_two (s acc : List Char) (h : '-' ∈ s) :
    2 ≤ (strings.splitAux ['-'] 0 acc s).length := by
  induction s generalizing acc with
  | nil => simp at h
  | cons c cs ih =>
    rw [strings.splitAux]
    by_cases hc : c = '-'
    · subst hc
      have := splitAux_length_pos cs [] 0
      simp
      omega
    · have hm : '-' ∈ cs := by
        rcases List.mem_cons.mp h with h1 | h1
        · exact absurd h1.symm hc
        · exact h1
      have hp : List.isPrefixOf ['-'] (c :: cs) = false := by
        simp [List.isPrefixOf, Ne.symm hc]
      rw [hp]
      simpa using ih _ hm

theorem starMatch_no_slash (cs : List Char)
    (h : filepath.starMatch (filepath.globMatch []) cs = true) : '/' ∉ cs := by
  induction cs with
  | nil => simp
  | cons c cs ih =>
    rw [filepath.starMatch] at h
    have hk : filepath.globMatch [] (c :: cs) = false := rfl
    rw [hk] at h
    simp only [Bool.false_or, Bool.and_eq_true, bne_iff_ne, ne_eq] at h
    intro hm
    rcases List.mem_cons.mp hm with h1 | h1
    · exact h.1 h1.symm
    · exact ih h.2 h1

/-- What the pattern "node-*" matches: names that start with "node-" and hold
no separator. -/
theorem globMatch_node (name : List Char)
    (h : filepath.globMatch ['n', 'o', 'd', 'e', '-', '*'] name = true) :
    ∃ rest, name = ['n', 'o', 'd', 'e', '-'] ++ rest ∧ '/' ∉ rest := by
  match name, h with
  | c1 :: c2 :: c3 :: c4 :: c5 :: rest, h =>
    simp [filepath.globMatch] at h
    obtain ⟨h1, h2, h3, h4, h5, h6⟩ := h
    subst h1 h2 h3 h4 h5
    exact ⟨rest, rfl, starMatch_no_slash rest h6⟩
  | [], h => simp [filepath.globMatch] at h
  | [_], h => simp [filepath.globMatch] at h
  | [_, _], h => simp [filepath.globMatch] at h
  | [_, _, _], h => simp [filepath.globMatch] at h
  | [_, _, _, _], h => simp [filepath.globMatch] at h

theorem split_stripped_length (versionsPath node : String) (X name : List Char)
    (hnode : node.data = X ++ name) (hslash : '/' ∉ name) (hdash : '-' ∈ name) :
    2 ≤ (strings.Split (strings.ReplaceAll node (versionsPath ++ "/") "") "-").length := by
  obtain ⟨Y, hY⟩ := replaceAux_keeps_tail versionsPath.data name hslash X 0 (Nat.zero_le _)
  have hold : (versionsPath ++ "/").data = versionsPath.data ++ ['/'] := by
    simp [String.data_append]
  have hne : ¬ (versionsPath.data ++ ['/'] = []) := by simp
  have hr : strings.ReplaceAll node (versionsPath ++ "/") "" = String.mk (Y ++ name) := by
    unfold strings.ReplaceAll
    rw [hold, if_neg hne, hnode]
    exact congrArg String.mk hY
  have hsep : "-".data = ['-'] := rfl
  rw [hr]
  unfold strings.Split
  rw [hsep, if_neg (by simp)]
  rw [List.length_map]
  exact splitAux_length_two _ _ (List.mem_append_right _ hdash)

theorem ListLoop_ok (versionsPath : String) (nodes : List String)
    (h : ∀ node ∈ nodes, ∃ X name, node.data = X ++ name ∧ '/' ∉ name ∧ '-' ∈ name) :
    ∀ versions, ∃ result, gonvm.ListLoop versionsPath nodes versions = some result := by
  induction nodes with
  | nil => intro versions; exact ⟨versions, rfl⟩
  | cons node rest ih =>
    intro versions
    obtain ⟨X, name, hn, hs, hd⟩ := h node (List.mem_cons_self _ _)
    have hlen := split_stripped_length versionsPath node X name hn hs hd
    rw [gonvm.ListLoop]
    cases hg : (strings.Split (strings.ReplaceAll node (versionsPath ++ "/") "") "-").get? 1 with
    | none =>
      rw [List.get?_eq_none] at hg
      omega
    | some ver =>
      simp only
      exact ih (fun n hn => h n (List.mem_cons_of_mem _ hn)) _

theorem globIn_mem (env : Env) (fs : FS) (dir : String) (file : List Char) (node : String)
    (h : node ∈ filepath.globIn env fs dir file) :
    ∃ n : String, filepath.globMatch file n.data = true ∧ node = filepath.Join dir n := by
  unfold filepath.globIn at h
  split at h
  · split at h
    · simp at h
    · simp only [List.mem_map, List.mem_filter] at h
      obtain ⟨n, ⟨_, hm⟩, hj⟩ := h
      exact ⟨n, hm, hj.symm⟩
  · simp at h

theorem Glob_node_mem (env : Env) (fs : FS) (versionsPath : String) (nodes : List String)
    (h : filepath.Glob env fs (versionsPath ++ "/node-*") = .ok nodes) :
    ∀ node ∈ nodes, ∃ X name, node.data = X ++ name ∧ '/' ∉ name ∧ '-' ∈ name := by
  have hdata : (versionsPath ++ "/node-*").data.reverse
      = ['*', '-', 'e', 'd', 'o', 'n', '/'] ++ versionsPath.data.reverse := by
    simp [String.data_append]
  have hfp : (List.takeWhile (fun c => c != '/')
      (['*', '-', 'e', 'd', 'o', 'n', '/'] ++ versionsPath.data.reverse)).reverse
      = ['n', 'o', 'd', 'e', '-', '*'] := by
    simp [List.takeWhile]
  have key : ∀ d node, node ∈ filepath.globIn env fs d ['n', 'o', 'd', 'e', '-', '*'] →
      ∃ X name, node.data = X ++ name ∧ '/' ∉ name ∧ '-' ∈ name := by
    intro d node hn
    obtain ⟨n, hm, hj⟩ := globIn_mem env fs d _ node hn
    obtain ⟨rest, hrest, hslash⟩ := globMatch_node _ hm
    have hs : '/' ∉ n.data := by
      rw [hrest]
      simp only [List.mem_append, not_or]
      exact ⟨by decide, hslash⟩
    have hpl : filepath.Plain n.data := by
      refine ⟨?_, hs, ?_, ?_⟩ <;> rw [hrest] <;> simp
    obtain ⟨X, hX⟩ := Join_plain_tail d n hpl
    refine ⟨X, n.data, by rw [hj]; exact hX, hs, ?_⟩
    rw [hrest]
    simp
  unfold filepath.Glob at h
  simp only [hdata, hfp] at h
  split at h
  · split at h
    · simp at h
    · injection h with h
      intro node hn
      rw [← h, List.mem_flatten] at hn
      obtain ⟨l, hl, hnl⟩ := hn
      rw [List.mem_map] at hl
      obtain ⟨d, _, hd⟩ := hl
      rw [← hd] at hnl
      exact key d node hnl
  · injection h with h
    intro node hn
    rw [← h] at hn
    exact key _ node hn

/-- C10 (no index out of range in `List`).  For every versions path and every
entry name that matches the pattern "node-*", stripping the versions path
from the entry's path and splitting at "-" gives at least two pieces, so
element 1 exists; and `List` never panics, on any host and any filesystem. -/
theorem List_never_panics :
    (∀ versionsPath name : String, filepath.globMatch "node-*".data name.data = true →
      2 ≤ (strings.Split (strings.ReplaceAll (versionsPath ++ "/" ++ name)
              (versionsPath ++ "/") "") "-").length
      ∧ gonvm.ListLoop versionsPath [versionsPath ++ "/" ++ name] [] ≠ none)
    ∧ (∀ (env : Env) (fs : FS), gonvm.List env fs ≠ none) := by
  constructor
  · intro versionsPath name hm
    obtain ⟨rest, hrest, hslash⟩ := globMatch_node name.data hm
    have hs : '/' ∉ name.data := by
      rw [hrest]
      simp only [List.mem_append, not_or]
      exact ⟨by decide, hslash⟩
    have hd : '-' ∈ name.data := by
      rw [hrest]
      simp
    have hn : (versionsPath ++ "/" ++ name).data = (versionsPath.data ++ ['/']) ++ name.data := by
      simp [String.data_append]
    refine ⟨split_stripped_length versionsPath _ _ _ hn hs hd, ?_⟩
    obtain ⟨result, hr⟩ := ListLoop_ok versionsPath [versionsPath ++ "/" ++ name]
      (by
        intro node hnode
        simp only [List.mem_singleton] at hnode
        subst hnode
        exact ⟨_, _, hn, hs, hd⟩) []
    rw [hr]
    simp
  · intro env fs
    unfold gonvm.List
    cases hv : gonvm.getGoNVMVersionsPath env with
    | error e => simp
    | ok versionsPath =>
      simp only
      cases hg : filepath.Glob env fs (versionsPath ++ "/node-*") with
      | error e => simp
      | ok nodes =>
        simp only
        obtain ⟨result, hr⟩ := ListLoop_ok versionsPath nodes
          (Glob_node_mem env fs versionsPath nodes hg) []
        rw [hr]
        simp

theorem replaceAux_skip (old new X rest : List Char) :
    strings.replaceAux old new X.length (X ++ rest) = strings.replaceAux old new 0 rest := by
  induction X with
  | nil => rfl
  | cons c X ih => simpa [strings.replaceAux] using ih

theorem replaceAux_absent (c : Char) (new s : List Char) (h : c ∉ s) :
    strings.replaceAux [c] new 0 s = s := by
  induction s with
  | nil => rfl
  | cons d ds ih =>
    have hd : c ≠ d := fun hcd => h (List.mem_cons.mpr (Or.inl hcd))
    have hds : c ∉ ds := fun hm => h (List.mem_cons_of_mem _ hm)
    have hp : List.isPrefixOf [c] (d :: ds) = false := by simp [List.isPrefixOf, hd]
    rw [strings.replaceAux, hp]
    simp [ih hds]

theorem splitAux_piece (a acc rest : List Char) (h : '-' ∉ a) :
    strings.splitAux ['-'] 0 acc (a ++ '-' :: rest)
      = (acc ++ a) :: strings.splitAux ['-'] 0 [] rest := by
  induction a generalizing acc with
  | nil => simp [strings.splitAux, List.isPrefixOf]
  | cons d ds ih =>
    have hd : '-' ≠ d := fun hcd => h (List.mem_cons.mpr (Or.inl hcd))
    have hds : '-' ∉ ds := fun hm => h (List.mem_cons_of_mem _ hm)
    have hp : List.isPrefixOf ['-'] (d :: (ds ++ '-' :: rest)) = false := by
      simp [List.isPrefixOf, hd]
    have : (d :: ds) ++ '-' :: rest = d :: (ds ++ '-' :: rest) := rfl
    rw [this, strings.splitAux, hp]
    simp [ih (acc ++ [d]) hds]

/-- Where the inventory does read the version back: for a version without
"-", "v" and "/", on a platform whose names hold no "/", the loop of `List`
turns the path of the installation entry into the version. -/
theorem ListLoop_reads_plain_version (p : Platform) (versionsPath v : String)
    (hdash : '-' ∉ v.data) (hv : 'v' ∉ v.data) (hslash : '/' ∉ v.data)
    (hos : '/' ∉ p.GOOS.data) (harch : '/' ∉ (gonvm.nodeArch p.GOARCH).data) :
    gonvm.ListLoop versionsPath [versionsPath ++ "/" ++ gonvm.getDirName p v] [] = some [v] := by
  have hname : (gonvm.getDirName p v).data
      = ['n', 'o', 'd', 'e'] ++ '-' :: (('v' :: v.data) ++ '-' ::
          (p.GOOS.data ++ '-' :: (gonvm.nodeArch p.GOARCH).data)) := by
    simp [gonvm.getDirName, String.data_append]
  have hns : '/' ∉ (gonvm.getDirName p v).data := by
    rw [hname]
    simp only [List.mem_append, List.mem_cons, not_or]
    refine ⟨by decide, by decide, ⟨by decide, hslash⟩, by decide, hos, by decide, harch⟩
  have hold : (versionsPath ++ "/").data = versionsPath.data ++ ['/'] := by
    simp [String.data_append]
  have hnode : (versionsPath ++ "/" ++ gonvm.getDirName p v).data
      = (versionsPath.data ++ ['/']) ++ (gonvm.getDirName p v).data := by
    simp [String.data_append]
  have hstrip : strings.ReplaceAll (versionsPath ++ "/" ++ gonvm.getDirName p v)
      (versionsPath ++ "/") "" = gonvm.getDirName p v := by
    unfold strings.ReplaceAll
    rw [hold, if_neg (by simp), hnode]
    apply String.ext
    show strings.replaceAux (versionsPath.data ++ ['/']) [] 0
      ((versionsPath.data ++ ['/']) ++ (gonvm.getDirName p v).data) = _
    cases hvp : versionsPath.data ++ ['/'] with
    | nil => simp at hvp
    | cons c cs =>
      have hpre : (c :: cs).isPrefixOf (c :: (cs ++ (gonvm.getDirName p v).data)) = true :=
        List.isPrefixOf_iff_prefix.mpr (List.prefix_append (c :: cs) _)
      have : (c :: cs) ++ (gonvm.getDirName p v).data
          = c :: (cs ++ (gonvm.getDirName p v).data) := rfl
      rw [this, strings.replaceAux, if_pos hpre]
      have hl : (c :: cs).length - 1 = cs.length := by simp
      rw [hl, replaceAux_skip, ← hvp, replaceAux_no_slash _ _ _ hns]
      rfl
  have hsplit : (strings.Split (gonvm.getDirName p v) "-").get? 1
      = some (String.mk ('v' :: v.data)) := by
    unfold strings.Split
    have hsep : "-".data = ['-'] := rfl
    rw [hsep, if_neg (by simp), hname, splitAux_piece _ _ _ (by decide),
      splitAux_piece _ _ _ (by simpa using hdash)]
    simp
  have hrep : strings.ReplaceAll (String.mk ('v' :: v.data)) "v" "" = v := by
    unfold strings.ReplaceAll
    have hvd : "v".data = ['v'] := rfl
    have hed : "".data = [] := rfl
    rw [hvd, hed, if_neg (by simp)]
    apply String.ext
    show strings.replaceAux ['v'] [] 0 ('v' :: v.data) = v.data
    rw [strings.replaceAux, if_pos (by simp [List.isPrefixOf])]
    simpa using replaceAux_absent 'v' [] v.data hv
  rw [gonvm.ListLoop, hstrip, hsplit]
  simp only [hrep]
  rfl

/-- The loop of `List` applied to the entry of "18.16.0". -/
theorem ListLoop_reads_plain_version_witness :
    gonvm.ListLoop "/home/u/.gonvm/versions"
      ["/home/u/.gonvm/versions" ++ "/" ++ gonvm.getDirName linuxAmd64 "18.16.0"] []
      = some ["18.16.0"] :=
  ListLoop_reads_plain_version linuxAmd64 "/home/u/.gonvm/versions" "18.16.0"
    (by decide) (by decide) (by decide) (by decide) (by decide)

/-! ## PathResolver: the claims about names and paths -/

/-- C1 (installation name).  For every version and host platform,
`getDirName` is "node-v", the version, "-", the operating system, "-" and the
architecture, where the architecture is "x64" for "amd64", "x86" for "386"
and the Go architecture itself otherwise; for "18.16.0" on (linux, amd64) it
is "node-v18.16.0-linux-x64". -/
theorem getDirName_spec (p : Platform) (v : String) :
    gonvm.getDirName p v
      = "node-v" ++ v ++ "-" ++ p.GOOS ++ "-"
          ++ (if p.GOARCH = "amd64" then "x64" else if p.GOARCH = "386" then "x86" else p.GOARCH)
    ∧ gonvm.getDirName ⟨"linux", "amd64"⟩ "18.16.0" = "node-v18.16.0-linux-x64" :=
  ⟨rfl, by decide⟩

/-- C7 (injectivity).  On a fixed platform, two versions with the same
installation name are the same version.  (That the name depends on nothing
but the version and the platform is the type of `getDirName`.) -/
theorem getDirName_injective (p : Platform) (v1 v2 : String)
    (h : gonvm.getDirName p v1 = gonvm.getDirName p v2) : v1 = v2 := by
  unfold gonvm.getDirName at h
  have h2 := congrArg String.data h
  simp only [String.data_append, List.append_assoc] at h2
  have h3 := List.append_cancel_left h2
  exact String.ext ((List.append_left_inj _).mp h3)

/-- The injectivity statement applied to "18.16.0", written in two ways. -/
theorem getDirName_injective_witness :
    gonvm.getDirName linuxAmd64 "18.16.0" = gonvm.getDirName linuxAmd64 ("18.16" ++ ".0")
    ∧ "18.16.0" = "18.16" ++ ".0" :=
  ⟨by decide, getDirName_injective linuxAmd64 "18.16.0" ("18.16" ++ ".0") (by decide)⟩

/-- C8 (archive file name and URL).  The archive file name is the installation
name followed by ".tar.gz"; the URL is the base URL, "/v", the version, "/"
and the archive file name, so it ends with the archive file name; for
"18.16.0" on (linux, amd64) it ends in
"/v18.16.0/node-v18.16.0-linux-x64.tar.gz". -/
theorem getFileName_getURL_spec (p : Platform) (v : String) :
    gonvm.getFileName p v = gonvm.getDirName p v ++ ".tar.gz"
    ∧ gonvm.getURL p v = "https://nodejs.org/dist" ++ "/v" ++ v ++ "/" ++ gonvm.getFileName p v
    ∧ (gonvm.getFileName p v).data <:+ (gonvm.getURL p v).data
    ∧ "/v18.16.0/node-v18.16.0-linux-x64.tar.gz".data
        <:+ (gonvm.getURL ⟨"linux", "amd64"⟩ "18.16.0").data := by
  refine ⟨rfl, rfl, ?_, by decide⟩
  unfold gonvm.getURL
  simp only [String.data_append]
  exact List.suffix_append _ _

/-- C9 (the code departs from the claim).  When the home directory cannot be
resolved, `getGoNVMPath`, `getGoNVMVersionsPath` and `getNodeVersionPath`
return the error, while `getGoNVMBinPath`, `getGoNVMSourcesPath`,
`getNodeSourcePath` and `getNodeVersionBinPath` return a path and no error:
the empty path, or the archive file name joined to the empty path, which is
the bare archive file name when the version holds no separator. -/
theorem path_getters_on_home_error (env : Env) (v e : String) (h : env.home = .error e) :
    gonvm.getGoNVMPath env = .error e
    ∧ gonvm.getGoNVMVersionsPath env = .error e
    ∧ gonvm.getNodeVersionPath env v = .error e
    ∧ gonvm.getGoNVMBinPath env = .ok ""
    ∧ gonvm.getGoNVMSourcesPath env = .ok ""
    ∧ gonvm.getNodeSourcePath env v
        = .ok (filepath.Join "" (gonvm.getFileName env.platform v))
    ∧ ('/' ∉ (gonvm.getDirName env.platform v).data →
        gonvm.getNodeSourcePath env v = .ok (gonvm.getFileName env.platform v))
    ∧ gonvm.getNodeVersionBinPath env v = .ok "" := by
  have h1 : gonvm.getGoNVMPath env = .error e := by simp [gonvm.getGoNVMPath, h]
  have h2 : gonvm.getGoNVMVersionsPath env = .error e := by simp [gonvm.getGoNVMVersionsPath, h1]
  have h3 : gonvm.getNodeVersionPath env v = .error e := by simp [gonvm.getNodeVersionPath, h2]
  have h4 : gonvm.getGoNVMSourcesPath env = .ok "" := by simp [gonvm.getGoNVMSourcesPath, h1]
  have h5 : gonvm.getNodeSourcePath env v
      = .ok (filepath.Join "" (gonvm.getFileName env.platform v)) := by
    simp [gonvm.getNodeSourcePath, h4]
  refine ⟨h1, h2, h3, by simp [gonvm.getGoNVMBinPath, h1], h4, h5, ?_,
    by simp [gonvm.getNodeVersionBinPath, h3]⟩
  intro hn
  have hpl := getFileName_plain env.platform v hn
  have hne : gonvm.getFileName env.platform v ≠ "" := by
    intro h0
    apply hpl.1
    rw [h0]
  rw [h5]
  unfold filepath.Join
  simp only [ne_eq, not_true_eq_false, if_false, hne, not_false_eq_true, if_true]
  rw [Clean_plain _ hpl]

/-- The four getters at work on a host without a home directory. -/
theorem path_getters_on_home_error_witness :
    hostNoHome.home = .error "$HOME is not defined"
    ∧ gonvm.getGoNVMBinPath hostNoHome = .ok ""
    ∧ gonvm.getNodeSourcePath hostNoHome "18.16.0" = .ok "node-v18.16.0-linux-x64.tar.gz" :=
  have h := path_getters_on_home_error hostNoHome "18.16.0" "$HOME is not defined" rfl
  ⟨rfl, h.2.2.2.1, h.2.2.2.2.2.2.1 (by decide)⟩

/-- The path that `getNodeSourcePath` returns without a home directory is the
archive file name joined to the empty path, hence cleaned: for the version
"a/../b" it is not the archive file name. -/
theorem getNodeSourcePath_cleans_file_name :
    gonvm.getFileName linuxAmd64 "a/../b" = "node-va/../b-linux-x64.tar.gz"
    ∧ gonvm.getNodeSourcePath hostNoHome "a/../b" = .ok "b-linux-x64.tar.gz" :=
  ⟨by decide, rfl⟩

/-- With the home directory resolved, every path derivation succeeds. -/
theorem path_getters_on_home_ok (env : Env) (v home : String) (h : env.home = .ok home)
    (hname : '/' ∉ (gonvm.getDirName env.platform v).data) :
    ∃ root, gonvm.getGoNVMPath env = .ok root
      ∧ gonvm.getGoNVMBinPath env = .ok (root ++ "/bin")
      ∧ gonvm.getGoNVMSourcesPath env = .ok (root ++ "/sources")
      ∧ gonvm.getGoNVMVersionsPath env = .ok (root ++ "/versions")
      ∧ gonvm.getNodeSourcePath env v = .ok (root ++ "/sources/" ++ gonvm.getFileName env.platform v)
      ∧ gonvm.getNodeVersionPath env v
          = .ok (root ++ "/versions/" ++ gonvm.getDirName env.platform v)
      ∧ gonvm.getNodeVersionBinPath env v
          = .ok (root ++ "/versions/" ++ gonvm.getDirName env.platform v ++ "/bin") := by
  have hroot := getGoNVMPath_of_home env home h
  obtain ⟨hb, hs, hv, _⟩ := paths_of_root env _ v hroot
  exact ⟨_, hroot, hb, hs, hv, paths_of_name env _ v hroot hname⟩

/-! ## Inventory: the version read back from an installation name -/

/-- C2 (the code departs from the claim).  `List` does not read back every
version from its installation name.  After a successful `Use` of
"20.0.0-rc.1" the inventory is "20.0.0": the token is cut at the first "-"
of the version.  With "20.0.0" and "20.0.0-rc.1" both activated the inventory
is "20.0.0" twice.  After a successful `Use` of "1.0.0v2" the inventory is
"1.0.02": every "v" is removed, not only the leading one. -/
theorem List_misreads_version :
    (gonvm.Use hostOk "20.0.0-rc.1" emptyWorld).1 = Except.ok ()
    ∧ FS.find (gonvm.Use hostOk "20.0.0-rc.1" emptyWorld).2.fs
        ("/home/u/.gonvm/versions/" ++ gonvm.getDirName linuxAmd64 "20.0.0-rc.1") = some Node.dir
    ∧ gonvm.List hostOk (gonvm.Use hostOk "20.0.0-rc.1" emptyWorld).2.fs
        = some (["20.0.0"], none)
    ∧ gonvm.List hostOk
          (gonvm.Use hostOk "20.0.0-rc.1" (gonvm.Use hostOk "20.0.0" emptyWorld).2).2.fs
        = some (["20.0.0", "20.0.0"], none)
    ∧ gonvm.List hostOk (gonvm.Use hostOk "1.0.0v2" emptyWorld).2.fs
        = some (["1.0.02"], none) :=
  ⟨rfl, rfl, rfl, rfl, rfl⟩

/-- For the versions the format is made for, `List` reads the version back. -/
theorem List_reads_plain_version :
    gonvm.List hostOk (gonvm.Use hostOk "20.1.0" (gonvm.Use hostOk "18.16.0" emptyWorld).2).2.fs
      = some (["18.16.0", "20.1.0"], none) := rfl

/-! ## The filesystem model at work -/

/-- A managed root that is a symbolic link: the existence checks, `os.RemoveAll`
and `os.Symlink` go through the link.  The cached archive and the installation
are found, so that nothing is downloaded although the server answers 404, and
the pointer is made in the directory the root leads to. -/
theorem Use_through_linked_root :
    gonvm.exist hostNotFound linkedRoot.fs
        "/home/u/.gonvm/sources/node-v18.16.0-linux-x64.tar.gz" = true
    ∧ gonvm.Init hostNotFound linkedRoot = (Except.ok (), linkedRoot)
    ∧ (gonvm.Use hostNotFound "18.16.0" linkedRoot).1 = Except.ok ()
    ∧ (gonvm.Use hostNotFound "18.16.0" linkedRoot).2.trace
        = [Event.removeAll "/home/u/.gonvm/bin",
           Event.symlink "/home/u/.gonvm/versions/node-v18.16.0-linux-x64/bin"
             "/home/u/.gonvm/bin"]
    ∧ FS.find (gonvm.Use hostNotFound "18.16.0" linkedRoot).2.fs "/data/gonvm/bin"
        = some (Node.symlink "/home/u/.gonvm/versions/node-v18.16.0-linux-x64/bin")
    ∧ FS.find (gonvm.Use hostNotFound "18.16.0" linkedRoot).2.fs "/home/u/.gonvm/bin" = none
    ∧ FS.noLinkOnPath linkedRoot.fs "/home/u/.gonvm" = false :=
  ⟨rfl, rfl, rfl, rfl, rfl, rfl, rfl⟩

/-- A regular file in the place of the managed root: below it `os.Stat` fails
with "not a directory", which `exist` takes for existence.  `Init` makes no
directory and succeeds; `Use` skips download and extraction and fails in
`Link`. -/
theorem Use_below_regular_file :
    gonvm.exist hostOk rootIsFile.fs "/home/u/.gonvm/sources" = true
    ∧ gonvm.Init hostOk rootIsFile = (Except.ok (), rootIsFile)
    ∧ gonvm.Use hostOk "18.16.0" rootIsFile
        = (Except.error ("Failed to link node version 18.16.0 with error: "
              ++ "unlinkat /home/u/.gonvm/bin: not a directory"),
           rootIsFile.log (Event.removeAll "/home/u/.gonvm/bin")) :=
  ⟨rfl, rfl, rfl⟩

/-! ## The activation pipeline: examples and counterexamples -/

/-- Idempotence applied to the activation of "18.16.0" on a disk that holds
the home directory only: no path carries a symbolic link, and the cache and
installation paths lie outside the pointer path. -/
theorem Use_idempotent_witness :
    (gonvm.Use hostOk "18.16.0" bareHome).1 = Except.ok ()
    ∧ FS.noLinkOnPath bareHome.fs "/home/u/.gonvm/sources/node-v18.16.0-linux-x64.tar.gz" = true
    ∧ ∃ bin target, gonvm.getGoNVMBinPath hostOk = .ok bin
      ∧ gonvm.getNodeVersionBinPath hostOk "18.16.0" = .ok target
      ∧ gonvm.Use hostOk "18.16.0" (gonvm.Use hostOk "18.16.0" bareHome).2
          = (Except.ok (),
              { fs := (gonvm.Use hostOk "18.16.0" bareHome).2.fs,
                trace := (gonvm.Use hostOk "18.16.0" bareHome).2.trace
                  ++ [Event.removeAll bin, Event.symlink target bin] }) :=
  have hs : gonvm.getGoNVMSourcesPath hostOk = .ok "/home/u/.gonvm/sources" := rfl
  have hv : gonvm.getGoNVMVersionsPath hostOk = .ok "/home/u/.gonvm/versions" := rfl
  have hb : gonvm.getGoNVMBinPath hostOk = .ok "/home/u/.gonvm/bin" := rfl
  have hc : gonvm.getNodeSourcePath hostOk "18.16.0"
      = .ok "/home/u/.gonvm/sources/node-v18.16.0-linux-x64.tar.gz" := rfl
  have hi : gonvm.getNodeVersionPath hostOk "18.16.0"
      = .ok "/home/u/.gonvm/versions/node-v18.16.0-linux-x64" := rfl
  ⟨rfl, rfl, Use_idempotent hostOk "18.16.0" bareHome
    (by
      intro src hsrc
      rw [hc] at hsrc
      injection hsrc with hsrc
      subst hsrc
      rfl)
    (by
      intro p hp
      rcases hp with h | h | h | h
      · rw [hs] at h
        injection h with h
        subst h
        rfl
      · rw [hv] at h
        injection h with h
        subst h
        rfl
      · rw [hc] at h
        injection h with h
        subst h
        rfl
      · rw [hi] at h
        injection h with h
        subst h
        rfl)
    (by
      intro bin p hbin hp
      rw [hb] at hbin
      injection hbin with hbin
      subst hbin
      rcases hp with h | h
      · rw [hc] at h
        injection h with h
        subst h
        rfl
      · rw [hi] at h
        injection h with h
        subst h
        rfl)
    rfl⟩

/-- C3, as stated, fails: the cache path of 18.16.0 is a symbolic link to a
file, not yet there, in the directory that stands at the pointer path.  The
first `Use` downloads through the link, and `Link` removes the directory with
the downloaded file in it; `Use` succeeds.  For the second `Use` the cache
entry is missing again: it calls `http.Get` and `os.Create` once more, and the
file it downloads, through the cache link and the new pointer, lands in the
`bin` directory of the installation, where nothing stood after the first
run. -/
theorem Use_downloads_again_through_link :
    gonvm.exist hostOk cacheLinkedIntoBin.fs
        "/home/u/.gonvm/sources/node-v18.16.0-linux-x64.tar.gz" = false
    ∧ (gonvm.Use hostOk "18.16.0" cacheLinkedIntoBin).1 = Except.ok ()
    ∧ FS.find (gonvm.Use hostOk "18.16.0" cacheLinkedIntoBin).2.fs
        "/home/u/.gonvm/versions/node-v18.16.0-linux-x64" = some Node.dir
    ∧ gonvm.exist hostOk (gonvm.Use hostOk "18.16.0" cacheLinkedIntoBin).2.fs
        "/home/u/.gonvm/sources/node-v18.16.0-linux-x64.tar.gz" = false
    ∧ (gonvm.Use hostOk "18.16.0" (gonvm.Use hostOk "18.16.0" cacheLinkedIntoBin).2).1
        = Except.ok ()
    ∧ (gonvm.Use hostOk "18.16.0" (gonvm.Use hostOk "18.16.0" cacheLinkedIntoBin).2).2.trace
        = (gonvm.Use hostOk "18.16.0" cacheLinkedIntoBin).2.trace
          ++ [Event.httpGet "https://nodejs.org/dist/v18.16.0/node-v18.16.0-linux-x64.tar.gz",
              Event.create "/home/u/.gonvm/sources/node-v18.16.0-linux-x64.tar.gz",
              Event.removeAll "/home/u/.gonvm/bin",
              Event.symlink "/home/u/.gonvm/versions/node-v18.16.0-linux-x64/bin"
                "/home/u/.gonvm/bin"]
    ∧ FS.find (gonvm.Use hostOk "18.16.0" cacheLinkedIntoBin).2.fs
        "/home/u/.gonvm/versions/node-v18.16.0-linux-x64/bin/node.tar.gz" = none
    ∧ FS.find (gonvm.Use hostOk "18.16.0" (gonvm.Use hostOk "18.16.0" cacheLinkedIntoBin).2).2.fs
        "/home/u/.gonvm/versions/node-v18.16.0-linux-x64/bin/node.tar.gz"
        = some (Node.file "tarball") :=
  ⟨rfl, rfl, rfl, rfl, rfl, rfl, rfl, rfl⟩

/-- C4, as stated, fails: with version 18.16.0 installed and its cached archive
deleted, a download answered with status 404 makes `Use` return the error, and
the installation entry of 18.16.0 is still there afterwards. -/
theorem Use_not_found_keeps_installation :
    (gonvm.Init hostNotFound installedWithoutCache).1 = Except.ok ()
    ∧ gonvm.getNodeSourcePath hostNotFound "18.16.0"
        = .ok "/home/u/.gonvm/sources/node-v18.16.0-linux-x64.tar.gz"
    ∧ gonvm.exist hostNotFound (gonvm.Init hostNotFound installedWithoutCache).2.fs
        "/home/u/.gonvm/sources/node-v18.16.0-linux-x64.tar.gz" = false
    ∧ hostNotFound.httpGet (gonvm.getURL linuxAmd64 "18.16.0") = HttpResult.response 404 ""
    ∧ (gonvm.Use hostNotFound "18.16.0" installedWithoutCache).1
        = Except.error "Failed to download node version 18.16.0 with error: Node version not found"
    ∧ (gonvm.Use hostNotFound "18.16.0" installedWithoutCache).2.trace
        = [Event.httpGet "https://nodejs.org/dist/v18.16.0/node-v18.16.0-linux-x64.tar.gz"]
    ∧ gonvm.getNodeVersionPath hostNotFound "18.16.0"
        = .ok "/home/u/.gonvm/versions/node-v18.16.0-linux-x64"
    ∧ FS.find (gonvm.Use hostNotFound "18.16.0" installedWithoutCache).2.fs
        "/home/u/.gonvm/versions/node-v18.16.0-linux-x64" = some Node.dir :=
  ⟨rfl, rfl, rfl, rfl, rfl, rfl, rfl, rfl⟩

/-- The installation path of a version need not lie below the versions
directory: for the home directory "/srv/x-linux-x64" and the version
"/../../../../x" it is the home directory itself, which `Init` creates on an
empty disk before the download is answered with status 404: a failed download
is sure to leave the installation path as it was only when that path lies
below the versions directory. -/
theorem not_found_makes_installation_path :
    (gonvm.Init hostNotFoundOddHome emptyWorld).1 = Except.ok ()
    ∧ gonvm.getNodeSourcePath hostNotFoundOddHome "/../../../../x"
        = .ok "/srv/x-linux-x64.tar.gz"
    ∧ gonvm.exist hostNotFoundOddHome (gonvm.Init hostNotFoundOddHome emptyWorld).2.fs
        "/srv/x-linux-x64.tar.gz" = false
    ∧ (gonvm.Use hostNotFoundOddHome "/../../../../x" emptyWorld).1
        = Except.error
            "Failed to download node version /../../../../x with error: Node version not found"
    ∧ gonvm.getNodeVersionPath hostNotFoundOddHome "/../../../../x" = .ok "/srv/x-linux-x64"
    ∧ FS.find emptyWorld.fs "/srv/x-linux-x64" = none
    ∧ FS.find (gonvm.Use hostNotFoundOddHome "/../../../../x" emptyWorld).2.fs
        "/srv/x-linux-x64" = some Node.dir :=
  ⟨rfl, rfl, rfl, rfl, rfl, rfl, rfl⟩

/-- A cache path that holds a dangling symbolic link counts as a missing cache
entry, and still holds the link after the failed download: the cache entry is
missing afterwards, but the cache path holds nothing only when it held no
link before. -/
theorem not_found_keeps_dangling_link :
    (gonvm.Init hostNotFound cacheLinkedIntoBin).1 = Except.ok ()
    ∧ gonvm.exist hostNotFound (gonvm.Init hostNotFound cacheLinkedIntoBin).2.fs
        "/home/u/.gonvm/sources/node-v18.16.0-linux-x64.tar.gz" = false
    ∧ (gonvm.Use hostNotFound "18.16.0" cacheLinkedIntoBin).1
        = Except.error "Failed to download node version 18.16.0 with error: Node version not found"
    ∧ FS.find (gonvm.Use hostNotFound "18.16.0" cacheLinkedIntoBin).2.fs
        "/home/u/.gonvm/sources/node-v18.16.0-linux-x64.tar.gz"
        = some (Node.symlink "/home/u/.gonvm/bin/node.tar.gz")
    ∧ (gonvm.Use hostNotFound "18.16.0" cacheLinkedIntoBin).2.fs = cacheLinkedIntoBin.fs :=
  ⟨rfl, rfl, rfl, rfl, rfl⟩

/-- Not-found propagation applied to "18.16.0" on a disk that holds the home
directory only, the server answering 404. -/
theorem Use_not_found_witness :
    (gonvm.Init hostNotFound bareHome).1 = Except.ok ()
    ∧ gonvm.Use hostNotFound "18.16.0" bareHome
        = (Except.error
            ("Failed to download node version " ++ "18.16.0"
              ++ " with error: Node version not found"),
           (gonvm.Init hostNotFound bareHome).2.log
              (Event.httpGet (gonvm.getURL hostNotFound.platform "18.16.0")))
    ∧ FS.find (gonvm.Use hostNotFound "18.16.0" bareHome).2.fs
        "/home/u/.gonvm/versions/node-v18.16.0-linux-x64" = FS.find bareHome.fs
        "/home/u/.gonvm/versions/node-v18.16.0-linux-x64"
    ∧ gonvm.exist hostNotFound (gonvm.Use hostNotFound "18.16.0" bareHome).2.fs
        "/home/u/.gonvm/sources/node-v18.16.0-linux-x64.tar.gz" = false :=
  have h := Use_not_found hostNotFound "18.16.0" bareHome 404 "" rfl
    (by
      intro src hsrc
      have h2 : gonvm.getNodeSourcePath hostNotFound "18.16.0"
          = .ok "/home/u/.gonvm/sources/node-v18.16.0-linux-x64.tar.gz" := rfl
      rw [h2] at hsrc
      injection hsrc with hsrc
      subst hsrc
      rfl)
    rfl (by decide)
  ⟨rfl, h.1,
    h.2.2.1 "/home/u/.gonvm/versions/node-v18.16.0-linux-x64"
      "/home/u/.gonvm/versions/node-v18.16.0-linux-x64" rfl
      (by
        have hv : gonvm.getGoNVMVersionsPath hostNotFound = .ok "/home/u/.gonvm/versions" := rfl
        intro d hd
        rw [hv] at hd
        injection hd with hd
        subst hd
        decide)
      rfl,
    (h.2.2.2 "/home/u/.gonvm/sources/node-v18.16.0-linux-x64.tar.gz" rfl).1⟩

/-- The pointer switch applied to "18.16.0" followed by "20.1.0", on a disk
that holds the home directory only. -/
theorem Use_switches_pointer_witness :
    (gonvm.Use hostOk "18.16.0" bareHome).1 = Except.ok ()
    ∧ (gonvm.Use hostOk "20.1.0" (gonvm.Use hostOk "18.16.0" bareHome).2).1 = Except.ok ()
    ∧ FS.noLinkOnPath bareHome.fs "/home/u/.gonvm" = true
    ∧ FS.find (gonvm.Use hostOk "20.1.0" (gonvm.Use hostOk "18.16.0" bareHome).2).2.fs
        "/home/u/.gonvm/bin"
        = some (Node.symlink "/home/u/.gonvm/versions/node-v20.1.0-linux-x64/bin")
    ∧ gonvm.getNodeVersionBinPath hostOk "18.16.0"
        ≠ gonvm.getNodeVersionBinPath hostOk "20.1.0" := by
  obtain ⟨home, root, target, P, h1, h2, _, _, _, h6, _, h8, h9, h10⟩ :=
    Use_switches_pointer hostOk "18.16.0" "20.1.0" bareHome rfl rfl
  have hh : hostOk.home = .ok "/home/u" := rfl
  rw [hh] at h1
  injection h1 with h1
  subst h1
  have hr : filepath.Join "/home/u" ".gonvm" = "/home/u/.gonvm" := by decide
  rw [hr] at h2
  subst h2
  obtain ⟨hP, _⟩ := h8 rfl
  subst hP
  have ht := h9 (by decide)
  have e1 : "/home/u/.gonvm" ++ "/versions/" ++ gonvm.getDirName hostOk.platform "20.1.0"
      ++ "/bin" = "/home/u/.gonvm/versions/node-v20.1.0-linux-x64/bin" := by decide
  have e2 : "/home/u/.gonvm" ++ "/bin" = "/home/u/.gonvm/bin" := by decide
  rw [ht, e1, e2] at h6
  exact ⟨rfl, rfl, rfl, h6, h10 (by decide) (by decide) (by decide)⟩

/-- C5, as stated, fails: `filepath.Join` cleans the path it builds, so the
versions "1" and "z/../node-v1" have the same installation path.  With "1"
activated, `Use` of "z/../node-v1" finds cache and installation entry in
place and succeeds without a download; the pointer is then a link to the
`bin` path of "1", which is not `<root>/versions/getDirName(B)/bin`. -/
theorem Use_traversal_keeps_pointer :
    "1" ≠ "z/../node-v1"
    ∧ (gonvm.Use hostOk "1" bareHome).1 = Except.ok ()
    ∧ (gonvm.Use hostOk "z/../node-v1" (gonvm.Use hostOk "1" bareHome).2).1 = Except.ok ()
    ∧ (gonvm.Use hostOk "z/../node-v1" (gonvm.Use hostOk "1" bareHome).2).2.trace
        = (gonvm.Use hostOk "1" bareHome).2.trace
          ++ [Event.removeAll "/home/u/.gonvm/bin",
              Event.symlink "/home/u/.gonvm/versions/node-v1-linux-x64/bin" "/home/u/.gonvm/bin"]
    ∧ gonvm.getNodeVersionBinPath hostOk "1"
        = .ok "/home/u/.gonvm/versions/node-v1-linux-x64/bin"
    ∧ FS.find (gonvm.Use hostOk "z/../node-v1" (gonvm.Use hostOk "1" bareHome).2).2.fs
        "/home/u/.gonvm/bin"
        = some (Node.symlink "/home/u/.gonvm/versions/node-v1-linux-x64/bin")
    ∧ "/home/u/.gonvm" ++ "/versions/" ++ gonvm.getDirName linuxAmd64 "z/../node-v1" ++ "/bin"
        = "/home/u/.gonvm/versions/node-vz/../node-v1-linux-x64/bin"
    ∧ "/home/u/.gonvm/versions/node-v1-linux-x64/bin"
        ≠ "/home/u/.gonvm" ++ "/versions/" ++ gonvm.getDirName linuxAmd64 "z/../node-v1"
            ++ "/bin" :=
  ⟨by decide, rfl, rfl, rfl, rfl, rfl, by decide, by decide⟩

/-- C6, as stated, fails: when `Init` fails because the managed root cannot be
created, `Use` returns the error of `os.MkdirAll` as it is, and that error does
not mention the requested version. -/
theorem Use_init_error_not_annotated :
    (gonvm.Init hostReadOnly bareHome).1
        = Except.error "mkdir /home/u/.gonvm: permission denied"
    ∧ gonvm.Use hostReadOnly "18.16.0" bareHome = gonvm.Init hostReadOnly bareHome
    ∧ (gonvm.Use hostReadOnly "18.16.0" bareHome).1
        = Except.error "mkdir /home/u/.gonvm: permission denied"
    ∧ ¬ ("18.16.0".data <:+: "mkdir /home/u/.gonvm: permission denied".data) :=
  ⟨rfl, rfl, rfl, by decide⟩

/-- The short-circuit applied to an archive that does not unpack: `Init` and
`Download` succeed, the installation entry is missing, `Unarchive` fails, and
`Use` returns the result of `Unarchive` with its annotated error; no call of
`os.RemoveAll` or `os.Symlink` follows the extraction. -/
theorem Use_error_cases_witness :
    gonvm.exist hostBadArchive
        (gonvm.Download hostBadArchive "18.16.0" (gonvm.Init hostBadArchive bareHome).2).2.fs
        "/home/u/.gonvm/versions/node-v18.16.0-linux-x64" = false
    ∧ (gonvm.Unarchive hostBadArchive "18.16.0"
        (gonvm.Download hostBadArchive "18.16.0" (gonvm.Init hostBadArchive bareHome).2).2).1
        = Except.error "Failed to unarchive node version 18.16.0 with error: unexpected EOF"
    ∧ gonvm.Use hostBadArchive "18.16.0" bareHome
        = gonvm.Unarchive hostBadArchive "18.16.0"
            (gonvm.Download hostBadArchive "18.16.0" (gonvm.Init hostBadArchive bareHome).2).2
    ∧ (gonvm.Use hostBadArchive "18.16.0" bareHome).1
        = Except.error "Failed to unarchive node version 18.16.0 with error: unexpected EOF" :=
  have h := (Use_error_cases hostBadArchive "18.16.0" bareHome).2.2.1
    "/home/u/.gonvm/sources/node-v18.16.0-linux-x64.tar.gz"
    "/home/u/.gonvm/versions/node-v18.16.0-linux-x64"
    (gonvm.Init hostBadArchive bareHome).2
    (gonvm.Download hostBadArchive "18.16.0" (gonvm.Init hostBadArchive bareHome).2).2
    "Failed to unarchive node version 18.16.0 with error: unexpected EOF"
    rfl rfl rfl rfl rfl rfl
  ⟨rfl, rfl, h.1, h.2.1⟩

/-- The bound on the number of pieces applied to the entry of "18.16.0". -/
theorem List_never_panics_witness :
    filepath.globMatch "node-*".data "node-v18.16.0-linux-x64".data = true
    ∧ 2 ≤ (strings.Split (strings.ReplaceAll
              ("/home/u/.gonvm/versions" ++ "/" ++ "node-v18.16.0-linux-x64")
              ("/home/u/.gonvm/versions" ++ "/") "") "-").length :=
  ⟨by decide,
    (List_never_panics.1 "/home/u/.gonvm/versions" "node-v18.16.0-linux-x64" (by decide)).1⟩

end GoNVM
